import Mathlib

/-!
The `meta` data format of `pack`: value model, parser, composer, accessors.

A shallow embedding of `src/meta.h`.

* Bytes (`char`) are natural numbers; a C string is the list of its bytes
  before the terminating NUL.
* The parser's cursor (`char **string`) is the list of bytes that lie from the
  cursor to the end of the input buffer, the terminating NUL included; the
  empty list is the cursor one past the terminator, where every read leaves
  the buffer.
* A failed `META_ASSERT` (which prints and calls `exit`) and an access outside
  the addressed object are results of type `meta_error`.
-/

namespace Pack

/-! ## Constants -/

/-- The macro `META_MAX_OBJ_FIELDS`. -/
abbrev META_MAX_OBJ_FIELDS : Nat := 128
/-- The macro `META_MAX_OBJ_FIELD_LEN`. -/
abbrev META_MAX_OBJ_FIELD_LEN : Nat := 128
/-- The macro `META_MAX_STRING_LEN`. -/
abbrev META_MAX_STRING_LEN : Nat := 128
/-- The macro `META_MAX_ARRAY_LEN`. -/
abbrev META_MAX_ARRAY_LEN : Nat := 128
/-- The largest value of the platform `int` (32 bits). -/
abbrev INT_MAX : Nat := 2147483647

/-! ## Values -/

/-- The struct `meta_value`: the tag `type` and the member of `data` it selects.
An array is its first `present` item slots; an object is its first `present`
pairs of a name row (`fields[i]`, the bytes before the first NUL of the row, at
most 128) and a field value (`*field_data[i]`). A string is the bytes of
`data.string` before its first NUL. -/
inductive meta_value where
  | integer (n : Int)
  | string (s : List Nat)
  | array (items : List meta_value)
  | obj (fields : List (List Nat × meta_value))
  | null

/-- The ways a call can end without returning: each `META_ASSERT` of the
source, an access outside the bounds of the object it addresses (`undefined`),
and a loop of the embedding that ran out of its iteration bound. -/
inductive meta_error where
  /-- `Expected 'want' got 'got'`. -/
  | expected (want got : Nat)
  /-- `First character of field name ought to be alphabetic`. -/
  | ident_not_alphabetic
  /-- `Unknown character`. -/
  | unknown_character (c : Nat)
  /-- `Unterminated string literal`. -/
  | unterminated_string
  /-- `Expected a numeric char`. -/
  | expected_numeric (c : Nat)
  /-- `Only objects support field access`. -/
  | only_objects
  /-- `Only arrays support indexing`. -/
  | only_arrays_index
  /-- `Only arrays have length`. -/
  | only_arrays_length
  /-- `Field name not sanitized`. -/
  | not_sanitized
  /-- An access outside the object addressed: the behaviour is not defined. -/
  | undefined
  /-- The iteration bound of the embedding was reached. -/
  | out_of_fuel
deriving DecidableEq, Repr

/-- The outcome of a call: a result or a `meta_error`. -/
abbrev Result (α : Type) : Type := Except meta_error α

/-! ## Structural equality -/

mutual
/-- Structural equality of two values is decidable: same kind, same payload,
same children in the same order. -/
def meta_value.decEq : (a b : meta_value) → Decidable (a = b)
  | .integer a, .integer b => decidable_of_iff (a = b) (by simp)
  | .string a, .string b => decidable_of_iff (a = b) (by simp)
  | .array a, .array b => @decidable_of_iff _ (a = b) (by simp) (decEq_items a b)
  | .obj a, .obj b => @decidable_of_iff _ (a = b) (by simp) (decEq_fields a b)
  | .null, .null => isTrue rfl
  | .integer _, .string _ | .integer _, .array _ | .integer _, .obj _ | .integer _, .null
  | .string _, .integer _ | .string _, .array _ | .string _, .obj _ | .string _, .null
  | .array _, .integer _ | .array _, .string _ | .array _, .obj _ | .array _, .null
  | .obj _, .integer _ | .obj _, .string _ | .obj _, .array _ | .obj _, .null
  | .null, .integer _ | .null, .string _ | .null, .array _ | .null, .obj _ =>
    isFalse (by simp)
/-- Equality of two item lists is decidable. -/
def decEq_items : (a b : List meta_value) → Decidable (a = b)
  | [], [] => isTrue rfl
  | [], _ :: _ => isFalse (by simp)
  | _ :: _, [] => isFalse (by simp)
  | a :: as, b :: bs =>
    @decidable_of_iff _ (a = b ∧ as = bs) (by simp)
      (@instDecidableAnd _ _ (meta_value.decEq a b) (decEq_items as bs))
/-- Equality of two field lists is decidable. -/
def decEq_fields : (a b : List (List Nat × meta_value)) → Decidable (a = b)
  | [], [] => isTrue rfl
  | [], _ :: _ => isFalse (by simp)
  | _ :: _, [] => isFalse (by simp)
  | (n, a) :: as, (m, b) :: bs =>
    @decidable_of_iff _ (n = m ∧ a = b ∧ as = bs) (by simp [and_assoc])
      (@instDecidableAnd _ _ inferInstance
        (@instDecidableAnd _ _ (meta_value.decEq a b) (decEq_fields as bs)))
end

instance : DecidableEq meta_value := meta_value.decEq

instance {ε α : Type} [DecidableEq ε] [DecidableEq α] : DecidableEq (Except ε α)
  | .ok a, .ok b => decidable_of_iff (a = b) (by simp)
  | .error a, .error b => decidable_of_iff (a = b) (by simp)
  | .ok _, .error _ => isFalse (by simp)
  | .error _, .ok _ => isFalse (by simp)

/-- The bytes of a text. -/
def bytes (s : String) : List Nat := s.toList.map Char.toNat

/-! ## Character classes -/

/-- The function `_meta_is_numeric`. -/
def _meta_is_numeric (c : Nat) : Bool := decide (c ≥ 48) && decide (c ≤ 57)

/-- The function `_meta_is_alphabetic`. -/
def _meta_is_alphabetic (c : Nat) : Bool :=
  (decide (c ≥ 97) && decide (c ≤ 122)) || (decide (c ≥ 65) && decide (c ≤ 90)) || decide (c = 95)

/-- The function `_meta_is_alphanumeric`. -/
def _meta_is_alphanumeric (c : Nat) : Bool := _meta_is_numeric c || _meta_is_alphabetic c

/-! ## Parser -/

/-- The loop of `_meta_skip_comment`: advance to the next LF or NUL. -/
def _meta_skip_comment_loop : List Nat → Result (List Nat)
  | [] => .error .undefined
  | c :: rest => if c = 10 ∨ c = 0 then .ok (c :: rest) else _meta_skip_comment_loop rest

/-- The function `_meta_skip_comment`. -/
def _meta_skip_comment : List Nat → Result (List Nat)
  | [] => .error .undefined
  | c :: rest => if c = 35 then _meta_skip_comment_loop (c :: rest) else .error (.expected 35 c)

/-- The loop of `_meta_skip_whitespace`, at most `fuel` iterations. -/
def _meta_skip_whitespace_loop : Nat → List Nat → Result (List Nat)
  | 0, _ => .error .out_of_fuel
  | _ + 1, [] => .error .undefined
  | fuel + 1, c :: rest =>
    if c = 32 ∨ c = 9 ∨ c = 10 ∨ c = 13 then _meta_skip_whitespace_loop fuel rest
    else if c = 35 then
      match _meta_skip_comment (c :: rest) with
      | .ok s => _meta_skip_whitespace_loop fuel s
      | .error e => .error e
    else .ok (c :: rest)

/-- The function `_meta_skip_whitespace`. Every iteration advances the cursor,
so one iteration per remaining byte and one more to return are enough. -/
def _meta_skip_whitespace (s : List Nat) : Result (List Nat) :=
  _meta_skip_whitespace_loop (s.length + 1) s

/-- The loop of `_meta_load_ident`. The counter `i` stays `0`: the source never
increments it, so the guard `i < dest_len - 1` reads `0 < dest_len - 1`. The
result is the bytes stored through `dest` (before the final NUL) and the
cursor. -/
def _meta_load_ident_loop (dest_len : Int) : List Nat → Result (List Nat × List Nat)
  | [] => .error .undefined
  | c :: rest =>
    if _meta_is_alphanumeric c = true ∧ (0 : Int) < dest_len - 1 then
      match _meta_load_ident_loop dest_len rest with
      | .ok (d, s) => .ok (c :: d, s)
      | .error e => .error e
    else .ok ([], c :: rest)

/-- The function `_meta_load_ident`: the bytes written to `dest` before the
terminating NUL, and the cursor. It writes one byte more than it returns. -/
def _meta_load_ident (s : List Nat) (dest_len : Int) : Result (List Nat × List Nat) :=
  match s with
  | [] => .error .undefined
  | c :: _ =>
    if _meta_is_alphabetic c = true then _meta_load_ident_loop dest_len s
    else .error .ident_not_alphabetic

/-- The search loop of `_meta_parse_string` together with the assertion and the
cursor update that follow it: the bytes before `searching_ptr`, and the cursor
`searching_ptr + 1`. The assertion compares with the character `'0'` (48). -/
def _meta_parse_string_search : List Nat → Result (List Nat × List Nat)
  | [] => .error .undefined
  | c :: rest =>
    if c ≠ 34 ∧ c ≠ 0 then
      match _meta_parse_string_search rest with
      | .ok (d, s) => .ok (c :: d, s)
      | .error e => .error e
    else if c = 48 then .error .unterminated_string
    else .ok ([], rest)

/-- The function `_meta_parse_string`: the `string_len` bytes copied into the
allocation `parsed` (no NUL is stored behind them) and the cursor. -/
def _meta_parse_string : List Nat → Result (List Nat × List Nat)
  | [] => .error .undefined
  | c :: rest => if c = 34 then _meta_parse_string_search rest else .error (.expected 34 c)

/-- The copy loop of the string case of `_meta_parse_value`:
`for (i = 0; i < META_MAX_STRING_LEN && str[i] != 0; ++i)`. The allocation
`str` holds `str.length` bytes; `heap k` is the byte found `k` bytes behind it,
which the loop reads when it meets no NUL inside the allocation. -/
def _meta_copy_string (heap : Nat → Nat) (str : List Nat) : List Nat :=
  ((str ++ (List.range META_MAX_STRING_LEN).map heap).take META_MAX_STRING_LEN).takeWhile
    (fun c => decide (c ≠ 0))

/-- The function `atoi` on a buffer of decimal digits: base-10 accumulation. -/
def atoi_digits (digits : List Nat) : Nat :=
  digits.foldl (fun acc c => 10 * acc + (c - 48)) 0

/-- The scanning loop of `_meta_parse_int`: the run of numeric bytes at the
cursor, and the cursor behind it. -/
def _meta_parse_int_loop : List Nat → Result (List Nat × List Nat)
  | [] => .error .undefined
  | c :: rest =>
    if _meta_is_numeric c = true then
      match _meta_parse_int_loop rest with
      | .ok (d, s) => .ok (c :: d, s)
      | .error e => .error e
    else .ok ([], c :: rest)

/-- The function `_meta_parse_int`. A value above `INT_MAX` is not
representable, and `atoi` is not defined on it. -/
def _meta_parse_int : List Nat → Result (Int × List Nat)
  | [] => .error .undefined
  | c :: rest =>
    if _meta_is_numeric c = true then
      match _meta_parse_int_loop rest with
      | .ok (d, s) =>
        if atoi_digits (c :: d) ≤ INT_MAX then .ok ((atoi_digits (c :: d) : Nat), s)
        else .error .undefined
      | .error e => .error e
    else .error (.expected_numeric c)

/-- One `META_ASSERT( *( ( *string )++ ) == want, ... )`. -/
def expect_char (want : Nat) : List Nat → Result (List Nat)
  | [] => .error .undefined
  | c :: rest => if c = want then .ok rest else .error (.expected want c)

/-- The function `_meta_parse_null`. -/
def _meta_parse_null (s : List Nat) : Result (List Nat) := do
  let s ← expect_char 110 s
  let s ← expect_char 117 s
  let s ← expect_char 108 s
  expect_char 108 s

/-- The `while ( **string != ')' )` loop of `_meta_parse_obj`, at most `fuel`
iterations; `parse_value` is `_meta_parse_value`. `_meta_load_ident` stores the
name and its NUL in row `obj.present` of `fields`, which has 128 rows of 128
bytes. -/
def _meta_parse_obj_loop (parse_value : List Nat → Result (meta_value × List Nat)) :
    Nat → List (List Nat × meta_value) → List Nat →
      Result (List (List Nat × meta_value) × List Nat)
  | 0, _, _ => .error .out_of_fuel
  | _ + 1, _, [] => .error .undefined
  | fuel + 1, obj, c :: rest =>
    if c = 41 then .ok (obj, c :: rest)
    else do
      let s ← _meta_skip_whitespace (c :: rest)
      let (name, s) ← _meta_load_ident s META_MAX_OBJ_FIELD_LEN
      if obj.length ≥ META_MAX_OBJ_FIELDS ∨ name.length + 1 > META_MAX_OBJ_FIELD_LEN then
        throw meta_error.undefined
      let s ← _meta_skip_whitespace s
      let s ← expect_char 58 s
      let s ← _meta_skip_whitespace s
      let (v, s) ← parse_value s
      let s ← _meta_skip_whitespace s
      _meta_parse_obj_loop parse_value fuel (obj ++ [(name, v)]) s

/-- The function `_meta_parse_obj`. Every iteration of its loop advances the
cursor, so one iteration per remaining byte and one more to leave are
enough. -/
def _meta_parse_obj (parse_value : List Nat → Result (meta_value × List Nat))
    (s : List Nat) : Result (List (List Nat × meta_value) × List Nat) := do
  let s ← _meta_skip_whitespace s
  let s ← expect_char 40 s
  let (obj, s) ← _meta_parse_obj_loop parse_value (s.length + 1) [] s
  let s ← expect_char 41 s
  return (obj, s)

/-- The `while ( **string != ']' )` loop of `_meta_parse_array`, at most `fuel`
iterations. Item `array.present` goes to slot `array.present` of `items`, which
has 128 slots. -/
def _meta_parse_array_loop (parse_value : List Nat → Result (meta_value × List Nat)) :
    Nat → List meta_value → List Nat → Result (List meta_value × List Nat)
  | 0, _, _ => .error .out_of_fuel
  | _ + 1, _, [] => .error .undefined
  | fuel + 1, array, c :: rest =>
    if c = 93 then .ok (array, c :: rest)
    else do
      let (val, s) ← parse_value (c :: rest)
      if array.length ≥ META_MAX_ARRAY_LEN then throw meta_error.undefined
      let s ← _meta_skip_whitespace s
      _meta_parse_array_loop parse_value fuel (array ++ [val]) s

/-- The function `_meta_parse_array`. -/
def _meta_parse_array (parse_value : List Nat → Result (meta_value × List Nat))
    (s : List Nat) : Result (List meta_value × List Nat) := do
  let s ← expect_char 91 s
  let s ← _meta_skip_whitespace s
  let (array, s) ← _meta_parse_array_loop parse_value (s.length + 1) [] s
  let s ← expect_char 93 s
  return (array, s)

/-- The function `_meta_parse_value`; `fuel` bounds the nesting of objects and
arrays. `heap` gives the bytes that lie behind an allocation of
`_meta_parse_string` during this parse; another parse may find other bytes
there. -/
def _meta_parse_value (heap : Nat → Nat) : Nat → List Nat → Result (meta_value × List Nat)
  | _, [] => .error .undefined
  | fuel, c :: rest =>
    if c = 34 then do
      let (str, s) ← _meta_parse_string (c :: rest)
      return (.string (_meta_copy_string heap str), s)
    else if c = 40 then
      match fuel with
      | 0 => .error .out_of_fuel
      | fuel + 1 => do
        let (obj, s) ← _meta_parse_obj (_meta_parse_value heap fuel) (c :: rest)
        return (.obj obj, s)
    else if c = 91 then
      match fuel with
      | 0 => .error .out_of_fuel
      | fuel + 1 => do
        let (array, s) ← _meta_parse_array (_meta_parse_value heap fuel) (c :: rest)
        return (.array array, s)
    else if c = 110 then do
      let s ← _meta_parse_null (c :: rest)
      return (.null, s)
    else if _meta_is_numeric c = true then do
      let (n, s) ← _meta_parse_int (c :: rest)
      return (.integer n, s)
    else .error (.unknown_character c)

/-- The function `meta_parse_string` on the NUL-terminated text `string`,
together with the final position of its local cursor. Containers nest at most
once per byte of text. -/
def meta_parse_string_cursor (heap : Nat → Nat) (string : List Nat) :
    Result (meta_value × List Nat) :=
  _meta_parse_value heap (string.length + 1) (string ++ [0])

/-- The function `meta_parse_string`. -/
def meta_parse_string (heap : Nat → Nat) (string : List Nat) : Result meta_value :=
  match meta_parse_string_cursor heap string with
  | .ok (v, _) => .ok v
  | .error e => .error e

/-! ## Memory and the C library calls of the composer

The destination is a region of `mem.length` bytes; a pointer into it is an
offset from its first byte. `dest_len` is a `size_t` (64 bits). -/

/-- Store one byte: `*p = b`. -/
def mem_write (mem : List Nat) (off b : Nat) : Result (List Nat) :=
  if off < mem.length then .ok (mem.set off b) else .error .undefined

/-- Store the bytes `bs` at consecutive offsets from `off`. -/
def mem_write_bytes (mem : List Nat) (off : Nat) : List Nat → Result (List Nat)
  | [] => .ok mem
  | b :: bs =>
    match mem_write mem off b with
    | .ok m => mem_write_bytes m (off + 1) bs
    | .error e => .error e

/-- The library call `strlen( mem + off )`: the bytes before the first NUL. -/
def strlen (mem : List Nat) (off : Nat) : Result Nat :=
  let n := ((mem.drop off).takeWhile (fun c => decide (c ≠ 0))).length
  if n < (mem.drop off).length then .ok n else .error .undefined

/-- The library call `snprintf( mem + dest, n, ... )` whose complete output
would be `out`: nothing for `n = 0`, else the first `n - 1` bytes of `out` and
a NUL. -/
def snprintf (mem : List Nat) (dest n : Nat) (out : List Nat) : Result (List Nat) :=
  if n = 0 then .ok mem else mem_write_bytes mem dest (out.take (n - 1) ++ [0])

/-- The library call `strncat( mem + dest, src, n )`: at the end of the string
that starts at `dest`, at most `n` bytes of `src` and a NUL. -/
def strncat (mem : List Nat) (dest : Nat) (src : List Nat) (n : Nat) : Result (List Nat) :=
  match strlen mem dest with
  | .ok l => mem_write_bytes mem (dest + l) (src.take n ++ [0])
  | .error e => .error e

/-- The library call `strncpy( mem + dest, src, n )`: exactly `n` bytes, those
of `src` and then NULs. -/
def strncpy (mem : List Nat) (dest : Nat) (src : List Nat) (n : Nat) : Result (List Nat) :=
  if dest + n > mem.length then .error .undefined
  else mem_write_bytes mem dest (src.take n ++ List.replicate (n - src.length) 0)

/-- Subtraction of `size_t`: modulo `2 ^ 64`. -/
def size_sub (a b : Nat) : Nat := (a % 2 ^ 64 + 2 ^ 64 - b % 2 ^ 64) % 2 ^ 64

/-! ## Composer -/

/-- The decimal digits of `n`, most significant first, at most `fuel` of
them. -/
def decimal_digits : Nat → Nat → List Nat
  | 0, _ => []
  | fuel + 1, n =>
    if n < 10 then [48 + n] else decimal_digits fuel (n / 10) ++ [48 + n % 10]

/-- The output of the conversion `%d`. -/
def format_int (n : Int) : List Nat :=
  if n < 0 then 45 :: decimal_digits (n.natAbs + 1) n.natAbs
  else decimal_digits (n.natAbs + 1) n.natAbs

/-- The C string that starts at row `i` of `fields`, given the names in the
rows from `i` on: a row of 128 bytes has no NUL, and the string runs on into
the next row. The rows from `present` on are zero; behind row 127 the array
ends. -/
def field_cstr : Nat → List (List Nat) → Result (List Nat)
  | i, [] => if i < META_MAX_OBJ_FIELDS then .ok [] else .error .undefined
  | i, name :: rest =>
    if name.length < META_MAX_OBJ_FIELD_LEN then .ok name
    else
      match field_cstr (i + 1) rest with
      | .ok t => .ok (name ++ t)
      | .error e => .error e

/-- The function `_meta_compose_int`. -/
def _meta_compose_int (integer : Int) (mem : List Nat) (dest dest_len : Nat) :
    Result (List Nat × Nat) := do
  let mem ← snprintf mem dest dest_len (format_int integer)
  let l ← strlen mem dest
  return (mem, dest + l)

/-- The function `_meta_compose_string`. -/
def _meta_compose_string (string : List Nat) (mem : List Nat) (dest dest_len : Nat) :
    Result (List Nat × Nat) := do
  let mem ← snprintf mem dest dest_len (34 :: string ++ [34])
  let l ← strlen mem dest
  return (mem, dest + l)

/-- The function `_meta_compose_null`. -/
def _meta_compose_null (mem : List Nat) (dest dest_len : Nat) : Result (List Nat × Nat) := do
  let mem ← strncpy mem dest [110, 117, 108, 108] dest_len
  return (mem, dest + 4)

/-- The function `_meta_compose_obj` around its `for` loop, which is
`loop`. -/
def _meta_compose_obj (loop : List Nat → Nat → Result (List Nat × Nat))
    (mem : List Nat) (dest dest_len : Nat) : Result (List Nat × Nat) := do
  let mem ← strncat mem dest [40, 32] dest_len
  let (mem, dest) ← loop mem (dest + 2)
  let mem ← strncat mem dest [41] dest_len
  return (mem, dest + 1)

/-- The function `_meta_compose_array` around its `for` loop, which is
`loop`. -/
def _meta_compose_array (loop : List Nat → Nat → Result (List Nat × Nat))
    (mem : List Nat) (dest dest_len : Nat) : Result (List Nat × Nat) := do
  let start := dest
  let mem ← strncat mem start [91, 32] dest_len
  let (mem, dest) ← loop mem (dest + 2)
  let mem ← strncat mem start [93] dest_len
  return (mem, dest + 1)

mutual
/-- The function `_meta_compose`: the memory after the call and the pointer
returned. -/
def _meta_compose : meta_value → List Nat → Nat → Nat → Result (List Nat × Nat)
  | .integer n, mem, dest, dest_len => _meta_compose_int n mem dest dest_len
  | .string s, mem, dest, dest_len => _meta_compose_string s mem dest dest_len
  | .obj fields, mem, dest, dest_len =>
    _meta_compose_obj (_meta_compose_obj_loop fields 0 dest dest_len) mem dest dest_len
  | .array items, mem, dest, dest_len =>
    _meta_compose_array (_meta_compose_array_loop items dest dest_len) mem dest dest_len
  | .null, mem, dest, dest_len => _meta_compose_null mem dest dest_len
/-- The `for` loop of `_meta_compose_obj` from field `i` on. -/
def _meta_compose_obj_loop :
    List (List Nat × meta_value) → Nat → Nat → Nat → List Nat → Nat → Result (List Nat × Nat)
  | [], _, _, _, mem, dest => .ok (mem, dest)
  | (name, value) :: rest, i, start, dest_len, mem, dest => do
    let field_name ← field_cstr i (name :: rest.map Prod.fst)
    let mem ← mem_write_bytes mem dest field_name
    let dest := dest + field_name.length
    let mem ← mem_write mem dest 58
    let dest := dest + 1
    let (mem, dest) ← _meta_compose value mem dest (size_sub dest_len (dest - start))
    let mem ← mem_write mem dest 32
    _meta_compose_obj_loop rest (i + 1) start dest_len mem (dest + 1)
/-- The `for` loop of `_meta_compose_array`. -/
def _meta_compose_array_loop :
    List meta_value → Nat → Nat → List Nat → Nat → Result (List Nat × Nat)
  | [], _, _, mem, dest => .ok (mem, dest)
  | value :: rest, start, dest_len, mem, dest => do
    let (mem, dest) ← _meta_compose value mem dest dest_len
    let mem ← strncat mem start [32] dest_len
    _meta_compose_array_loop rest start dest_len mem (dest + 1)
end

/-- The function `meta_compose`: the memory after the call. -/
def meta_compose (value : meta_value) (mem : List Nat) (dest_len : Nat) : Result (List Nat) := do
  let (mem, e) ← _meta_compose value mem 0 dest_len
  mem_write mem e 0

/-! ## Constructors and accessors -/

/-- The macro `meta_new_obj`. -/
def meta_new_obj : meta_value := .obj []

/-- The macro `meta_new_array`. -/
def meta_new_array : meta_value := .array []

/-- The macro `meta_new_integer`. -/
def meta_new_integer (int_data : Int) : meta_value := .integer int_data

/-- The macro `meta_new_string`: `strncpy` of at most `META_MAX_STRING_LEN`
bytes of the C string `string_data` into a zeroed value. -/
def meta_new_string (string_data : List Nat) : meta_value :=
  .string (string_data.take META_MAX_STRING_LEN)

/-- The function `_meta_is_field_sanitized` on the C string `field_name`; the
byte at the end of the empty string is the NUL, which is not alphabetic. -/
def _meta_is_field_sanitized (field_name : List Nat) : Bool :=
  match field_name with
  | [] => false
  | c :: _ => _meta_is_alphabetic c && field_name.all _meta_is_alphanumeric

/-- The test `strncmp( row, field_name, META_MAX_OBJ_FIELD_LEN ) == 0` on a
name row and a C string. -/
def strncmp_eq (row field_name : List Nat) : Bool :=
  decide (row.take META_MAX_OBJ_FIELD_LEN = field_name.take META_MAX_OBJ_FIELD_LEN)

/-- The first `for` loop of `meta_set_field`: the fields after the assignment
`*field_data[i] = *new_value` at the first row that compares equal, or `none`
when the loop ends without a match. -/
def meta_set_field_loop (field_name : List Nat) (new_value : meta_value) :
    List (List Nat × meta_value) → Option (List (List Nat × meta_value))
  | [] => none
  | (row, v) :: rest =>
    if strncmp_eq row field_name = true then some ((row, new_value) :: rest)
    else
      match meta_set_field_loop field_name new_value rest with
      | some rest' => some ((row, v) :: rest')
      | none => none

/-- The function `meta_set_field`: the value returned and `*value` after the
call. -/
def meta_set_field (value : meta_value) (field_name : List Nat) (new_value : meta_value) :
    Result (Bool × meta_value) :=
  match value with
  | .obj fields =>
    if _meta_is_field_sanitized field_name = true then
      match meta_set_field_loop field_name new_value fields with
      | some fields' => .ok (true, .obj fields')
      | none =>
        if fields.length + 1 < META_MAX_OBJ_FIELDS then
          .ok (true, .obj (fields ++ [(field_name.take META_MAX_OBJ_FIELD_LEN, new_value)]))
        else .ok (false, .obj fields)
    else .error .not_sanitized
  | _ => .error .only_objects

/-- The function `meta_get_nth`: `some v` when it returns `true` after storing
`v` in `*out`, `none` when it returns `false` and leaves `*out` alone. The
only test is `idx >= present`; the slot `items[idx]` of a negative `idx` lies
before the array. -/
def meta_get_nth (value : meta_value) (idx : Int) : Result (Option meta_value) :=
  match value with
  | .array items =>
    if idx ≥ (items.length : Int) then .ok none
    else if idx < 0 then .error .undefined
    else
      match items.get? idx.toNat with
      | some v => .ok (some v)
      | none => .error .undefined
  | _ => .error .only_arrays_index

/-- The function `meta_set_nth`: the value returned and `*value` after the
call. The array `items` has `META_MAX_ARRAY_LEN` slots. -/
def meta_set_nth (value : meta_value) (idx : Int) (new_val : meta_value) :
    Result (Bool × meta_value) :=
  match value with
  | .array items =>
    if idx > (items.length : Int) then .ok (false, .array items)
    else if idx = (items.length : Int) then
      if items.length < META_MAX_ARRAY_LEN then .ok (true, .array (items ++ [new_val]))
      else .error .undefined
    else if idx < 0 then .error .undefined
    else .ok (false, .array (items.set idx.toNat new_val))
  | _ => .error .only_arrays_index

/-- The function `meta_array_len`. -/
def meta_array_len (value : meta_value) : Result Int :=
  match value with
  | .array items => .ok (items.length : Int)
  | _ => .error .only_arrays_length

/-! ## The rendering of the specification and its preconditions -/

mutual
/-- The text of a value as the specification gives it: decimal digits for an
integer, the payload between two quotes for a string, `null`, `[ ` and the
items each followed by a space and `]` for an array, `( ` and the fields
`name:value` each followed by a space and `)` for an object. -/
def render : meta_value → List Nat
  | .integer n => format_int n
  | .string s => 34 :: s ++ [34]
  | .array items => 91 :: 32 :: render_items items ++ [93]
  | .obj fields => 40 :: 32 :: render_fields fields ++ [41]
  | .null => [110, 117, 108, 108]
/-- The items of an array, each followed by a space. -/
def render_items : List meta_value → List Nat
  | [] => []
  | value :: rest => render value ++ 32 :: render_items rest
/-- The fields of an object, each `name:value` followed by a space. -/
def render_fields : List (List Nat × meta_value) → List Nat
  | [] => []
  | (name, value) :: rest => name ++ 58 :: render value ++ 32 :: render_fields rest
end

mutual
/-- Every string of the value is free of NUL bytes, and every name row is free
of NUL bytes and ends inside its 128 bytes: each is the C string the composer
reads. -/
def terminated : meta_value → Bool
  | .integer _ => true
  | .string s => s.all (fun c => decide (c ≠ 0))
  | .array items => terminated_items items
  | .obj fields => terminated_fields fields
  | .null => true
/-- The items of an array are `terminated`. -/
def terminated_items : List meta_value → Bool
  | [] => true
  | value :: rest => terminated value && terminated_items rest
/-- The fields of an object are `terminated`. -/
def terminated_fields : List (List Nat × meta_value) → Bool
  | [] => true
  | (name, value) :: rest =>
    decide (name.length < META_MAX_OBJ_FIELD_LEN) && name.all (fun c => decide (c ≠ 0)) &&
      terminated value && terminated_fields rest
end

mutual
/-- The values the grammar can express within the capacities: an integer is
non-negative and at most `INT_MAX`; a string has at most 128 bytes, none of
them a quote or a NUL; an array has at most 128 items; an object has between 1
and 128 fields, each name sanitized and shorter than 128 bytes. -/
def well_formed : meta_value → Bool
  | .integer n => decide (0 ≤ n) && decide (n ≤ INT_MAX)
  | .string s =>
    decide (s.length ≤ META_MAX_STRING_LEN) && s.all (fun c => decide (c ≠ 0) && decide (c ≠ 34))
  | .array items => decide (items.length ≤ META_MAX_ARRAY_LEN) && well_formed_items items
  | .obj fields =>
    decide (fields ≠ []) && decide (fields.length ≤ META_MAX_OBJ_FIELDS) &&
      well_formed_fields fields
  | .null => true
/-- The items of an array are `well_formed`. -/
def well_formed_items : List meta_value → Bool
  | [] => true
  | value :: rest => well_formed value && well_formed_items rest
/-- The fields of an object have sanitized names shorter than 128 bytes and
`well_formed` values. -/
def well_formed_fields : List (List Nat × meta_value) → Bool
  | [] => true
  | (name, value) :: rest =>
    _meta_is_field_sanitized name && decide (name.length < META_MAX_OBJ_FIELD_LEN) &&
      well_formed value && well_formed_fields rest
end

/-- A byte that is neither whitespace nor the start of a comment. -/
def is_token_byte (c : Nat) : Bool :=
  decide (c ≠ 32) && decide (c ≠ 9) && decide (c ≠ 10) && decide (c ≠ 13) && decide (c ≠ 35)

/-- A byte that `_meta_parse_value` accepts as the first of a value. -/
def is_value_start (c : Nat) : Bool :=
  decide (c = 34) || decide (c = 40) || decide (c = 91) || decide (c = 110) || _meta_is_numeric c

/-- The C string that starts at the first byte of `mem`: the bytes before the
first NUL. -/
def c_string (mem : List Nat) : List Nat := mem.takeWhile (fun c => decide (c ≠ 0))

/-- The object of the concrete scenario of the specification: `width=64`,
`height=32`, `name="tile"`, `tags=[1,2,3]`, `meta=Null`. -/
def example_tile : meta_value :=
  .obj [(bytes "width", .integer 64), (bytes "height", .integer 32),
    (bytes "name", .string (bytes "tile")),
    (bytes "tags", .array [.integer 1, .integer 2, .integer 3]), (bytes "meta", .null)]

/-- A heap in which the byte behind every allocation is NUL. -/
def zero_heap : Nat → Nat := fun _ => 0

/-- The test `strcmp( fields[i], field_name ) == 0`, given the name rows from
`i` on. `strcmp` compares byte by byte up to the first difference or NUL: a row
of 128 bytes holds no NUL, so after 128 equal bytes the comparison runs on into
row `i + 1`. The rows from `present` on are zero; behind row 127 the array
ends. -/
def strcmp_eq : Nat → List (List Nat) → List Nat → Result Bool
  | i, [], field_name =>
    if i < META_MAX_OBJ_FIELDS then .ok (decide (field_name = [])) else .error .undefined
  | i, row :: rest, field_name =>
    if row.length < META_MAX_OBJ_FIELD_LEN then .ok (decide (row = field_name))
    else if field_name.take META_MAX_OBJ_FIELD_LEN = row then
      strcmp_eq (i + 1) rest (field_name.drop META_MAX_OBJ_FIELD_LEN)
    else .ok false

/-- The `for` loop of `meta_get_field` from field `i` on: `some v` when it
stores `v` in `*field_value` and returns `true`, `none` when it ends without
a match. -/
def meta_get_field_loop (field_name : List Nat) :
    Nat → List (List Nat × meta_value) → Result (Option meta_value)
  | _, [] => .ok none
  | i, (row, v) :: rest =>
    match strcmp_eq i (row :: rest.map Prod.fst) field_name with
    | .ok true => .ok (some v)
    | .ok false => meta_get_field_loop field_name (i + 1) rest
    | .error e => .error e

/-- The function `meta_get_field`: `some v` when it returns `true` after
storing `v` in `*field_value`, `none` when it returns `false`. -/
def meta_get_field (value : meta_value) (field_name : List Nat) : Result (Option meta_value) :=
  match value with
  | .obj fields =>
    if _meta_is_field_sanitized field_name = true then meta_get_field_loop field_name 0 fields
    else .error .not_sanitized
  | _ => .error .only_objects

/-- A name of 128 bytes: 128 times the letter `a`. -/
def name_128 : List Nat := List.replicate 128 97

/-- The base-10 value of a run of digit bytes, most significant first. -/
def base10_value (digits : List Nat) : Nat :=
  Nat.ofDigits 10 ((digits.map (fun c => c - 48)).reverse)

/-- The decimal renderings of the integers, separated by single spaces. -/
def ints_text : List Nat → List Nat
  | [] => []
  | [n] => format_int (n : Int)
  | n :: m :: rest => format_int (n : Int) ++ 32 :: ints_text (m :: rest)

/-- The text `[`, `open_spaces` spaces, the integers separated by single
spaces, `close_spaces` spaces, `]`. -/
def array_text (open_spaces close_spaces : Nat) (ns : List Nat) : List Nat :=
  91 :: (List.replicate open_spaces 32 ++ (ints_text ns
    ++ (List.replicate close_spaces 32 ++ [93])))

mutual
/-- The trees of the round-trip claim, in its words: every Int is
non-negative and fits in `int`, every String has fewer than 128 bytes and no
quote or NUL, every Object is non-empty with pairwise distinct sanitized names
shorter than 128 bytes, and every container has at most 127 children. -/
def round_trip_class : meta_value → Bool
  | .integer n => decide (0 ≤ n) && decide (n ≤ INT_MAX)
  | .string s => decide (s.length < 128) && s.all (fun c => decide (c ≠ 0) && decide (c ≠ 34))
  | .array items => decide (items.length ≤ 127) && round_trip_class_items items
  | .obj fields =>
    decide (fields ≠ []) && decide (fields.length ≤ 127) &&
      decide ((fields.map Prod.fst).Nodup) && round_trip_class_fields fields
  | .null => true
/-- The items of an array are in the `round_trip_class`. -/
def round_trip_class_items : List meta_value → Bool
  | [] => true
  | value :: rest => round_trip_class value && round_trip_class_items rest
/-- The fields of an object have sanitized names shorter than 128 bytes and
values in the `round_trip_class`. -/
def round_trip_class_fields : List (List Nat × meta_value) → Bool
  | [] => true
  | (name, value) :: rest =>
    _meta_is_field_sanitized name && decide (name.length < 128) && round_trip_class value &&
      round_trip_class_fields rest
end

/-! ## The packer (`src/pack.c`) -/

/-- The macro `MAX_IMAGES`. -/
abbrev MAX_IMAGES : Nat := 128

/-- The struct `vec2`. -/
structure vec2 where
  x : Int
  y : Int
deriving DecidableEq, Repr

/-- The struct `rect`. -/
structure rect where
  width : Int
  height : Int
deriving DecidableEq, Repr

/-- The struct `outmost_rect`. -/
structure outmost_rect where
  topleft : vec2
  bottomright : vec2
deriving DecidableEq, Repr

/-- The struct `image`, without its pixels. -/
structure image where
  size : rect
  name : List Nat
deriving DecidableEq, Repr

/-- The globals that `pack` reads and writes: the first
`image_location_count` entries of `image_locations`, and `outmost`. -/
structure pack_state where
  image_locations : List vec2
  outmost : outmost_rect
deriving DecidableEq, Repr

/-- The globals before the first call of `pack`: no location, and `outmost`
zero. -/
def pack_initial : pack_state :=
  { image_locations := [], outmost := ⟨⟨0, 0⟩, ⟨0, 0⟩⟩ }

/-- An entry of the static array `images` that was never written. -/
def image_zero : image := { size := ⟨0, 0⟩, name := [] }

/-- The function `new_outmost`, with the global `outmost` it reads. -/
def new_outmost (outmost : outmost_rect) (img_topleft img_bottomright : vec2) : outmost_rect :=
  { topleft :=
      ⟨min outmost.topleft.x (min img_topleft.x img_bottomright.x),
        min outmost.topleft.y (min img_topleft.y img_bottomright.y)⟩,
    bottomright :=
      ⟨max outmost.bottomright.x (max img_bottomright.x img_topleft.x),
        max outmost.bottomright.y (max img_bottomright.y img_topleft.y)⟩ }

/-- The macro `INT_MIN` of the C library, for a 32-bit `int`. -/
abbrev INT_MIN : Int := -2147483648

/-- The sum of two `int`s in C: a sum outside the range of `int` is undefined
behaviour. -/
def int_add (a b : Int) : Result Int :=
  if INT_MIN ≤ a + b ∧ a + b ≤ (INT_MAX : Int) then .ok (a + b) else .error .undefined

/-- The function `pack`, with the global array `images` it reads: the globals
after the call. The array `image_locations` has `MAX_IMAGES` entries. The
first `corner` is computed before the test, also when the test replaces it. -/
def pack (images : List image) (st : pack_state) (img : image) (max_width : Int) :
    Result pack_state :=
  let image_location_count := st.image_locations.length
  if image_location_count ≥ MAX_IMAGES then .error .undefined
  else if image_location_count = 0 then
    .ok { image_locations := st.image_locations ++ [⟨0, 0⟩],
          outmost := ⟨⟨0, 0⟩, ⟨img.size.width, img.size.height⟩⟩ }
  else do
    let prev := st.image_locations.getD (image_location_count - 1) ⟨0, 0⟩
    let new_x ← int_add prev.x (images.getD (image_location_count - 1) image_zero).size.width
    let new : vec2 := ⟨new_x, prev.y⟩
    let corner_x ← int_add new.x (images.getD image_location_count image_zero).size.width
    let corner_y ← int_add new.y (images.getD image_location_count image_zero).size.height
    let corner : vec2 := ⟨corner_x, corner_y⟩
    if corner.x > max_width then do
      let new : vec2 := ⟨0, st.outmost.bottomright.y⟩
      let corner_x ← int_add new.x (images.getD image_location_count image_zero).size.width
      let corner_y ← int_add new.y (images.getD image_location_count image_zero).size.height
      let corner : vec2 := ⟨corner_x, corner_y⟩
      .ok { image_locations := st.image_locations ++ [new],
            outmost := new_outmost st.outmost new corner }
    else
      .ok { image_locations := st.image_locations ++ [new],
            outmost := new_outmost st.outmost new corner }

/-- The loop `for ( i = 0; i < image_count; ++i ) pack( images[i], max_width )`
of `main` over the images still to place. -/
def pack_loop (images : List image) (max_width : Int) : List image → pack_state → Result pack_state
  | [], st => .ok st
  | img :: rest, st =>
    match pack images st img max_width with
    | .ok st' => pack_loop images max_width rest st'
    | .error e => .error e

/-- The calls of `pack`, once per image in list order, from the initial
globals. -/
def pack_all (images : List image) (max_width : Int) : Result pack_state :=
  pack_loop images max_width images pack_initial

/-- The point `(a, b)` lies in the rectangle `[x, x+width) x [y, y+height)`. -/
def in_rect (loc : vec2) (size : rect) (a b : Int) : Prop :=
  loc.x ≤ a ∧ a < loc.x + size.width ∧ loc.y ≤ b ∧ b < loc.y + size.height

/-- The body of the metadata loop of `main` for one image and its location.
The values that `meta_set_field` returns are not looked at. -/
def main_metadata_step (image_data : meta_value) (img : image) (loc : vec2) :
    Result meta_value := do
  let image_desc := meta_value.obj []
  let (_, image_desc) ← meta_set_field image_desc (bytes "x") (.integer loc.x)
  let (_, image_desc) ← meta_set_field image_desc (bytes "y") (.integer loc.y)
  let (_, image_desc) ← meta_set_field image_desc (bytes "width") (.integer img.size.width)
  let (_, image_desc) ← meta_set_field image_desc (bytes "height") (.integer img.size.height)
  let (_, image_data) ← meta_set_field image_data img.name image_desc
  return image_data

/-- The metadata loop of `main` over the images and their locations, from the
object `image_data` built so far. -/
def main_metadata_loop : List image → List vec2 → meta_value → Result meta_value
  | img :: images, loc :: locations, image_data =>
    match main_metadata_step image_data img loc with
    | .ok image_data' => main_metadata_loop images locations image_data'
    | .error e => .error e
  | _, _, image_data => .ok image_data

/-- The object that `main` hands to `meta_compose`. -/
def main_metadata (images : List image) (locations : List vec2) : Result meta_value :=
  main_metadata_loop images locations (.obj [])

/-! ## Release -/

mutual
/-- The function `meta_free`: the calls of `META_FREE` it makes, in order. A
node is named by its path from the value: the list of the indexes of the
child slots that lead to it. -/
def meta_free : meta_value → List (List Nat)
  | .integer _ => []
  | .string _ => []
  | .null => []
  | .obj fields => meta_free_fields 0 fields
  | .array items => meta_free_items 0 items
/-- The loop of the array case of `meta_free` from item `i` on. -/
def meta_free_items : Nat → List meta_value → List (List Nat)
  | _, [] => []
  | i, value :: rest =>
    (meta_free value).map (fun p => i :: p) ++ [i] :: meta_free_items (i + 1) rest
/-- The loop of the object case of `meta_free` from field `i` on. -/
def meta_free_fields : Nat → List (List Nat × meta_value) → List (List Nat)
  | _, [] => []
  | i, (_, value) :: rest =>
    (meta_free value).map (fun p => i :: p) ++ [i] :: meta_free_fields (i + 1) rest
end

/-- The children of a value, in slot order. -/
def children : meta_value → List meta_value
  | .array items => items
  | .obj fields => fields.map Prod.snd
  | _ => []

/-- The path `p` leads from the value to one of its descendants: each index
names an occupied child slot. The empty path leads to the value itself. -/
def is_node : meta_value → List Nat → Prop
  | _, [] => True
  | v, i :: p => ∃ child, (children v).get? i = some child ∧ is_node child p

/-- In the sequence `calls`, `q` is released before `p`. -/
def released_before (calls : List (List Nat)) (q p : List Nat) : Prop :=
  ∃ A B C, calls = A ++ q :: (B ++ p :: C)

/-- The sequence `calls` releases exactly the nodes that satisfy `member`: each
of them once, and a node only after every node below it (a path that extends
its own). -/
def release_exact (calls : List (List Nat)) (member : List Nat → Prop) : Prop :=
  calls.Nodup ∧ (∀ p, p ∈ calls ↔ member p) ∧
    ∀ p q, p ∈ calls → q ∈ calls → p <+: q → p ≠ q → released_before calls q p

/-- The path `p` leads through slot `i + k` to the `k`-th of the values `cs`
or to a node below it. -/
def slot_member (i : Nat) (cs : List meta_value) (p : List Nat) : Prop :=
  ∃ k r child, cs.get? k = some child ∧ p = (i + k) :: r ∧ is_node child r

/-- The sum of the widths of the images. -/
def total_width (images : List image) : Int :=
  (images.map (fun img => img.size.width)).sum

/-- The sum of the heights of the images. -/
def total_height (images : List image) : Int :=
  (images.map (fun img => img.size.height)).sum

/-- The rectangles of two placed images share no point. -/
def disjoint_rects (p q : vec2 × image) : Prop :=
  ∀ a b, ¬ (in_rect p.1 p.2.size a b ∧ in_rect q.1 q.2.size a b)

/-- The invariant of the globals between two calls of `pack`, once the images
`done` are placed: the last image closes the current row, every image is in
that row and left of its end or above the row, and `outmost` is below every
image. -/
def pack_inv (done : List image) (st : pack_state) : Prop :=
  (done = [] ∧ st = pack_initial) ∨
  ∃ locs ploc done' pimg,
    st.image_locations = locs ++ [ploc] ∧ done = done' ++ [pimg] ∧
    locs.length = done'.length ∧
    st.image_locations.head? = some ⟨0, 0⟩ ∧
    ploc.x + pimg.size.width ≤ total_width done ∧
    st.outmost.bottomright.y ≤ total_height done ∧
    (∀ p ∈ st.image_locations.zip done,
      0 ≤ p.1.x ∧ 0 ≤ p.1.y ∧ 0 ≤ p.2.size.width ∧ 0 ≤ p.2.size.height ∧
      p.1.y + p.2.size.height ≤ st.outmost.bottomright.y ∧
      ((p.1.y = ploc.y ∧ p.1.x + p.2.size.width ≤ ploc.x + pimg.size.width) ∨
        p.1.y + p.2.size.height ≤ ploc.y)) ∧
    (st.image_locations.zip done).Pairwise disjoint_rects

/-! ## Documents: tokens, whitespace runs and comments -/

/-- A whitespace byte of `_meta_skip_whitespace`: space, tab, LF or CR. -/
def is_space (c : Nat) : Bool :=
  decide (c = 32) || decide (c = 9) || decide (c = 10) || decide (c = 13)

/-- The stopping point that the specification gives for
`_meta_skip_whitespace`: the text from the first byte on that is neither
space, tab, CR, LF nor inside a comment. A comment starts at `#` and runs to
the next LF; the NUL that ends the text ends a comment too. `in_comment` tells
whether the scan is inside a comment; `none` when the text has no such
byte. -/
def skip_whitespace_spec : Bool → List Nat → Option (List Nat)
  | _, [] => none
  | false, c :: rest =>
    if is_space c = true then skip_whitespace_spec false rest
    else if c = 35 then skip_whitespace_spec true rest
    else some (c :: rest)
  | true, c :: rest =>
    if c = 10 then skip_whitespace_spec false rest
    else if c = 0 then some (c :: rest)
    else skip_whitespace_spec true rest

/-- The bytes `g`, read from inside a comment or not, are whitespace bytes and
comments that each end at an LF. -/
def gap_scan : Bool → List Nat → Bool
  | in_comment, [] => !in_comment
  | false, c :: rest =>
    if is_space c = true then gap_scan false rest
    else if c = 35 then gap_scan true rest
    else false
  | true, c :: rest =>
    if c = 10 then gap_scan false rest
    else if c = 0 then false
    else gap_scan true rest

/-- A run of whitespace bytes and of `#` comments, each running to the next
LF. -/
def is_gap (g : List Nat) : Bool := gap_scan false g

/-- The runs around the `:` of a field and behind its value, and its name. -/
structure field_layout where
  name : List Nat
  before_colon : List Nat
  after_colon : List Nat
  after_value : List Nat
deriving DecidableEq, Repr

/-- A document as the parser reads it: the tokens of a value, with the run
that stands behind the opening bracket of a container, behind each item of an
array, and around the `:` and behind the value of each field. A string token
ends at the closing quote or at the NUL of the text (`closer`). -/
inductive document where
  | integer (digits : List Nat)
  | string (payload : List Nat) (closer : Nat)
  | null
  | array (gap : List Nat) (items : List (List Nat × document))
  | obj (gap : List Nat) (fields : List (field_layout × document))

mutual
/-- The text of a document. -/
def document_text : document → List Nat
  | .integer digits => digits
  | .string payload closer => 34 :: payload ++ [closer]
  | .null => [110, 117, 108, 108]
  | .array gap items => 91 :: gap ++ items_text items ++ [93]
  | .obj gap fields => 40 :: gap ++ fields_text fields ++ [41]
/-- The text of the items of an array, each with the run behind it. -/
def items_text : List (List Nat × document) → List Nat
  | [] => []
  | (gap, d) :: rest => document_text d ++ gap ++ items_text rest
/-- The text of the fields of an object. -/
def fields_text : List (field_layout × document) → List Nat
  | [] => []
  | (f, d) :: rest =>
    f.name ++ f.before_colon ++ 58 :: f.after_colon ++ document_text d ++ f.after_value
      ++ fields_text rest
end

mutual
/-- The value that the tokens of a document stand for; `heap` gives the bytes
behind the copy of a string payload. -/
def document_value (heap : Nat → Nat) : document → meta_value
  | .integer digits => .integer (atoi_digits digits : Nat)
  | .string payload _ => .string (_meta_copy_string heap payload)
  | .null => .null
  | .array _ items => .array (items_value heap items)
  | .obj _ fields => .obj (fields_value heap fields)
/-- The values of the items of an array. -/
def items_value (heap : Nat → Nat) : List (List Nat × document) → List meta_value
  | [] => []
  | (_, d) :: rest => document_value heap d :: items_value heap rest
/-- The names and values of the fields of an object. -/
def fields_value (heap : Nat → Nat) :
    List (field_layout × document) → List (List Nat × meta_value)
  | [] => []
  | (f, d) :: rest => (f.name, document_value heap d) :: fields_value heap rest
end

/-- The byte behind an integer token exists and is not a digit. -/
def next_not_numeric : Option Nat → Bool
  | some c => !_meta_is_numeric c
  | none => false

mutual
/-- The tokens and runs of a document are what the parser reads them as, when
the byte `next` follows the document: an integer is a non-empty run of digits
of value at most `INT_MAX` that no digit follows, a string payload has no
quote and no NUL, a name is alphabetic then alphanumeric and shorter than 128
bytes, every run is whitespace and comments, a container has at most 128
entries, and an object without fields has nothing between its brackets. -/
def document_valid : document → Option Nat → Bool
  | .integer digits, next =>
    !digits.isEmpty && digits.all _meta_is_numeric && decide (atoi_digits digits ≤ INT_MAX)
      && next_not_numeric next
  | .string payload closer, _ =>
    payload.all (fun x => decide (x ≠ 0) && decide (x ≠ 34))
      && (decide (closer = 34) || decide (closer = 0))
  | .null, _ => true
  | .array gap items, _ =>
    is_gap gap && decide (items.length ≤ META_MAX_ARRAY_LEN) && items_valid items
  | .obj gap fields, _ =>
    is_gap gap && (!fields.isEmpty || gap.isEmpty)
      && decide (fields.length ≤ META_MAX_OBJ_FIELDS) && fields_valid fields
/-- The items of an array, before its `]`, are valid. -/
def items_valid : List (List Nat × document) → Bool
  | [] => true
  | (gap, d) :: rest =>
    document_valid d (gap ++ items_text rest ++ [93]).head? && is_gap gap && items_valid rest
/-- The fields of an object, before its `)`, are valid. -/
def fields_valid : List (field_layout × document) → Bool
  | [] => true
  | (f, d) :: rest =>
    _meta_is_field_sanitized f.name && decide (f.name.length < META_MAX_OBJ_FIELD_LEN)
      && is_gap f.before_colon && is_gap f.after_colon
      && document_valid d (f.after_value ++ fields_text rest ++ [41]).head?
      && is_gap f.after_value && fields_valid rest
end

/-- The run `g'` may replace the run `g`: it is whitespace and comments, and
it is empty exactly when `g` is. -/
def gap_variant (g g' : List Nat) : Bool := is_gap g' && (g.isEmpty == g'.isEmpty)

mutual
/-- The document `d'` is `d` with runs replaced: the same tokens in the same
nesting, and in the place of each run a run of whitespace and comments. -/
def comment_variant : document → document → Bool
  | .integer digits, d' =>
    match d' with
    | .integer digits' => decide (digits = digits')
    | _ => false
  | .string payload closer, d' =>
    match d' with
    | .string payload' closer' => decide (payload = payload') && decide (closer = closer')
    | _ => false
  | .null, d' =>
    match d' with
    | .null => true
    | _ => false
  | .array gap items, d' =>
    match d' with
    | .array gap' items' => gap_variant gap gap' && items_variant items items'
    | _ => false
  | .obj gap fields, d' =>
    match d' with
    | .obj gap' fields' => gap_variant gap gap' && fields_variant fields fields'
    | _ => false
/-- The items `items'` are the items `items` with runs replaced. -/
def items_variant : List (List Nat × document) → List (List Nat × document) → Bool
  | [], items' => items'.isEmpty
  | (gap, d) :: rest, items' =>
    match items' with
    | [] => false
    | (gap', d') :: rest' =>
      comment_variant d d' && gap_variant gap gap' && items_variant rest rest'
/-- The fields `fields'` are the fields `fields` with runs replaced. -/
def fields_variant : List (field_layout × document) → List (field_layout × document) → Bool
  | [], fields' => fields'.isEmpty
  | (f, d) :: rest, fields' =>
    match fields' with
    | [] => false
    | (f', d') :: rest' =>
      decide (f.name = f'.name) && gap_variant f.before_colon f'.before_colon
        && gap_variant f.after_colon f'.after_colon && comment_variant d d'
        && gap_variant f.after_value f'.after_value && fields_variant rest rest'
end

mutual
/-- No Null lies below an Array. `outside` tells whether the value itself lies
outside every array: `_meta_compose_array` hands its whole `dest_len` to each
item, so below an array the `dest_len` that reaches `_meta_compose_null`, which
`strncpy` fills completely, no longer ends where the budget ends. -/
def null_outside_arrays : Bool → meta_value → Bool
  | _, .integer _ => true
  | _, .string _ => true
  | outside, .null => outside
  | _, .array items => null_outside_arrays_items items
  | outside, .obj fields => null_outside_arrays_fields outside fields
/-- No item of an array holds a Null, at any depth. -/
def null_outside_arrays_items : List meta_value → Bool
  | [] => true
  | value :: rest => null_outside_arrays false value && null_outside_arrays_items rest
/-- No field value of an object holds a Null below an array (or, when the
object lies below an array, a Null at all). -/
def null_outside_arrays_fields : Bool → List (List Nat × meta_value) → Bool
  | _, [] => true
  | outside, (_, value) :: rest =>
    null_outside_arrays outside value && null_outside_arrays_fields outside rest
end

/-! # Theorems -/

/-! ## Accessors: helper lemmas -/

theorem meta_set_field_loop_eq_none {x : List Nat} {V : meta_value} :
    ∀ {fields : List (List Nat × meta_value)},
      meta_set_field_loop x V fields = none ↔ ∀ f ∈ fields, strncmp_eq f.1 x = false
  | [] => by simp [meta_set_field_loop]
  | (row, v) :: rest => by
    have ih := @meta_set_field_loop_eq_none x V rest
    by_cases hrow : strncmp_eq row x = true
    · simp [meta_set_field_loop, hrow]
    · cases hl : meta_set_field_loop x V rest with
      | none => simpa [meta_set_field_loop, hrow, hl] using ih.mp hl
      | some r =>
        have : ¬ ∀ f ∈ rest, strncmp_eq f.1 x = false := fun h => by
          rw [ih.mpr h] at hl; cases hl
        simp only [meta_set_field_loop, hrow, hl]
        simp only [Bool.not_eq_true] at hrow
        simp [hrow]
        simpa using this

theorem meta_set_field_loop_eq_some {x : List Nat} {V : meta_value} :
    ∀ {fields fields' : List (List Nat × meta_value)},
      meta_set_field_loop x V fields = some fields' →
      ∃ pre row v post, fields = pre ++ (row, v) :: post ∧
        (∀ f ∈ pre, strncmp_eq f.1 x = false) ∧ strncmp_eq row x = true ∧
        fields' = pre ++ (row, V) :: post
  | [], _, h => by simp [meta_set_field_loop] at h
  | (row, v) :: rest, fields', h => by
    by_cases hrow : strncmp_eq row x = true
    · simp only [meta_set_field_loop, hrow, if_true, Option.some.injEq] at h
      exact ⟨[], row, v, rest, rfl, by simp, hrow, h.symm⟩
    · cases hl : meta_set_field_loop x V rest with
      | none => simp [meta_set_field_loop, hrow, hl] at h
      | some r =>
        simp [meta_set_field_loop, hrow, hl] at h
        obtain ⟨pre, row', v', post, h1, h2, h3, h4⟩ := meta_set_field_loop_eq_some hl
        refine ⟨(row, v) :: pre, row', v', post, by simp [h1], ?_, h3, by simp [← h, h4]⟩
        intro f hf
        rcases List.mem_cons.mp hf with rfl | hf
        · simpa using hrow
        · exact h2 f hf

theorem meta_set_field_loop_split {x : List Nat} (V : meta_value) (row : List Nat)
    (v : meta_value) (post : List (List Nat × meta_value)) (hrow : strncmp_eq row x = true) :
    ∀ (pre : List (List Nat × meta_value)), (∀ f ∈ pre, strncmp_eq f.1 x = false) →
      meta_set_field_loop x V (pre ++ (row, v) :: post) = some (pre ++ (row, V) :: post)
  | [], _ => by simp [meta_set_field_loop, hrow]
  | (r, w) :: pre, h => by
    have hr : strncmp_eq r x = false := h (r, w) (by simp)
    have ih := meta_set_field_loop_split V row v post hrow pre
      (fun f hf => h f (List.mem_cons_of_mem _ hf))
    simp [meta_set_field_loop, hr, ih]

theorem strncmp_eq_self (x : List Nat) : strncmp_eq x x = true := by simp [strncmp_eq]

theorem eq_of_strncmp_eq {row x : List Nat} (hrow : row.length ≤ META_MAX_OBJ_FIELD_LEN)
    (hx : x.length ≤ META_MAX_OBJ_FIELD_LEN) (h : strncmp_eq row x = true) : row = x := by
  simp only [strncmp_eq, decide_eq_true_eq] at h
  rwa [List.take_of_length_le hrow, List.take_of_length_le hx] at h


/-! ## Accessors: claims -/

/-- C6. Field overwrite. Let `o` be an object whose name rows fit their 128
bytes and `x` a name of at most 128 bytes. If `meta_set_field( o, x, A )`
returns `true`, then `o` is now `pre ++ (x, A) :: post` with no field named `x`
in `pre`, and `meta_set_field( o, x, B )` returns `true` and leaves
`pre ++ (x, B) :: post`: the first field named `x` holds `B` at the position it
had, and every other field, the field count included, is as before. The
fields named `x` are as many as `o` had at the start, and one if it had none:
exactly one unless `o` held several, as the object that the parser returns for
`(x:1 x:2)` does. -/
theorem meta_set_field_overwrite (fields : List (List Nat × meta_value)) (x : List Nat)
    (A B o1 : meta_value)
    (hrows : ∀ f ∈ fields, f.1.length ≤ META_MAX_OBJ_FIELD_LEN)
    (hx : x.length ≤ META_MAX_OBJ_FIELD_LEN)
    (h1 : meta_set_field (.obj fields) x A = .ok (true, o1)) :
    ∃ pre post, o1 = .obj (pre ++ (x, A) :: post) ∧
      meta_set_field o1 x B = .ok (true, .obj (pre ++ (x, B) :: post)) ∧
      x ∉ pre.map Prod.fst ∧
      ((pre ++ (x, B) :: post).map Prod.fst).count x
        = max 1 ((fields.map Prod.fst).count x) ∧
      (pre ++ (x, B) :: post).length = (pre ++ (x, A) :: post).length := by
  have hsan : _meta_is_field_sanitized x = true := by
    by_contra hs
    simp [meta_set_field, hs] at h1
  have key : ∀ pre post, (∀ f ∈ pre, strncmp_eq f.1 x = false) →
      meta_set_field (.obj (pre ++ (x, A) :: post)) x B
          = .ok (true, .obj (pre ++ (x, B) :: post)) ∧
        x ∉ pre.map Prod.fst ∧
        ((pre ++ (x, B) :: post).map Prod.fst).count x = 1 + (post.map Prod.fst).count x ∧
        (pre ++ (x, B) :: post).length = (pre ++ (x, A) :: post).length := by
    intro pre post hpre
    have hnot : x ∉ pre.map Prod.fst := by
      simp only [List.mem_map, not_exists, not_and]
      intro f hf hfx
      have := hpre f hf
      rw [hfx, strncmp_eq_self] at this
      cases this
    refine ⟨?_, hnot, ?_, by simp⟩
    · simp [meta_set_field, hsan,
        meta_set_field_loop_split B x A post (strncmp_eq_self x) pre hpre]
    · simp only [List.map_append, List.map_cons, List.count_append, List.count_cons_self]
      rw [List.count_eq_zero_of_not_mem hnot]
      omega
  cases hl : meta_set_field_loop x A fields with
  | some fields' =>
    obtain ⟨pre, row, v, post, hf, hpre, hrow, hf'⟩ := meta_set_field_loop_eq_some hl
    have hrx : row = x :=
      eq_of_strncmp_eq (hrows (row, v) (by simp [hf])) hx hrow
    subst hrx
    have ho1 : o1 = .obj (pre ++ (row, A) :: post) := by
      simp [meta_set_field, hsan, hl] at h1
      rw [← h1, hf']
    obtain ⟨k1, k2, k3, k4⟩ := key pre post hpre
    refine ⟨pre, post, ho1, ho1 ▸ k1, k2, ?_, k4⟩
    rw [k3, hf]
    simp only [List.map_append, List.map_cons, List.count_append, List.count_cons_self]
    rw [List.count_eq_zero_of_not_mem k2]
    omega
  | none =>
    have hnone := meta_set_field_loop_eq_none.mp hl
    have hxt : x.take META_MAX_OBJ_FIELD_LEN = x := List.take_of_length_le hx
    have ho1 : o1 = .obj (fields ++ (x, A) :: []) := by
      by_cases hcap : fields.length + 1 < META_MAX_OBJ_FIELDS
      · simp [meta_set_field, hsan, hl, hcap, hxt] at h1
        rw [← h1]
      · simp [meta_set_field, hsan, hl, hcap] at h1
    obtain ⟨k1, k2, k3, k4⟩ := key fields [] hnone
    refine ⟨fields, [], ho1, ho1 ▸ k1, k2, ?_, k4⟩
    rw [k3, List.count_eq_zero_of_not_mem k2]
    simp

/-- Witness of C6 on the object that the parser returns for `(x:1 x:2)`:
after `x` is set to `7` and then to `9`, the first field named `x` holds `9`
and the second still holds `2`: two fields are named `x`. -/
theorem meta_set_field_overwrite_witness :
    meta_parse_string zero_heap (bytes "(x:1 x:2)")
        = .ok (.obj [(bytes "x", .integer 1), (bytes "x", .integer 2)]) ∧
      meta_set_field (.obj [(bytes "x", .integer 1), (bytes "x", .integer 2)]) (bytes "x")
          (.integer 7)
        = .ok (true, .obj [(bytes "x", .integer 7), (bytes "x", .integer 2)]) ∧
      meta_set_field (.obj [(bytes "x", .integer 7), (bytes "x", .integer 2)]) (bytes "x")
          (.integer 9)
        = .ok (true, .obj [(bytes "x", .integer 9), (bytes "x", .integer 2)]) ∧
      ∃ pre post, meta_value.obj [(bytes "x", .integer 7), (bytes "x", .integer 2)]
          = .obj (pre ++ (bytes "x", .integer 7) :: post) ∧
        meta_set_field (.obj [(bytes "x", .integer 7), (bytes "x", .integer 2)]) (bytes "x")
            (.integer 9)
          = .ok (true, .obj (pre ++ (bytes "x", .integer 9) :: post)) ∧
        bytes "x" ∉ pre.map Prod.fst ∧
        ((pre ++ (bytes "x", .integer 9) :: post).map Prod.fst).count (bytes "x") = 2 ∧
        (pre ++ (bytes "x", .integer 9) :: post).length
          = (pre ++ (bytes "x", meta_value.integer 7) :: post).length :=
  ⟨by decide, by decide, by decide,
    meta_set_field_overwrite [(bytes "x", .integer 1), (bytes "x", .integer 2)] (bytes "x")
      (.integer 7) (.integer 9) (.obj [(bytes "x", .integer 7), (bytes "x", .integer 2)])
      (by decide) (by decide) (by decide)⟩


/-- C7. The capacity test of `meta_set_field` is `present + 1 < 128`: on an
object that holds 127 fields, a sanitized name that no row matches is not
appended; the call returns `false` and leaves the 127 fields. -/
theorem meta_set_field_full_at_127 (fields : List (List Nat × meta_value)) (x : List Nat)
    (V : meta_value) (hsan : _meta_is_field_sanitized x = true)
    (hnew : ∀ f ∈ fields, strncmp_eq f.1 x = false) (hlen : fields.length = 127) :
    meta_set_field (.obj fields) x V = .ok (false, .obj fields) := by
  simp [meta_set_field, hsan, meta_set_field_loop_eq_none.mpr hnew, hlen]

set_option maxRecDepth 100000

/-- Witness of C7: the 127 fields `a0`, `a1`, ..., `m6` and the new name
`z`. -/
theorem meta_set_field_full_at_127_witness :
    meta_set_field
        (.obj ((List.range 127).map (fun i => ([97 + i / 10, 48 + i % 10], meta_value.null))))
        (bytes "z") (.integer 1)
      = .ok (false,
          .obj ((List.range 127).map (fun i => ([97 + i / 10, 48 + i % 10], meta_value.null)))) :=
  meta_set_field_full_at_127 _ (bytes "z") (.integer 1) (by decide) (by decide) (by decide)

/-- C8. Array append-only growth. On an array of `n < 128` items,
`meta_set_nth( a, n, V )` returns `true` and appends `V`: the length is then
`n + 1`, `meta_get_nth( a, n )` yields `V` and every earlier index yields what
it did. On every array, `meta_set_nth( a, n + 1, V )` returns `false` and
leaves the array as it was. -/
theorem meta_set_nth_append (items : List meta_value) (V : meta_value) :
    (items.length < META_MAX_ARRAY_LEN →
      ∃ a, meta_set_nth (.array items) items.length V = .ok (true, a) ∧
        meta_array_len a = .ok ((items.length : Int) + 1) ∧
        meta_get_nth a items.length = .ok (some V) ∧
        ∀ i : Nat, i < items.length →
          meta_get_nth a i = meta_get_nth (.array items) i ∧
          meta_get_nth a i = .ok (items.get? i)) ∧
    meta_set_nth (.array items) ((items.length : Int) + 1) V = .ok (false, .array items) := by
  refine ⟨fun h => ⟨.array (items ++ [V]), ?_, ?_, ?_, ?_⟩, ?_⟩
  · simp [meta_set_nth, h]
  · simp [meta_array_len]
  · simp [meta_get_nth]
  · intro i hi
    have h1 : ¬ ((items.length : Int) + 1 ≤ i) := by omega
    have h2 : ¬ ((items.length : Int) ≤ i) := by omega
    have h3 : ¬ ((i : Int) < 0) := by omega
    simp [meta_get_nth, h1, h2, List.getElem?_append_left hi, List.getElem?_eq_getElem hi]
  · simp [meta_set_nth]

/-- Witness of C8 on the array `[ 1 2 ]`. -/
theorem meta_set_nth_append_witness :
    (∃ a, meta_set_nth (.array [.integer 1, .integer 2]) 2 .null = .ok (true, a) ∧
        meta_array_len a = .ok 3 ∧ meta_get_nth a 2 = .ok (some .null) ∧
        ∀ i : Nat, i < 2 →
          meta_get_nth a i = meta_get_nth (.array [.integer 1, .integer 2]) i ∧
          meta_get_nth a i = .ok ([meta_value.integer 1, .integer 2].get? i)) ∧
    meta_set_nth (.array [.integer 1, .integer 2]) 3 .null
      = .ok (false, .array [.integer 1, .integer 2]) :=
  ⟨(meta_set_nth_append [.integer 1, .integer 2] .null).1 (by decide),
    (meta_set_nth_append [.integer 1, .integer 2] .null).2⟩

/-- C9. In-place overwrite. For an index `i` below the length,
`meta_set_nth( a, i, V )` stores `V` in slot `i` and keeps the length and the
other items, and the value it returns is `false`. -/
theorem meta_set_nth_overwrite_returns_false (items : List meta_value) (i : Nat)
    (V : meta_value) (hi : i < items.length) :
    meta_set_nth (.array items) i V = .ok (false, .array (items.set i V)) ∧
      meta_get_nth (.array (items.set i V)) i = .ok (some V) ∧
      (items.set i V).length = items.length := by
  have h1 : ¬ ((items.length : Int) < i) := by omega
  have h2 : ¬ ((i : Int) = items.length) := by omega
  have h3 : ¬ ((items.length : Int) ≤ i) := by omega
  simp [meta_set_nth, meta_get_nth, h1, h2, h3, hi]

/-- Witness of C9: overwriting slot 0 of the array `[ 1 ]` with `2`. -/
theorem meta_set_nth_overwrite_returns_false_witness :
    meta_set_nth (.array [.integer 1]) (0 : Nat) (.integer 2)
        = .ok (false, .array ([meta_value.integer 1].set 0 (.integer 2))) ∧
      meta_get_nth (.array ([meta_value.integer 1].set 0 (.integer 2))) (0 : Nat)
        = .ok (some (.integer 2)) ∧
      ([meta_value.integer 1].set 0 (.integer 2)).length = [meta_value.integer 1].length :=
  meta_set_nth_overwrite_returns_false [.integer 1] 0 (.integer 2) (by decide)

/-- C10. For a negative `idx` the only test of `meta_get_nth`,
`idx >= present`, does not hold, and the function goes on to read the slot
`items[idx]`, which lies before the array: it does not return `false`. For
`0 <= idx < length` it returns `true` with item `idx`, and for
`idx >= length` it returns `false`. -/
theorem meta_get_nth_cases (items : List meta_value) (idx : Int) :
    (idx < 0 → meta_get_nth (.array items) idx = .error .undefined) ∧
    (0 ≤ idx → idx < items.length →
      meta_get_nth (.array items) idx = .ok (items.get? idx.toNat) ∧
        (items.get? idx.toNat).isSome = true) ∧
    ((items.length : Int) ≤ idx → meta_get_nth (.array items) idx = .ok none) := by
  refine ⟨fun h => ?_, fun h0 h1 => ?_, fun h => ?_⟩
  · have h2 : ¬ ((items.length : Int) ≤ idx) := by omega
    simp [meta_get_nth, h2, h]
  · have h2 : ¬ ((items.length : Int) ≤ idx) := by omega
    have h3 : ¬ (idx < 0) := by omega
    have h4 : idx.toNat < items.length := by omega
    simp [meta_get_nth, h2, h3, List.getElem?_eq_getElem h4]
  · simp [meta_get_nth, h]

/-- Witness of C10: index `-1` of the array `[ 1 ]`. -/
theorem meta_get_nth_cases_witness :
    meta_get_nth (.array [.integer 1]) (-1) = .error .undefined :=
  (meta_get_nth_cases [.integer 1] (-1)).1 (by decide)


/-! ## Memory: helper lemmas -/

theorem mem_write_append (A B : List Nat) (x b : Nat) :
    mem_write (A ++ x :: B) A.length b = .ok (A ++ b :: B) := by
  simp [mem_write]

theorem mem_write_bytes_append : ∀ (bs X A B : List Nat), X.length = bs.length →
    mem_write_bytes (A ++ X ++ B) A.length bs = .ok (A ++ bs ++ B)
  | [], X, A, B, h => by
    have : X = [] := List.length_eq_zero.mp (by simpa using h)
    simp [mem_write_bytes, this]
  | b :: bs, [], A, B, h => by simp at h
  | b :: bs, x :: X, A, B, h => by
    have ih := mem_write_bytes_append bs X (A ++ [b]) B (by simpa using h)
    have hw : mem_write (A ++ x :: X ++ B) A.length b = .ok (A ++ [b] ++ X ++ B) := by
      have := mem_write_append A (X ++ B) x b
      simpa using this
    simp only [mem_write_bytes, hw]
    simpa using ih

theorem replicate_split (Z k : Nat) (h : k ≤ Z) :
    List.replicate Z 0 = List.replicate k 0 ++ List.replicate (Z - k) 0 := by
  rw [← List.replicate_add]; congr 1; omega

theorem mem_write_bytes_zeros (A bs : List Nat) (Z : Nat) (h : bs.length ≤ Z) :
    mem_write_bytes (A ++ List.replicate Z 0) A.length bs
      = .ok (A ++ bs ++ List.replicate (Z - bs.length) 0) := by
  rw [replicate_split Z bs.length h, ← List.append_assoc]
  exact mem_write_bytes_append bs _ A _ (by simp)

theorem strlen_append (A Q B : List Nat) (hQ : ∀ c ∈ Q, c ≠ 0) :
    strlen (A ++ Q ++ 0 :: B) A.length = .ok Q.length := by
  have h1 : (A ++ Q ++ 0 :: B).drop A.length = Q ++ 0 :: B := by
    rw [List.append_assoc, List.drop_left]
  have h2 : (Q ++ 0 :: B).takeWhile (fun c => decide (c ≠ 0)) = Q := by
    rw [List.takeWhile_append_of_pos (by simpa using hQ)]
    simp
  simp only [strlen, h1, h2]
  simp


theorem snprintf_zeros (A out : List Nat) (Z n : Nat) (hn : out.length < n)
    (hZ : out.length < Z) :
    snprintf (A ++ List.replicate Z 0) A.length n out
      = .ok (A ++ out ++ List.replicate (Z - out.length) 0) := by
  have hn0 : n ≠ 0 := by omega
  have ht : out.take (n - 1) = out := List.take_of_length_le (by omega)
  have hw := mem_write_bytes_zeros A (out ++ [0]) Z (by simp; omega)
  have hz : List.replicate (Z - out.length) 0
      = 0 :: List.replicate (Z - (out ++ [0]).length) 0 := by
    have : Z - out.length = (Z - (out ++ [0]).length) + 1 := by simp; omega
    rw [this, List.replicate_succ]
  simp only [snprintf, hn0, if_false, ht, hw, hz]
  simp

theorem strlen_zeros (A Q : List Nat) (Z : Nat) (hQ : ∀ c ∈ Q, c ≠ 0) (hZ : 0 < Z) :
    strlen (A ++ Q ++ List.replicate Z 0) A.length = .ok Q.length := by
  obtain ⟨k, rfl⟩ : ∃ k, Z = k + 1 := ⟨Z - 1, by omega⟩
  rw [List.replicate_succ]
  exact strlen_append A Q _ hQ

theorem strncat_zeros (A Q src : List Nat) (Z n : Nat) (hQ : ∀ c ∈ Q, c ≠ 0)
    (hn : src.length ≤ n) (hZ : src.length < Z) :
    strncat (A ++ Q ++ List.replicate Z 0) A.length src n
      = .ok (A ++ Q ++ src ++ List.replicate (Z - src.length) 0) := by
  have ht : src.take n = src := List.take_of_length_le hn
  have hw := mem_write_bytes_zeros (A ++ Q) (src ++ [0]) Z (by simp; omega)
  have hz : List.replicate (Z - src.length) 0
      = 0 :: List.replicate (Z - (src ++ [0]).length) 0 := by
    have : Z - src.length = (Z - (src ++ [0]).length) + 1 := by simp; omega
    rw [this, List.replicate_succ]
  simp only [strncat, strlen_zeros A Q Z hQ (by omega), ht, hz]
  simp only [List.length_append] at hw
  rw [hw]
  simp

theorem strncpy_zeros (A src : List Nat) (Z n : Nat) (hn : src.length ≤ n) (hZ : n ≤ Z) :
    strncpy (A ++ List.replicate Z 0) A.length src n
      = .ok (A ++ src ++ List.replicate (Z - src.length) 0) := by
  have ht : src.take n = src := List.take_of_length_le hn
  have hb : ¬ (A.length + n > (A ++ List.replicate Z 0).length) := by simp; omega
  have hw := mem_write_bytes_zeros A (src ++ List.replicate (n - src.length) 0) Z
    (by simp; omega)
  simp only [strncpy, hb, if_false, ht, hw]
  have : Z - src.length = (n - src.length) + (Z - (src ++ List.replicate (n - src.length) 0).length) := by
    simp; omega
  rw [this, List.replicate_add]
  simp

theorem size_sub_eq (n k : Nat) (hn : n < 2 ^ 64) (hk : k ≤ n) : size_sub n k = n - k := by
  unfold size_sub
  rw [Nat.mod_eq_of_lt hn, Nat.mod_eq_of_lt (by omega : k < 2 ^ 64)]
  have : n + 2 ^ 64 - k = (n - k) + 2 ^ 64 := by omega
  rw [this, Nat.add_mod_right, Nat.mod_eq_of_lt (by omega)]

theorem decimal_digits_ne_zero : ∀ (fuel n : Nat), ∀ c ∈ decimal_digits fuel n, c ≠ 0
  | 0, _, c, h => by simp [decimal_digits] at h
  | fuel + 1, n, c, h => by
    unfold decimal_digits at h
    split at h
    · simp at h; omega
    · rcases List.mem_append.mp h with h | h
      · exact decimal_digits_ne_zero fuel _ c h
      · simp at h; omega

theorem format_int_ne_zero (n : Int) : ∀ c ∈ format_int n, c ≠ 0 := by
  intro c h
  unfold format_int at h
  split at h
  · rcases List.mem_cons.mp h with h | h
    · omega
    · exact decimal_digits_ne_zero _ _ c h
  · exact decimal_digits_ne_zero _ _ c h

mutual
theorem render_ne_zero : ∀ (v : meta_value), terminated v = true → ∀ c ∈ render v, c ≠ 0
  | .integer n, _, c, hc => format_int_ne_zero n c (by simpa [render] using hc)
  | .string s, h, c, hc => by
    simp only [terminated, List.all_eq_true, decide_eq_true_eq] at h
    simp only [render, List.cons_append, List.mem_cons, List.mem_append, List.mem_singleton,
      List.not_mem_nil, or_false] at hc
    rcases hc with rfl | hc | rfl
    · omega
    · exact h c hc
    · omega
  | .array items, h, c, hc => by
    simp only [terminated] at h
    simp only [render, List.cons_append, List.mem_cons, List.mem_append, List.mem_singleton,
      List.not_mem_nil, or_false] at hc
    rcases hc with rfl | rfl | hc | rfl
    · omega
    · omega
    · exact render_items_ne_zero items h c hc
    · omega
  | .obj fields, h, c, hc => by
    simp only [terminated] at h
    simp only [render, List.cons_append, List.mem_cons, List.mem_append, List.mem_singleton,
      List.not_mem_nil, or_false] at hc
    rcases hc with rfl | rfl | hc | rfl
    · omega
    · omega
    · exact render_fields_ne_zero fields h c hc
    · omega
  | .null, _, c, hc => by
    simp only [render, List.mem_cons, List.mem_singleton] at hc
    simp at hc
    omega
theorem render_items_ne_zero : ∀ (items : List meta_value), terminated_items items = true →
    ∀ c ∈ render_items items, c ≠ 0
  | [], _, c, hc => by simp [render_items] at hc
  | v :: rest, h, c, hc => by
    simp only [terminated_items, Bool.and_eq_true] at h
    simp only [render_items, List.mem_append, List.mem_cons] at hc
    rcases hc with hc | rfl | hc
    · exact render_ne_zero v h.1 c hc
    · omega
    · exact render_items_ne_zero rest h.2 c hc
theorem render_fields_ne_zero : ∀ (fields : List (List Nat × meta_value)),
    terminated_fields fields = true → ∀ c ∈ render_fields fields, c ≠ 0
  | [], _, c, hc => by simp [render_fields] at hc
  | (name, v) :: rest, h, c, hc => by
    simp only [terminated_fields, Bool.and_eq_true, List.all_eq_true, decide_eq_true_eq] at h
    simp only [render_fields, List.cons_append, List.mem_append, List.mem_cons] at hc
    rcases hc with (hc | rfl | hc) | rfl | hc
    · exact h.1.1.2 c hc
    · omega
    · exact render_ne_zero v h.1.2 c hc
    · omega
    · exact render_fields_ne_zero rest h.2 c hc
end


@[simp] theorem result_ok_bind {α β : Type} (a : α) (f : α → Result β) :
    (Except.ok a >>= f) = f a := rfl

@[simp] theorem result_error_bind {α β : Type} (e : meta_error) (f : α → Result β) :
    ((Except.error e : Result α) >>= f) = Except.error e := rfl

theorem compose_int_render (n : Int) (A : List Nat) (Z d : Nat)
    (hd : (format_int n).length < d) (hZ : (format_int n).length < Z) :
    _meta_compose_int n (A ++ List.replicate Z 0) A.length d
      = .ok (A ++ format_int n ++ List.replicate (Z - (format_int n).length) 0,
          A.length + (format_int n).length) := by
  simp only [_meta_compose_int, snprintf_zeros A _ Z d hd hZ, result_ok_bind,
    strlen_zeros A _ _ (format_int_ne_zero n) (by omega : 0 < Z - (format_int n).length)]
  rfl

theorem compose_string_render (s : List Nat) (A : List Nat) (Z d : Nat)
    (hs : ∀ c ∈ s, c ≠ 0)
    (hd : (34 :: s ++ [34]).length < d) (hZ : (34 :: s ++ [34]).length < Z) :
    _meta_compose_string s (A ++ List.replicate Z 0) A.length d
      = .ok (A ++ (34 :: s ++ [34]) ++ List.replicate (Z - (34 :: s ++ [34]).length) 0,
          A.length + (34 :: s ++ [34]).length) := by
  have hq : ∀ c ∈ (34 :: s ++ [34]), c ≠ 0 := by
    intro c hc
    simp only [List.cons_append, List.mem_cons, List.mem_append, List.mem_singleton,
      List.not_mem_nil, or_false] at hc
    rcases hc with rfl | hc | rfl
    · omega
    · exact hs c hc
    · omega
  simp only [_meta_compose_string, snprintf_zeros A _ Z d hd hZ, result_ok_bind,
    strlen_zeros A _ _ hq (by omega : 0 < Z - (34 :: s ++ [34]).length)]
  rfl

theorem compose_null_render (A : List Nat) (Z d : Nat) (hd : 4 ≤ d) (hZ : d ≤ Z) :
    _meta_compose_null (A ++ List.replicate Z 0) A.length d
      = .ok (A ++ [110, 117, 108, 108] ++ List.replicate (Z - 4) 0, A.length + 4) := by
  simp only [_meta_compose_null, strncpy_zeros A [110, 117, 108, 108] Z d (by simpa using hd) hZ,
    result_ok_bind]
  rfl


theorem mem_write_zeros (A : List Nat) (Z b : Nat) (hZ : 0 < Z) :
    mem_write (A ++ List.replicate Z 0) A.length b
      = .ok (A ++ [b] ++ List.replicate (Z - 1) 0) := by
  obtain ⟨k, rfl⟩ : ∃ k, Z = k + 1 := ⟨Z - 1, by omega⟩
  rw [List.replicate_succ, mem_write_append]
  simp

@[simp] theorem result_pure {α : Type} (a : α) : (pure a : Result α) = Except.ok a := rfl

theorem field_cstr_terminated (i : Nat) (name : List Nat) (rest : List (List Nat))
    (h : name.length < META_MAX_OBJ_FIELD_LEN) : field_cstr i (name :: rest) = .ok name := by
  simp [field_cstr, h]

mutual
theorem compose_render : ∀ (v : meta_value), terminated v = true →
    ∀ (A : List Nat) (Z d : Nat), (render v).length < d → d < 2 ^ 64 →
      d + (render v).length ≤ Z →
      _meta_compose v (A ++ List.replicate Z 0) A.length d
        = .ok (A ++ render v ++ List.replicate (Z - (render v).length) 0,
            A.length + (render v).length)
  | .integer n, _, A, Z, d, hd, _, hZ => by
    simp only [render] at hd hZ
    simp only [_meta_compose, render]
    exact compose_int_render n A Z d hd (by omega)
  | .string s, h, A, Z, d, hd, _, hZ => by
    simp only [terminated, List.all_eq_true, decide_eq_true_eq] at h
    simp only [render] at hd hZ
    simp only [_meta_compose, render]
    exact compose_string_render s A Z d h hd (by omega)
  | .null, _, A, Z, d, hd, _, hZ => by
    simp only [render, List.length_cons, List.length_nil] at hd hZ
    simp only [_meta_compose, render]
    exact compose_null_render A Z d (by omega) (by omega)
  | .array items, h, A, Z, d, hd, h64, hZ => by
    simp only [terminated] at h
    simp only [render, List.length_cons, List.length_append, List.length_nil] at hd hZ
    have h1 := strncat_zeros A [] [91, 32] Z d (by simp) (by simp; omega) (by simp; omega)
    have h2 := compose_render_items items h A [91, 32] (Z - 2) d (by simp) (by omega) h64
      (by omega)
    have h3 := strncat_zeros A ([91, 32] ++ render_items items) [93]
      (Z - 2 - (render_items items).length) d
      (by
        intro c hc
        rcases List.mem_append.mp hc with hc | hc
        · simp at hc; omega
        · exact render_items_ne_zero items h c hc)
      (by simp; omega) (by simp; omega)
    simp only [List.append_nil, List.length_cons, List.length_nil, List.append_assoc,
      List.cons_append, List.nil_append, List.length_append] at h1 h2 h3
    simp only [_meta_compose, _meta_compose_array, render, result_ok_bind, result_pure,
      List.append_nil, List.length_cons, List.length_nil, List.append_assoc,
      List.cons_append, List.nil_append, List.length_append]
    ring_nf at h1 h2 h3 ⊢
    rw [h1]
    simp only [result_ok_bind]
    rw [h2]
    simp only [result_ok_bind]
    ring_nf
    rw [h3]
    first
      | rfl
      | (try simp only [result_ok_bind]
         refine congrArg Except.ok (Prod.ext ?_ rfl)
         simp only [List.append_cancel_left_eq, List.cons.injEq, true_and]
         exact congrArg (fun k => List.replicate k 0) (by omega))
  | .obj fields, h, A, Z, d, hd, h64, hZ => by
    simp only [terminated] at h
    simp only [render, List.length_cons, List.length_append, List.length_nil] at hd hZ
    have h1 := strncat_zeros A [] [40, 32] Z d (by simp) (by simp; omega) (by simp; omega)
    have h2 := compose_render_fields fields h 0 A.length (A ++ [40, 32]) (Z - 2) d (by simp)
      (by simp; omega) h64 (by omega)
    have h3 := strncat_zeros (A ++ [40, 32] ++ render_fields fields) [] [41]
      (Z - 2 - (render_fields fields).length) d (by simp) (by simp; omega) (by simp; omega)
    simp only [List.append_nil, List.length_cons, List.length_nil, List.append_assoc,
      List.cons_append, List.nil_append, List.length_append] at h1 h2 h3
    simp only [_meta_compose, _meta_compose_obj, render, result_ok_bind, result_pure,
      List.append_nil, List.length_cons, List.length_nil, List.append_assoc,
      List.cons_append, List.nil_append, List.length_append]
    ring_nf at h1 h2 h3 ⊢
    rw [h1]
    simp only [result_ok_bind]
    rw [h2]
    simp only [result_ok_bind]
    ring_nf
    rw [h3]
    first
      | rfl
      | (try simp only [result_ok_bind]
         refine congrArg Except.ok (Prod.ext ?_ rfl)
         simp only [List.append_cancel_left_eq, List.cons.injEq, true_and]
         exact congrArg (fun k => List.replicate k 0) (by omega))
theorem compose_render_items : ∀ (items : List meta_value), terminated_items items = true →
    ∀ (A Q : List Nat) (Z d : Nat), (∀ c ∈ Q, c ≠ 0) → (render_items items).length < d →
      d < 2 ^ 64 → d + (render_items items).length ≤ Z →
      _meta_compose_array_loop items A.length d (A ++ Q ++ List.replicate Z 0)
          (A.length + Q.length)
        = .ok (A ++ Q ++ render_items items
              ++ List.replicate (Z - (render_items items).length) 0,
            A.length + Q.length + (render_items items).length)
  | [], _, A, Q, Z, d, _, _, _, _ => by
    simp [_meta_compose_array_loop, render_items]
  | v :: rest, h, A, Q, Z, d, hQ, hd, h64, hZ => by
    simp only [terminated_items, Bool.and_eq_true] at h
    simp only [render_items, List.length_cons, List.length_append] at hd hZ
    have h1 := compose_render v h.1 (A ++ Q) Z d (by omega) h64 (by omega)
    have hQ' : ∀ c ∈ Q ++ render v, c ≠ 0 := by
      intro c hc
      rcases List.mem_append.mp hc with hc | hc
      · exact hQ c hc
      · exact render_ne_zero v h.1 c hc
    have h2 := strncat_zeros A (Q ++ render v) [32] (Z - (render v).length) d hQ'
      (by simp; omega) (by simp; omega)
    have hQ'' : ∀ c ∈ Q ++ render v ++ [32], c ≠ 0 := by
      intro c hc
      rcases List.mem_append.mp hc with hc | hc
      · exact hQ' c hc
      · simp at hc; omega
    have h3 := compose_render_items rest h.2 A (Q ++ render v ++ [32])
      (Z - (render v).length - 1) d hQ'' (by omega) h64 (by omega)
    simp only [List.append_nil, List.length_cons, List.length_nil, List.append_assoc,
      List.cons_append, List.nil_append, List.length_append] at h1 h2 h3
    simp only [_meta_compose_array_loop, render_items, result_ok_bind, result_pure,
      List.append_nil, List.length_cons, List.length_nil, List.append_assoc,
      List.cons_append, List.nil_append, List.length_append]
    ring_nf at h1 h2 h3 ⊢
    rw [h1]
    simp only [result_ok_bind, List.append_nil, List.length_cons, List.length_nil, List.append_assoc,
      List.cons_append, List.nil_append, List.length_append]
    ring_nf
    rw [h2]
    simp only [result_ok_bind, List.append_nil, List.length_cons, List.length_nil, List.append_assoc,
      List.cons_append, List.nil_append, List.length_append]
    rw [h3]
    first
      | rfl
      | (try simp only [result_ok_bind]
         refine congrArg Except.ok (Prod.ext ?_ rfl)
         simp only [List.append_cancel_left_eq, List.cons.injEq, true_and]
         exact congrArg (fun k => List.replicate k 0) (by omega))
theorem compose_render_fields : ∀ (fields : List (List Nat × meta_value)),
    terminated_fields fields = true →
    ∀ (i start : Nat) (A : List Nat) (Z d : Nat), start ≤ A.length →
      (A.length - start) + (render_fields fields).length < d → d < 2 ^ 64 →
      d + (render_fields fields).length ≤ Z →
      _meta_compose_obj_loop fields i start d (A ++ List.replicate Z 0) A.length
        = .ok (A ++ render_fields fields
              ++ List.replicate (Z - (render_fields fields).length) 0,
            A.length + (render_fields fields).length)
  | [], _, i, start, A, Z, d, _, _, _, _ => by
    simp [_meta_compose_obj_loop, render_fields]
  | (name, v) :: rest, h, i, start, A, Z, d, hs, hd, h64, hZ => by
    simp only [terminated_fields, Bool.and_eq_true, List.all_eq_true, decide_eq_true_eq] at h
    simp only [render_fields, List.length_cons, List.length_append] at hd hZ
    have h0 := field_cstr_terminated i name (rest.map Prod.fst) h.1.1.1
    have h1 := mem_write_bytes_zeros A name Z (by omega)
    have h2 := mem_write_zeros (A ++ name) (Z - name.length) 58 (by omega)
    have hsub : size_sub d (A.length + name.length + 1 - start)
        = d - (A.length + name.length + 1 - start) := size_sub_eq _ _ h64 (by omega)
    have h3 := compose_render v h.1.2 (A ++ name ++ [58]) (Z - name.length - 1)
      (d - (A.length + name.length + 1 - start)) (by omega) (by omega) (by omega)
    have h4 := mem_write_zeros (A ++ name ++ [58] ++ render v)
      (Z - name.length - 1 - (render v).length) 32 (by omega)
    have h5 := compose_render_fields rest h.2 (i + 1) start
      (A ++ name ++ [58] ++ render v ++ [32])
      (Z - name.length - 1 - (render v).length - 1) d (by simp; omega) (by simp; omega) h64
      (by omega)
    simp only [List.append_nil, List.length_cons, List.length_nil, List.append_assoc,
      List.cons_append, List.nil_append, List.length_append] at h1 h2 h3 h4 h5 hsub
    simp only [_meta_compose_obj_loop, render_fields, result_ok_bind, result_pure, h0,
      List.append_nil, List.length_cons, List.length_nil, List.append_assoc,
      List.cons_append, List.nil_append, List.length_append]
    ring_nf at h1 h2 h3 h4 h5 hsub ⊢
    rw [h1]
    simp only [result_ok_bind, List.append_nil, List.length_cons, List.length_nil, List.append_assoc,
      List.cons_append, List.nil_append, List.length_append]
    rw [h2]
    simp only [result_ok_bind, List.append_nil, List.length_cons, List.length_nil, List.append_assoc,
      List.cons_append, List.nil_append, List.length_append]
    rw [hsub, h3]
    simp only [result_ok_bind, List.append_nil, List.length_cons, List.length_nil, List.append_assoc,
      List.cons_append, List.nil_append, List.length_append]
    ring_nf
    rw [h4]
    simp only [result_ok_bind, List.append_nil, List.length_cons, List.length_nil, List.append_assoc,
      List.cons_append, List.nil_append, List.length_append]
    rw [h5]
    first
      | rfl
      | (try simp only [result_ok_bind]
         refine congrArg Except.ok (Prod.ext ?_ rfl)
         simp only [List.append_cancel_left_eq, List.cons.injEq, true_and]
         exact congrArg (fun k => List.replicate k 0) (by omega))
end


theorem meta_compose_render (v : meta_value) (h : terminated v = true) (Z d : Nat)
    (hd : (render v).length < d) (h64 : d < 2 ^ 64) (hZ : d + (render v).length ≤ Z) :
    meta_compose v (List.replicate Z 0) d
      = .ok (render v ++ List.replicate (Z - (render v).length) 0) := by
  have h1 := compose_render v h [] Z d hd h64 hZ
  have h2 := mem_write_zeros (render v) (Z - (render v).length) 0 (by omega)
  have h3 : render v ++ [0] ++ List.replicate (Z - (render v).length - 1) 0
      = render v ++ List.replicate (Z - (render v).length) 0 := by
    have : Z - (render v).length = (Z - (render v).length - 1) + 1 := by omega
    rw [List.append_assoc]
    conv_rhs => rw [this, List.replicate_succ]
    rfl
  simp only [List.nil_append, List.length_nil, Nat.zero_add] at h1
  simp only [meta_compose, h1, result_ok_bind, h2, h3]

/-! ## Parser: helper lemmas -/

theorem atoi_digits_append (xs : List Nat) (c : Nat) :
    atoi_digits (xs ++ [c]) = 10 * atoi_digits xs + (c - 48) := by
  simp [atoi_digits, List.foldl_append]

theorem atoi_decimal_digits : ∀ (fuel n : Nat), n < fuel →
    atoi_digits (decimal_digits fuel n) = n
  | 0, _, h => by omega
  | fuel + 1, n, h => by
    unfold decimal_digits
    split
    · simp [atoi_digits]
    · rw [atoi_digits_append, atoi_decimal_digits fuel (n / 10) (by omega)]
      omega

theorem decimal_digits_numeric : ∀ (fuel n : Nat),
    ∀ c ∈ decimal_digits fuel n, _meta_is_numeric c = true
  | 0, _, c, h => by simp [decimal_digits] at h
  | fuel + 1, n, c, h => by
    unfold decimal_digits at h
    split at h
    · simp only [List.mem_singleton] at h
      subst h
      simp [_meta_is_numeric]; omega
    · rcases List.mem_append.mp h with h | h
      · exact decimal_digits_numeric fuel _ c h
      · simp only [List.mem_singleton] at h
        subst h
        simp [_meta_is_numeric]; omega

theorem decimal_digits_ne_nil (fuel n : Nat) : decimal_digits (fuel + 1) n ≠ [] := by
  unfold decimal_digits
  split <;> simp

theorem format_int_nonneg (n : Int) (h : 0 ≤ n) :
    format_int n = decimal_digits (n.natAbs + 1) n.natAbs := by
  simp [format_int, not_lt.mpr h]


theorem parse_int_loop_run : ∀ (ds : List Nat) (c : Nat) (rest : List Nat),
    (∀ x ∈ ds, _meta_is_numeric x = true) → _meta_is_numeric c = false →
    _meta_parse_int_loop (ds ++ c :: rest) = .ok (ds, c :: rest)
  | [], c, rest, _, hc => by simp [_meta_parse_int_loop, hc]
  | x :: ds, c, rest, hds, hc => by
    have hx : _meta_is_numeric x = true := hds x (by simp)
    have ih := parse_int_loop_run ds c rest (fun y hy => hds y (List.mem_cons_of_mem _ hy)) hc
    simp [_meta_parse_int_loop, hx, ih]

theorem parse_int_run (ds : List Nat) (c : Nat) (rest : List Nat) (hne : ds ≠ [])
    (hds : ∀ x ∈ ds, _meta_is_numeric x = true) (hc : _meta_is_numeric c = false)
    (hmax : atoi_digits ds ≤ INT_MAX) :
    _meta_parse_int (ds ++ c :: rest) = .ok ((atoi_digits ds : Nat), c :: rest) := by
  cases ds with
  | nil => exact absurd rfl hne
  | cons x ds =>
    have hx : _meta_is_numeric x = true := hds x (by simp)
    have hl := parse_int_loop_run ds c rest (fun y hy => hds y (List.mem_cons_of_mem _ hy)) hc
    simp only [List.cons_append, _meta_parse_int, hx, if_true, hl]
    simp [hmax]

theorem parse_string_search_run : ∀ (s rest : List Nat), (∀ x ∈ s, x ≠ 0 ∧ x ≠ 34) →
    _meta_parse_string_search (s ++ 34 :: rest) = .ok (s, rest)
  | [], rest, _ => by simp [_meta_parse_string_search]
  | x :: s, rest, hs => by
    have hx := hs x (by simp)
    have ih := parse_string_search_run s rest (fun y hy => hs y (List.mem_cons_of_mem _ hy))
    simp [_meta_parse_string_search, hx.1, hx.2, ih]

theorem copy_string_run (heap : Nat → Nat) (s : List Nat) (hheap : heap 0 = 0)
    (hlen : s.length ≤ META_MAX_STRING_LEN) (hs : ∀ x ∈ s, x ≠ 0) :
    _meta_copy_string heap s = s := by
  unfold _meta_copy_string
  rcases Nat.lt_or_ge s.length META_MAX_STRING_LEN with hlt | hge
  · have h1 : (List.range META_MAX_STRING_LEN).map heap
        = 0 :: (List.range' 1 (META_MAX_STRING_LEN - 1)).map heap := by
      rw [List.range_eq_range', show META_MAX_STRING_LEN = (META_MAX_STRING_LEN - 1) + 1 from rfl,
        List.range'_succ]
      simp [hheap]
    rw [h1, List.take_append_eq_append_take, List.take_of_length_le (Nat.le_of_lt hlt)]
    have h2 : List.take (META_MAX_STRING_LEN - s.length)
        (0 :: (List.range' 1 (META_MAX_STRING_LEN - 1)).map heap)
        = 0 :: List.take (META_MAX_STRING_LEN - s.length - 1)
            ((List.range' 1 (META_MAX_STRING_LEN - 1)).map heap) := by
      obtain ⟨k, hk⟩ : ∃ k, META_MAX_STRING_LEN - s.length = k + 1 :=
        ⟨META_MAX_STRING_LEN - s.length - 1, by omega⟩
      rw [hk]
      simp
    rw [h2, List.takeWhile_append_of_pos (by simpa using hs)]
    simp
  · have hl : s.length = META_MAX_STRING_LEN := Nat.le_antisymm hlen hge
    rw [List.take_append_eq_append_take, List.take_of_length_le hlen, hl, Nat.sub_self,
      List.take_zero, List.append_nil]
    exact List.takeWhile_eq_self_iff.mpr (by simpa using hs)

theorem parse_string_run (s rest : List Nat) (hs : ∀ x ∈ s, x ≠ 0 ∧ x ≠ 34) :
    _meta_parse_string (34 :: s ++ 34 :: rest) = .ok (s, rest) := by
  simp [_meta_parse_string, parse_string_search_run s rest hs]

theorem load_ident_loop_run : ∀ (name : List Nat) (c : Nat) (rest : List Nat),
    (∀ x ∈ name, _meta_is_alphanumeric x = true) → _meta_is_alphanumeric c = false →
    _meta_load_ident_loop (128 : Int) (name ++ c :: rest) = .ok (name, c :: rest)
  | [], c, rest, _, hc => by simp [_meta_load_ident_loop, hc]
  | x :: name, c, rest, hn, hc => by
    have hx : _meta_is_alphanumeric x = true := hn x (by simp)
    have ih := load_ident_loop_run name c rest
      (fun y hy => hn y (List.mem_cons_of_mem _ hy)) hc
    simp [_meta_load_ident_loop, hx, ih]

theorem load_ident_run (name : List Nat) (c : Nat) (rest : List Nat)
    (hn : _meta_is_field_sanitized name = true) (hc : _meta_is_alphanumeric c = false) :
    _meta_load_ident (name ++ c :: rest) (128 : Int) = .ok (name, c :: rest) := by
  cases name with
  | nil => simp [_meta_is_field_sanitized] at hn
  | cons x name =>
    simp only [_meta_is_field_sanitized, Bool.and_eq_true, List.all_eq_true] at hn
    have hl := load_ident_loop_run (x :: name) c rest hn.2 hc
    simp only [List.cons_append] at hl
    simp [_meta_load_ident, hn.1, hl]

theorem skip_whitespace_token (c : Nat) (rest : List Nat) (hc : is_token_byte c = true) :
    _meta_skip_whitespace (c :: rest) = .ok (c :: rest) := by
  simp only [is_token_byte, Bool.and_eq_true, decide_eq_true_eq] at hc
  simp [_meta_skip_whitespace, _meta_skip_whitespace_loop, hc]

theorem skip_whitespace_space (c : Nat) (rest : List Nat) (hc : is_token_byte c = true) :
    _meta_skip_whitespace (32 :: c :: rest) = .ok (c :: rest) := by
  simp only [is_token_byte, Bool.and_eq_true, decide_eq_true_eq] at hc
  simp [_meta_skip_whitespace, _meta_skip_whitespace_loop, hc]


theorem token_of_value_start {c : Nat} (h : is_value_start c = true) :
    is_token_byte c = true ∧ c ≠ 93 ∧ c ≠ 41 := by
  simp only [is_value_start, _meta_is_numeric, Bool.or_eq_true, Bool.and_eq_true,
    decide_eq_true_eq] at h
  simp only [is_token_byte, Bool.and_eq_true, decide_eq_true_eq]
  omega

theorem token_of_alphabetic {c : Nat} (h : _meta_is_alphabetic c = true) :
    is_token_byte c = true ∧ c ≠ 41 := by
  simp only [_meta_is_alphabetic, Bool.or_eq_true, Bool.and_eq_true, decide_eq_true_eq] at h
  simp only [is_token_byte, Bool.and_eq_true, decide_eq_true_eq]
  omega

theorem render_start : ∀ (v : meta_value), well_formed v = true →
    ∃ c r, render v = c :: r ∧ is_value_start c = true
  | .integer n, h => by
    simp only [well_formed, Bool.and_eq_true, decide_eq_true_eq] at h
    have hne := decimal_digits_ne_nil n.natAbs n.natAbs
    have hnum := decimal_digits_numeric (n.natAbs + 1) n.natAbs
    simp only [render, format_int_nonneg n h.1]
    cases hd : decimal_digits (n.natAbs + 1) n.natAbs with
    | nil => exact absurd hd hne
    | cons c r =>
      refine ⟨c, r, rfl, ?_⟩
      have := hnum c (by simp [hd])
      simp [is_value_start, this]
  | .string s, _ => ⟨34, s ++ [34], by simp [render], by decide⟩
  | .array items, _ => ⟨91, 32 :: render_items items ++ [93], by simp [render], by decide⟩
  | .obj fields, _ => ⟨40, 32 :: render_fields fields ++ [41], by simp [render], by decide⟩
  | .null, _ => ⟨110, [117, 108, 108], by simp [render], by decide⟩

theorem array_loop_step (pv : List Nat → Result (meta_value × List Nat)) (lf : Nat)
    (acc : List meta_value) (c0 : Nat) (rest0 : List Nat) (v : meta_value) (c1 : Nat)
    (rest1 : List Nat) (hc0 : c0 ≠ 93) (hacc : acc.length < META_MAX_ARRAY_LEN)
    (hpv : pv (c0 :: rest0) = .ok (v, 32 :: c1 :: rest1)) (hc1 : is_token_byte c1 = true) :
    _meta_parse_array_loop pv (lf + 1) acc (c0 :: rest0)
      = _meta_parse_array_loop pv lf (acc ++ [v]) (c1 :: rest1) := by
  have hacc' : ¬ (acc.length ≥ META_MAX_ARRAY_LEN) := by omega
  simp only [_meta_parse_array_loop, hc0, if_false, hpv, result_ok_bind, hacc',
    skip_whitespace_space c1 rest1 hc1]
  rfl

theorem obj_loop_step (pv : List Nat → Result (meta_value × List Nat)) (lf : Nat)
    (acc : List (List Nat × meta_value)) (c0 : Nat) (rest0 name : List Nat) (v : meta_value)
    (c1 : Nat) (rest1 : List Nat) (hc0 : c0 ≠ 41)
    (hskip : _meta_skip_whitespace (c0 :: rest0)
      = .ok (name ++ 58 :: (render v ++ 32 :: c1 :: rest1)))
    (hsan : _meta_is_field_sanitized name = true)
    (hlen : name.length < META_MAX_OBJ_FIELD_LEN) (hacc : acc.length < META_MAX_OBJ_FIELDS)
    (hv : ∃ c r, render v = c :: r ∧ is_value_start c = true)
    (hpv : pv (render v ++ 32 :: c1 :: rest1) = .ok (v, 32 :: c1 :: rest1))
    (hc1 : is_token_byte c1 = true) :
    _meta_parse_obj_loop pv (lf + 1) acc (c0 :: rest0)
      = _meta_parse_obj_loop pv lf (acc ++ [(name, v)]) (c1 :: rest1) := by
  have hcap : ¬ (acc.length ≥ META_MAX_OBJ_FIELDS ∨ name.length + 1 > META_MAX_OBJ_FIELD_LEN) := by
    omega
  have hident := load_ident_run name 58 (render v ++ 32 :: c1 :: rest1) hsan (by decide)
  have hcolon := skip_whitespace_token 58 (render v ++ 32 :: c1 :: rest1) (by decide)
  obtain ⟨c, r, hr, hstart⟩ := hv
  have hval := skip_whitespace_token c (r ++ 32 :: c1 :: rest1) (token_of_value_start hstart).1
  rw [hr] at hident hcolon hpv
  simp only [List.cons_append] at hident hcolon hpv hval
  simp only [_meta_parse_obj_loop, hc0, if_false, hskip, result_ok_bind, hr, List.cons_append,
    Nat.cast_ofNat, hident, hcap, hcolon, expect_char, if_true, hval, hpv,
    skip_whitespace_space c1 rest1 hc1]
  rfl


theorem parse_value_string (heap : Nat → Nat) (fuel : Nat) (rest : List Nat) :
    _meta_parse_value heap fuel (34 :: rest)
      = (_meta_parse_string (34 :: rest) >>= fun r =>
          Except.ok (.string (_meta_copy_string heap r.1), r.2)) := by
  cases fuel <;> rfl

theorem parse_value_obj (heap : Nat → Nat) (fuel : Nat) (rest : List Nat) :
    _meta_parse_value heap (fuel + 1) (40 :: rest)
      = (_meta_parse_obj (_meta_parse_value heap fuel) (40 :: rest) >>= fun r =>
          Except.ok (.obj r.1, r.2)) := rfl

theorem parse_value_array (heap : Nat → Nat) (fuel : Nat) (rest : List Nat) :
    _meta_parse_value heap (fuel + 1) (91 :: rest)
      = (_meta_parse_array (_meta_parse_value heap fuel) (91 :: rest) >>= fun r =>
          Except.ok (.array r.1, r.2)) := rfl

theorem parse_value_null (heap : Nat → Nat) (fuel : Nat) (rest : List Nat) :
    _meta_parse_value heap fuel (110 :: rest)
      = (_meta_parse_null (110 :: rest) >>= fun s => Except.ok (.null, s)) := by
  cases fuel <;> rfl

theorem parse_value_numeric (heap : Nat → Nat) (fuel c : Nat) (rest : List Nat)
    (hc : _meta_is_numeric c = true) :
    _meta_parse_value heap fuel (c :: rest)
      = (_meta_parse_int (c :: rest) >>= fun r => Except.ok (.integer r.1, r.2)) := by
  have h := hc
  simp only [_meta_is_numeric, Bool.and_eq_true, decide_eq_true_eq] at h
  have h1 : c ≠ 34 := by omega
  have h2 : c ≠ 40 := by omega
  have h3 : c ≠ 91 := by omega
  have h4 : c ≠ 110 := by omega
  cases fuel <;> simp [_meta_parse_value, h1, h2, h3, h4, hc]


theorem render_items_length : ∀ (items : List meta_value),
    items.length ≤ (render_items items).length
  | [] => by simp
  | v :: rest => by
    have := render_items_length rest
    simp only [render_items, List.length_cons, List.length_append]
    omega

theorem render_fields_length : ∀ (fields : List (List Nat × meta_value)),
    fields.length ≤ (render_fields fields).length
  | [] => by simp
  | (name, v) :: rest => by
    have := render_fields_length rest
    simp only [render_fields, List.length_cons, List.length_append]
    omega

theorem render_items_head (items : List meta_value) (h : well_formed_items items = true)
    (tail : List Nat) :
    ∃ c r, render_items items ++ 93 :: tail = c :: r ∧ is_token_byte c = true := by
  cases items with
  | nil => exact ⟨93, tail, by simp [render_items], by decide⟩
  | cons v rest =>
    simp only [well_formed_items, Bool.and_eq_true] at h
    obtain ⟨c, r, hr, hc⟩ := render_start v h.1
    exact ⟨c, r ++ 32 :: render_items rest ++ 93 :: tail, by simp [render_items, hr],
      (token_of_value_start hc).1⟩

theorem render_fields_head (fields : List (List Nat × meta_value))
    (h : well_formed_fields fields = true) (tail : List Nat) :
    ∃ c r, render_fields fields ++ 41 :: tail = c :: r ∧ is_token_byte c = true := by
  cases fields with
  | nil => exact ⟨41, tail, by simp [render_fields], by decide⟩
  | cons f rest =>
    obtain ⟨name, v⟩ := f
    simp only [well_formed_fields, Bool.and_eq_true] at h
    cases name with
    | nil => simp [_meta_is_field_sanitized] at h
    | cons x name =>
      have hx : _meta_is_alphabetic x = true := by
        have := h.1.1.1
        simp only [_meta_is_field_sanitized, Bool.and_eq_true] at this
        exact this.1
      exact ⟨x, name ++ 58 :: render v ++ 32 :: render_fields rest ++ 41 :: tail,
        by simp [render_fields], (token_of_alphabetic hx).1⟩


mutual
theorem parse_render (heap : Nat → Nat) (hheap : heap 0 = 0) : ∀ (v : meta_value),
    well_formed v = true → ∀ (fuel : Nat) (tail : List Nat), (render v).length ≤ fuel →
      (∃ c rest, tail = c :: rest ∧ _meta_is_numeric c = false) →
      _meta_parse_value heap fuel (render v ++ tail) = .ok (v, tail)
  | .integer n, h, fuel, tail, _, ⟨c, rest, htail, hc⟩ => by
    subst htail
    simp only [well_formed, Bool.and_eq_true, decide_eq_true_eq] at h
    have hne := decimal_digits_ne_nil n.natAbs n.natAbs
    have hnum := decimal_digits_numeric (n.natAbs + 1) n.natAbs
    have hval := atoi_decimal_digits (n.natAbs + 1) n.natAbs (by omega)
    have hrun := parse_int_run (decimal_digits (n.natAbs + 1) n.natAbs) c rest hne hnum hc
      (by rw [hval]; omega)
    simp only [render, format_int_nonneg n h.1]
    cases hd : decimal_digits (n.natAbs + 1) n.natAbs with
    | nil => exact absurd hd hne
    | cons x ds =>
      rw [hd] at hrun hval
      have hx : _meta_is_numeric x = true := hnum x (by simp [hd])
      simp only [List.cons_append] at hrun ⊢
      rw [parse_value_numeric heap fuel x _ hx, hrun, hval]
      simp only [result_ok_bind]
      have : ((n.natAbs : Nat) : Int) = n := Int.natAbs_of_nonneg h.1
      rw [this]
  | .string s, h, fuel, tail, _, _ => by
    simp only [well_formed, Bool.and_eq_true, decide_eq_true_eq, List.all_eq_true] at h
    have hs : ∀ x ∈ s, x ≠ 0 ∧ x ≠ 34 := h.2
    have hrun := parse_string_run s tail hs
    have hcopy := copy_string_run heap s hheap h.1 (fun x hx => (hs x hx).1)
    simp only [List.cons_append, List.append_assoc, List.singleton_append] at hrun
    simp only [render, List.cons_append, List.append_assoc, List.singleton_append,
      List.nil_append]
    rw [parse_value_string, hrun]
    simp only [result_ok_bind, hcopy]
  | .null, _, fuel, tail, _, _ => by
    simp only [render, List.cons_append, List.nil_append]
    rw [parse_value_null]
    simp [_meta_parse_null, expect_char]
  | .array items, h, fuel, tail, hfuel, _ => by
    simp only [well_formed, Bool.and_eq_true, decide_eq_true_eq] at h
    simp only [render, List.length_cons, List.length_append, List.length_nil] at hfuel
    obtain ⟨f, rfl⟩ : ∃ f, fuel = f + 1 := ⟨fuel - 1, by omega⟩
    obtain ⟨c, r, hr, hc⟩ := render_items_head items h.2 tail
    have hlen := render_items_length items
    have hloop := parse_render_items heap hheap items h.2 f
      ((render_items items ++ 93 :: tail).length + 1) [] tail (by omega)
      (by simp; omega) (by simpa using h.1)
    have hskip := skip_whitespace_space c r hc
    rw [← hr] at hskip
    simp only [render, List.cons_append, List.append_assoc, List.singleton_append]
    rw [parse_value_array]
    simp only [_meta_parse_array, expect_char, if_true, result_ok_bind, hskip, hloop,
      List.nil_append, result_pure]
  | .obj fields, h, fuel, tail, hfuel, _ => by
    simp only [well_formed, Bool.and_eq_true, decide_eq_true_eq] at h
    simp only [render, List.length_cons, List.length_append, List.length_nil] at hfuel
    obtain ⟨f, rfl⟩ : ∃ f, fuel = f + 1 := ⟨fuel - 1, by omega⟩
    have hlen := render_fields_length fields
    cases fields with
    | nil => exact absurd rfl h.1.1
    | cons fld rest =>
      obtain ⟨name, v⟩ := fld
      have hwf := h.2
      simp only [well_formed_fields, Bool.and_eq_true, decide_eq_true_eq] at hwf
      have hopen := skip_whitespace_token 40
        (32 :: (render_fields ((name, v) :: rest) ++ 41 :: tail)) (by decide)
      obtain ⟨c1, r1, hr1, hc1⟩ := render_fields_head rest hwf.2 tail
      obtain ⟨x, nm, hname⟩ : ∃ x nm, name = x :: nm := by
        cases name with
        | nil => simp [_meta_is_field_sanitized] at hwf
        | cons x nm => exact ⟨x, nm, rfl⟩
      have hx : _meta_is_alphabetic x = true := by
        have := hwf.1.1.1
        simp only [hname, _meta_is_field_sanitized, Bool.and_eq_true] at this
        exact this.1
      have hskip : _meta_skip_whitespace
          (32 :: (render_fields ((name, v) :: rest) ++ 41 :: tail))
          = .ok (name ++ 58 :: (render v ++ 32 :: c1 :: r1)) := by
        have := skip_whitespace_space x
          (nm ++ 58 :: (render v ++ 32 :: c1 :: r1)) (token_of_alphabetic hx).1
        simp only [render_fields, hname, List.cons_append, List.append_assoc, hr1]
        exact this
      have hpv := parse_render heap hheap v hwf.1.2 f (32 :: c1 :: r1)
        (by simp only [render_fields, List.length_cons, List.length_append] at hfuel; omega)
        ⟨32, c1 :: r1, rfl, by decide⟩
      have hstep := obj_loop_step (_meta_parse_value heap f)
        ((render_fields ((name, v) :: rest) ++ 41 :: tail).length + 1) [] 32
        (render_fields ((name, v) :: rest) ++ 41 :: tail) name v c1 r1 (by decide) hskip
        hwf.1.1.1 hwf.1.1.2 (by decide) (render_start v hwf.1.2) hpv hc1
      have hloop := parse_render_fields heap hheap rest hwf.2 f
        ((render_fields ((name, v) :: rest) ++ 41 :: tail).length + 1) [(name, v)] tail
        (by simp only [render_fields, List.length_cons, List.length_append] at hfuel; omega)
        (by
          have := render_fields_length rest
          simp only [render_fields, List.length_cons, List.length_append]
          omega)
        (by
          have := h.1.2
          simp only [List.length_cons, List.length_nil] at this ⊢
          omega)
      rw [← hr1] at hstep
      simp only [List.nil_append] at hstep
      simp only [render, List.cons_append, List.append_assoc, List.singleton_append,
        List.nil_append] at hopen ⊢
      rw [parse_value_obj]
      simp only [_meta_parse_obj, hopen, expect_char, if_true, result_ok_bind,
        List.length_cons]
      rw [hstep, hloop]
      simp only [result_ok_bind, expect_char, if_true, result_pure, List.singleton_append]
theorem parse_render_items (heap : Nat → Nat) (hheap : heap 0 = 0) :
    ∀ (items : List meta_value), well_formed_items items = true →
    ∀ (fuel lf : Nat) (acc : List meta_value) (tail : List Nat),
      (render_items items).length ≤ fuel → items.length < lf →
      acc.length + items.length ≤ META_MAX_ARRAY_LEN →
      _meta_parse_array_loop (_meta_parse_value heap fuel) lf acc
          (render_items items ++ 93 :: tail)
        = .ok (acc ++ items, 93 :: tail)
  | [], _, fuel, lf, acc, tail, _, hlf, _ => by
    obtain ⟨l, rfl⟩ : ∃ l, lf = l + 1 := ⟨lf - 1, by simp at hlf; omega⟩
    simp [render_items, _meta_parse_array_loop]
  | v :: rest, h, fuel, lf, acc, tail, hfuel, hlf, hacc => by
    simp only [well_formed_items, Bool.and_eq_true] at h
    simp only [render_items, List.length_cons, List.length_append] at hfuel
    simp only [List.length_cons] at hlf hacc
    obtain ⟨l, rfl⟩ : ∃ l, lf = l + 1 := ⟨lf - 1, by omega⟩
    obtain ⟨c, r, hr, hc⟩ := render_start v h.1
    obtain ⟨c1, r1, hr1, hc1⟩ := render_items_head rest h.2 tail
    have hpv := parse_render heap hheap v h.1 fuel (32 :: c1 :: r1) (by omega)
      ⟨32, c1 :: r1, rfl, by decide⟩
    rw [hr] at hpv
    have hstep := array_loop_step (_meta_parse_value heap fuel) l acc c
      (r ++ 32 :: c1 :: r1) v c1 r1 (token_of_value_start hc).2.1 (by omega) hpv hc1
    have hloop := parse_render_items heap hheap rest h.2 fuel l (acc ++ [v]) tail (by omega)
      (by omega) (by simp; omega)
    simp only [render_items, hr, List.cons_append, List.append_assoc, hr1]
    rw [hstep, ← hr1, hloop]
    simp
theorem parse_render_fields (heap : Nat → Nat) (hheap : heap 0 = 0) :
    ∀ (fields : List (List Nat × meta_value)), well_formed_fields fields = true →
    ∀ (fuel lf : Nat) (acc : List (List Nat × meta_value)) (tail : List Nat),
      (render_fields fields).length ≤ fuel → fields.length < lf →
      acc.length + fields.length ≤ META_MAX_OBJ_FIELDS →
      _meta_parse_obj_loop (_meta_parse_value heap fuel) lf acc
          (render_fields fields ++ 41 :: tail)
        = .ok (acc ++ fields, 41 :: tail)
  | [], _, fuel, lf, acc, tail, _, hlf, _ => by
    obtain ⟨l, rfl⟩ : ∃ l, lf = l + 1 := ⟨lf - 1, by simp at hlf; omega⟩
    simp [render_fields, _meta_parse_obj_loop]
  | (name, v) :: rest, h, fuel, lf, acc, tail, hfuel, hlf, hacc => by
    simp only [well_formed_fields, Bool.and_eq_true, decide_eq_true_eq] at h
    simp only [render_fields, List.length_cons, List.length_append] at hfuel
    simp only [List.length_cons] at hlf hacc
    obtain ⟨l, rfl⟩ : ∃ l, lf = l + 1 := ⟨lf - 1, by omega⟩
    obtain ⟨c1, r1, hr1, hc1⟩ := render_fields_head rest h.2 tail
    obtain ⟨x, nm, hname⟩ : ∃ x nm, name = x :: nm := by
      cases name with
      | nil => simp [_meta_is_field_sanitized] at h
      | cons x nm => exact ⟨x, nm, rfl⟩
    have hx : _meta_is_alphabetic x = true := by
      have := h.1.1.1
      simp only [hname, _meta_is_field_sanitized, Bool.and_eq_true] at this
      exact this.1
    have hskip : _meta_skip_whitespace (x :: (nm ++ 58 :: (render v ++ 32 :: c1 :: r1)))
        = .ok (name ++ 58 :: (render v ++ 32 :: c1 :: r1)) := by
      rw [hname]
      exact skip_whitespace_token x _ (token_of_alphabetic hx).1
    have hpv := parse_render heap hheap v h.1.2 fuel (32 :: c1 :: r1) (by omega)
      ⟨32, c1 :: r1, rfl, by decide⟩
    have hstep := obj_loop_step (_meta_parse_value heap fuel) l acc x
      (nm ++ 58 :: (render v ++ 32 :: c1 :: r1)) name v c1 r1 (token_of_alphabetic hx).2
      hskip h.1.1.1 h.1.1.2 (by omega) (render_start v h.1.2) hpv hc1
    have hloop := parse_render_fields heap hheap rest h.2 fuel l (acc ++ [(name, v)]) tail
      (by omega) (by omega) (by simp; omega)
    simp only [render_fields, List.cons_append, List.append_assoc, hr1]
    rw [hname] at hstep ⊢
    simp only [List.cons_append] at hstep ⊢
    rw [hstep, ← hr1, ← hname, hloop]
    simp
end


/-! ## Round trip: helper lemmas -/

theorem sanitized_ne_zero {name : List Nat} (h : _meta_is_field_sanitized name = true) :
    ∀ c ∈ name, c ≠ 0 := by
  cases name with
  | nil => simp
  | cons x nm =>
    simp only [_meta_is_field_sanitized, Bool.and_eq_true, List.all_eq_true] at h
    intro c hc hc0
    have := h.2 c hc
    subst hc0
    simp [_meta_is_alphanumeric, _meta_is_numeric, _meta_is_alphabetic] at this

mutual
theorem terminated_of_well_formed : ∀ (v : meta_value), well_formed v = true →
    terminated v = true
  | .integer _, _ => rfl
  | .string s, h => by
    simp only [well_formed, Bool.and_eq_true, decide_eq_true_eq, List.all_eq_true] at h
    simp only [terminated, List.all_eq_true, decide_eq_true_eq]
    exact fun c hc => (h.2 c hc).1
  | .array items, h => by
    simp only [well_formed, Bool.and_eq_true] at h
    simpa only [terminated] using terminated_items_of_well_formed items h.2
  | .obj fields, h => by
    simp only [well_formed, Bool.and_eq_true] at h
    simpa only [terminated] using terminated_fields_of_well_formed fields h.2
  | .null, _ => rfl
theorem terminated_items_of_well_formed : ∀ (items : List meta_value),
    well_formed_items items = true → terminated_items items = true
  | [], _ => rfl
  | v :: rest, h => by
    simp only [well_formed_items, Bool.and_eq_true] at h
    simp only [terminated_items, Bool.and_eq_true]
    exact ⟨terminated_of_well_formed v h.1, terminated_items_of_well_formed rest h.2⟩
theorem terminated_fields_of_well_formed : ∀ (fields : List (List Nat × meta_value)),
    well_formed_fields fields = true → terminated_fields fields = true
  | [], _ => rfl
  | (name, v) :: rest, h => by
    simp only [well_formed_fields, Bool.and_eq_true, decide_eq_true_eq] at h
    simp only [terminated_fields, Bool.and_eq_true, decide_eq_true_eq, List.all_eq_true]
    exact ⟨⟨⟨h.1.1.2, sanitized_ne_zero h.1.1.1⟩, terminated_of_well_formed v h.1.2⟩,
      terminated_fields_of_well_formed rest h.2⟩
end

theorem c_string_zeros (text : List Nat) (k : Nat) (h : ∀ c ∈ text, c ≠ 0) :
    c_string (text ++ List.replicate k 0) = text := by
  unfold c_string
  rw [List.takeWhile_append_of_pos (by simpa using h)]
  cases k with
  | zero => simp
  | succ k => simp [List.replicate_succ]

theorem meta_parse_string_render (heap : Nat → Nat) (hheap : heap 0 = 0) (v : meta_value)
    (h : well_formed v = true) : meta_parse_string heap (render v) = .ok v := by
  have := parse_render heap hheap v h ((render v).length + 1) [0] (by omega)
    ⟨0, [], rfl, by decide⟩
  simp only [meta_parse_string, meta_parse_string_cursor, this]

/-- Composing a well-formed value into zeroed memory and parsing the text
gives the value back. -/
theorem round_trip_core (heap : Nat → Nat) (hheap : heap 0 = 0) (v : meta_value)
    (h : well_formed v = true) (Z d : Nat) (hd : (render v).length < d) (h64 : d < 2 ^ 64)
    (hZ : d + (render v).length ≤ Z) :
    meta_compose v (List.replicate Z 0) d
        = .ok (render v ++ List.replicate (Z - (render v).length) 0) ∧
      c_string (render v ++ List.replicate (Z - (render v).length) 0) = render v ∧
      meta_parse_string heap (render v) = .ok v :=
  ⟨meta_compose_render v (terminated_of_well_formed v h) Z d hd h64 hZ,
    c_string_zeros _ _ (render_ne_zero v (terminated_of_well_formed v h)),
    meta_parse_string_render heap hheap v h⟩


/-! ## Composer in a buffer of `dest_len` bytes -/

mutual
theorem compose_render_tight : ∀ (v : meta_value), terminated v = true →
    ∀ (outside : Bool), null_outside_arrays outside v = true →
    ∀ (A : List Nat) (Z d : Nat), (render v).length < d → d < 2 ^ 64 →
      (render v).length < Z → (outside = true → d ≤ Z) →
      _meta_compose v (A ++ List.replicate Z 0) A.length d
        = .ok (A ++ render v ++ List.replicate (Z - (render v).length) 0,
            A.length + (render v).length)
  | .integer n, _, _, _, A, Z, d, hd, _, hZ, _ => by
    simp only [render] at hd hZ
    simp only [_meta_compose, render]
    exact compose_int_render n A Z d hd hZ
  | .string s, h, _, _, A, Z, d, hd, _, hZ, _ => by
    simp only [terminated, List.all_eq_true, decide_eq_true_eq] at h
    simp only [render] at hd hZ
    simp only [_meta_compose, render]
    exact compose_string_render s A Z d h hd hZ
  | .null, _, outside, hn, A, Z, d, hd, _, hZ, ht => by
    simp only [null_outside_arrays] at hn
    simp only [render, List.length_cons, List.length_nil] at hd hZ
    simp only [_meta_compose, render]
    exact compose_null_render A Z d (by omega) (ht hn)
  | .array items, h, outside, hn, A, Z, d, hd, h64, hZ, _ => by
    simp only [terminated] at h
    simp only [null_outside_arrays] at hn
    simp only [render, List.length_cons, List.length_append, List.length_nil] at hd hZ
    have h1 := strncat_zeros A [] [91, 32] Z d (by simp) (by simp; omega) (by simp; omega)
    have h2 := compose_render_tight_items items h hn A [91, 32] (Z - 2) d (by simp) (by omega)
      h64 (by omega)
    have h3 := strncat_zeros A ([91, 32] ++ render_items items) [93]
      (Z - 2 - (render_items items).length) d
      (by
        intro c hc
        rcases List.mem_append.mp hc with hc | hc
        · simp at hc; omega
        · exact render_items_ne_zero items h c hc)
      (by simp; omega) (by simp; omega)
    simp only [List.append_nil, List.length_cons, List.length_nil, List.append_assoc,
      List.cons_append, List.nil_append, List.length_append] at h1 h2 h3
    simp only [_meta_compose, _meta_compose_array, render, result_ok_bind, result_pure,
      List.append_nil, List.length_cons, List.length_nil, List.append_assoc,
      List.cons_append, List.nil_append, List.length_append]
    ring_nf at h1 h2 h3 ⊢
    rw [h1]
    simp only [result_ok_bind]
    rw [h2]
    simp only [result_ok_bind]
    ring_nf
    rw [h3]
    first
      | rfl
      | (try simp only [result_ok_bind]
         refine congrArg Except.ok (Prod.ext ?_ rfl)
         simp only [List.append_cancel_left_eq, List.cons.injEq, true_and]
         exact congrArg (fun k => List.replicate k 0) (by omega))
  | .obj fields, h, outside, hn, A, Z, d, hd, h64, hZ, ht => by
    simp only [terminated] at h
    simp only [null_outside_arrays] at hn
    simp only [render, List.length_cons, List.length_append, List.length_nil] at hd hZ
    have h1 := strncat_zeros A [] [40, 32] Z d (by simp) (by simp; omega) (by simp; omega)
    have h2 := compose_render_tight_fields fields h outside hn 0 A.length (A ++ [40, 32])
      (Z - 2) d (by simp) (by simp; omega) h64 (by omega)
      (by
        intro ho
        have := ht ho
        simp only [List.length_append, List.length_cons, List.length_nil]
        omega)
    have h3 := strncat_zeros (A ++ [40, 32] ++ render_fields fields) [] [41]
      (Z - 2 - (render_fields fields).length) d (by simp) (by simp; omega) (by simp; omega)
    simp only [List.append_nil, List.length_cons, List.length_nil, List.append_assoc,
      List.cons_append, List.nil_append, List.length_append] at h1 h2 h3
    simp only [_meta_compose, _meta_compose_obj, render, result_ok_bind, result_pure,
      List.append_nil, List.length_cons, List.length_nil, List.append_assoc,
      List.cons_append, List.nil_append, List.length_append]
    ring_nf at h1 h2 h3 ⊢
    rw [h1]
    simp only [result_ok_bind]
    rw [h2]
    simp only [result_ok_bind]
    ring_nf
    rw [h3]
    first
      | rfl
      | (try simp only [result_ok_bind]
         refine congrArg Except.ok (Prod.ext ?_ rfl)
         simp only [List.append_cancel_left_eq, List.cons.injEq, true_and]
         exact congrArg (fun k => List.replicate k 0) (by omega))
theorem compose_render_tight_items : ∀ (items : List meta_value),
    terminated_items items = true → null_outside_arrays_items items = true →
    ∀ (A Q : List Nat) (Z d : Nat), (∀ c ∈ Q, c ≠ 0) → (render_items items).length < d →
      d < 2 ^ 64 → (render_items items).length < Z →
      _meta_compose_array_loop items A.length d (A ++ Q ++ List.replicate Z 0)
          (A.length + Q.length)
        = .ok (A ++ Q ++ render_items items
              ++ List.replicate (Z - (render_items items).length) 0,
            A.length + Q.length + (render_items items).length)
  | [], _, _, A, Q, Z, d, _, _, _, _ => by
    simp [_meta_compose_array_loop, render_items]
  | v :: rest, h, hn, A, Q, Z, d, hQ, hd, h64, hZ => by
    simp only [terminated_items, Bool.and_eq_true] at h
    simp only [null_outside_arrays_items, Bool.and_eq_true] at hn
    simp only [render_items, List.length_cons, List.length_append] at hd hZ
    have h1 := compose_render_tight v h.1 false hn.1 (A ++ Q) Z d (by omega) h64 (by omega)
      (fun hf => absurd hf (by simp))
    have hQ' : ∀ c ∈ Q ++ render v, c ≠ 0 := by
      intro c hc
      rcases List.mem_append.mp hc with hc | hc
      · exact hQ c hc
      · exact render_ne_zero v h.1 c hc
    have h2 := strncat_zeros A (Q ++ render v) [32] (Z - (render v).length) d hQ'
      (by simp; omega) (by simp; omega)
    have hQ'' : ∀ c ∈ Q ++ render v ++ [32], c ≠ 0 := by
      intro c hc
      rcases List.mem_append.mp hc with hc | hc
      · exact hQ' c hc
      · simp at hc; omega
    have h3 := compose_render_tight_items rest h.2 hn.2 A (Q ++ render v ++ [32])
      (Z - (render v).length - 1) d hQ'' (by omega) h64 (by omega)
    simp only [List.append_nil, List.length_cons, List.length_nil, List.append_assoc,
      List.cons_append, List.nil_append, List.length_append] at h1 h2 h3
    simp only [_meta_compose_array_loop, render_items, result_ok_bind, result_pure,
      List.append_nil, List.length_cons, List.length_nil, List.append_assoc,
      List.cons_append, List.nil_append, List.length_append]
    ring_nf at h1 h2 h3 ⊢
    rw [h1]
    simp only [result_ok_bind, List.append_nil, List.length_cons, List.length_nil, List.append_assoc,
      List.cons_append, List.nil_append, List.length_append]
    ring_nf
    rw [h2]
    simp only [result_ok_bind, List.append_nil, List.length_cons, List.length_nil, List.append_assoc,
      List.cons_append, List.nil_append, List.length_append]
    rw [h3]
    first
      | rfl
      | (try simp only [result_ok_bind]
         refine congrArg Except.ok (Prod.ext ?_ rfl)
         simp only [List.append_cancel_left_eq, List.cons.injEq, true_and]
         exact congrArg (fun k => List.replicate k 0) (by omega))
theorem compose_render_tight_fields : ∀ (fields : List (List Nat × meta_value)),
    terminated_fields fields = true →
    ∀ (outside : Bool), null_outside_arrays_fields outside fields = true →
    ∀ (i start : Nat) (A : List Nat) (Z d : Nat), start ≤ A.length →
      (A.length - start) + (render_fields fields).length < d → d < 2 ^ 64 →
      (render_fields fields).length < Z → (outside = true → d ≤ (A.length - start) + Z) →
      _meta_compose_obj_loop fields i start d (A ++ List.replicate Z 0) A.length
        = .ok (A ++ render_fields fields
              ++ List.replicate (Z - (render_fields fields).length) 0,
            A.length + (render_fields fields).length)
  | [], _, _, _, i, start, A, Z, d, _, _, _, _, _ => by
    simp [_meta_compose_obj_loop, render_fields]
  | (name, v) :: rest, h, outside, hn, i, start, A, Z, d, hs, hd, h64, hZ, ht => by
    simp only [terminated_fields, Bool.and_eq_true, List.all_eq_true, decide_eq_true_eq] at h
    simp only [null_outside_arrays_fields, Bool.and_eq_true] at hn
    simp only [render_fields, List.length_cons, List.length_append] at hd hZ
    have h0 := field_cstr_terminated i name (rest.map Prod.fst) h.1.1.1
    have h1 := mem_write_bytes_zeros A name Z (by omega)
    have h2 := mem_write_zeros (A ++ name) (Z - name.length) 58 (by omega)
    have hsub : size_sub d (A.length + name.length + 1 - start)
        = d - (A.length + name.length + 1 - start) := size_sub_eq _ _ h64 (by omega)
    have h3 := compose_render_tight v h.1.2 outside hn.1 (A ++ name ++ [58])
      (Z - name.length - 1)
      (d - (A.length + name.length + 1 - start)) (by omega) (by omega) (by omega)
      (by
        intro ho
        have := ht ho
        omega)
    have h4 := mem_write_zeros (A ++ name ++ [58] ++ render v)
      (Z - name.length - 1 - (render v).length) 32 (by omega)
    have h5 := compose_render_tight_fields rest h.2 outside hn.2 (i + 1) start
      (A ++ name ++ [58] ++ render v ++ [32])
      (Z - name.length - 1 - (render v).length - 1) d (by simp; omega) (by simp; omega) h64
      (by omega)
      (by
        intro ho
        have := ht ho
        simp only [List.length_append, List.length_cons, List.length_nil]
        omega)
    simp only [List.append_nil, List.length_cons, List.length_nil, List.append_assoc,
      List.cons_append, List.nil_append, List.length_append] at h1 h2 h3 h4 h5 hsub
    simp only [_meta_compose_obj_loop, render_fields, result_ok_bind, result_pure, h0,
      List.append_nil, List.length_cons, List.length_nil, List.append_assoc,
      List.cons_append, List.nil_append, List.length_append]
    ring_nf at h1 h2 h3 h4 h5 hsub ⊢
    rw [h1]
    simp only [result_ok_bind, List.append_nil, List.length_cons, List.length_nil, List.append_assoc,
      List.cons_append, List.nil_append, List.length_append]
    rw [h2]
    simp only [result_ok_bind, List.append_nil, List.length_cons, List.length_nil, List.append_assoc,
      List.cons_append, List.nil_append, List.length_append]
    rw [hsub, h3]
    simp only [result_ok_bind, List.append_nil, List.length_cons, List.length_nil, List.append_assoc,
      List.cons_append, List.nil_append, List.length_append]
    ring_nf
    rw [h4]
    simp only [result_ok_bind, List.append_nil, List.length_cons, List.length_nil, List.append_assoc,
      List.cons_append, List.nil_append, List.length_append]
    rw [h5]
    first
      | rfl
      | (try simp only [result_ok_bind]
         refine congrArg Except.ok (Prod.ext ?_ rfl)
         simp only [List.append_cancel_left_eq, List.cons.injEq, true_and]
         exact congrArg (fun k => List.replicate k 0) (by omega))
end

theorem meta_compose_render_tight (v : meta_value) (h : terminated v = true)
    (hn : null_outside_arrays true v = true) (Z d : Nat)
    (hd : (render v).length < d) (h64 : d < 2 ^ 64) (hZ : d ≤ Z) :
    meta_compose v (List.replicate Z 0) d
      = .ok (render v ++ List.replicate (Z - (render v).length) 0) := by
  have h1 := compose_render_tight v h true hn [] Z d hd h64 (by omega) (fun _ => hZ)
  have h2 := mem_write_zeros (render v) (Z - (render v).length) 0 (by omega)
  have h3 : render v ++ [0] ++ List.replicate (Z - (render v).length - 1) 0
      = render v ++ List.replicate (Z - (render v).length) 0 := by
    have : Z - (render v).length = (Z - (render v).length - 1) + 1 := by omega
    rw [List.append_assoc]
    conv_rhs => rw [this, List.replicate_succ]
    rfl
  simp only [List.nil_append, List.length_nil, Nat.zero_add] at h1
  simp only [meta_compose, h1, result_ok_bind, h2, h3]

theorem round_trip_core_tight (heap : Nat → Nat) (hheap : heap 0 = 0) (v : meta_value)
    (h : well_formed v = true) (hn : null_outside_arrays true v = true) (Z d : Nat)
    (hd : (render v).length < d) (h64 : d < 2 ^ 64) (hZ : d ≤ Z) :
    meta_compose v (List.replicate Z 0) d
        = .ok (render v ++ List.replicate (Z - (render v).length) 0) ∧
      c_string (render v ++ List.replicate (Z - (render v).length) 0) = render v ∧
      meta_parse_string heap (render v) = .ok v :=
  ⟨meta_compose_render_tight v (terminated_of_well_formed v h) hn Z d hd h64 hZ,
    c_string_zeros _ _ (render_ne_zero v (terminated_of_well_formed v h)),
    meta_parse_string_render heap hheap v h⟩


/-! ## Parser and composer: claims -/

/-- C1. The parser returns the empty object for the text `()`; the composer
renders the empty object as `( )`, whatever the size of the zeroed buffer; and
on `( )` the parser fails the assertion of `_meta_load_ident`, because the loop
of `_meta_parse_obj` tests for `)` before it skips the space. A value the
parser returns does not survive the round trip. -/
theorem empty_object_round_trip_fails (heap : Nat → Nat) (Z d : Nat) (hd : 3 < d)
    (h64 : d < 2 ^ 64) (hZ : d + 3 ≤ Z) :
    meta_parse_string heap (bytes "()") = .ok (.obj []) ∧
      ∃ mem, meta_compose (.obj []) (List.replicate Z 0) d = .ok mem ∧
        c_string mem = bytes "( )" ∧
        meta_parse_string heap (c_string mem) = .error .ident_not_alphabetic := by
  have hr : render (.obj []) = bytes "( )" := by decide
  have hc := meta_compose_render (.obj []) rfl Z d (by rw [hr]; exact hd) h64
    (by rw [hr]; exact hZ)
  have hs := c_string_zeros (render (.obj [])) (Z - (render (.obj [])).length)
    (render_ne_zero (.obj []) rfl)
  refine ⟨rfl, _, hc, by rw [hs, hr], ?_⟩
  rw [hs]
  rfl

/-- Witness of C1: a budget of 16 bytes inside 32 zeroed bytes. -/
theorem empty_object_round_trip_fails_witness :
    meta_parse_string zero_heap (bytes "()") = .ok (.obj []) ∧
      ∃ mem, meta_compose (.obj []) (List.replicate 32 0) 16 = .ok mem ∧
        c_string mem = bytes "( )" ∧
        meta_parse_string zero_heap (c_string mem) = .error .ident_not_alphabetic :=
  empty_object_round_trip_fails zero_heap 32 16 (by decide) (by decide) (by decide)

/-- C2, counterexample. The value `meta_new_integer( -1 )` is composed as `-1`,
and the parser rejects `-` as an unknown character. -/
theorem round_trip_negative_integer_fails :
    meta_compose (meta_new_integer (-1)) (List.replicate 64 0) 64
        = .ok (bytes "-1" ++ List.replicate 62 0) ∧
      meta_parse_string zero_heap (c_string (bytes "-1" ++ List.replicate 62 0))
        = .error (.unknown_character 45) := by
  decide

/-- C2, amended. For a well-formed value (integers from `0` to `INT_MAX`,
strings without quote, objects with at least one field and sanitized names
shorter than 128 bytes, at most 128 children per container) in which no Null
lies below an Array, a budget `d` longer than the text and zeroed memory of at
least `d` bytes: `meta_compose` succeeds, and `meta_parse_string` on the text
it wrote returns the value, when the byte behind each string allocation is
NUL. -/
theorem round_trip_well_formed (heap : Nat → Nat) (hheap : heap 0 = 0) (v : meta_value)
    (h : well_formed v = true) (hnull : null_outside_arrays true v = true) (Z d : Nat)
    (hd : (render v).length < d) (h64 : d < 2 ^ 64) (hZ : d ≤ Z) :
    ∃ mem, meta_compose v (List.replicate Z 0) d = .ok mem ∧
      meta_parse_string heap (c_string mem) = .ok v := by
  obtain ⟨h1, h2, h3⟩ := round_trip_core_tight heap hheap v h hnull Z d hd h64 hZ
  exact ⟨_, h1, by rw [h2, h3]⟩

/-- Witness of C2: the object of the concrete scenario, a budget of 4096 bytes
and a zeroed buffer of 4096 bytes, as in `main`. -/
theorem round_trip_well_formed_witness :
    ∃ mem, meta_compose example_tile (List.replicate 4096 0) 4096 = .ok mem ∧
      meta_parse_string zero_heap (c_string mem) = .ok example_tile :=
  round_trip_well_formed zero_heap rfl example_tile (by decide) (by decide) 4096 4096
    (by decide) (by decide) (by decide)

/-- C3, counterexample. The string `a"b` is composed as `"a"b"`; the parser
returns the string `a`, which is composed as `"a"`: a different text. -/
theorem recompose_quote_string_differs :
    meta_compose (meta_new_string (bytes "a\"b")) (List.replicate 64 0) 64
        = .ok (bytes "\"a\"b\"" ++ List.replicate 59 0) ∧
      meta_parse_string zero_heap (c_string (bytes "\"a\"b\"" ++ List.replicate 59 0))
        = .ok (.string (bytes "a")) ∧
      meta_compose (.string (bytes "a")) (List.replicate 64 0) 64
        = .ok (bytes "\"a\"" ++ List.replicate 61 0) ∧
      bytes "\"a\"" ++ List.replicate 61 0 ≠ bytes "\"a\"b\"" ++ List.replicate 59 0 := by
  decide

/-- C3, amended. For a well-formed value in which no Null lies below an
Array, a budget `d` longer than the text and zeroed memory of at least `d`
bytes: composing, parsing the text (the byte behind each string allocation
being NUL) and composing the parsed value again writes the same memory as the
first composition. -/
theorem recompose_well_formed (heap : Nat → Nat) (hheap : heap 0 = 0) (v : meta_value)
    (h : well_formed v = true) (hnull : null_outside_arrays true v = true) (Z d : Nat)
    (hd : (render v).length < d) (h64 : d < 2 ^ 64) (hZ : d ≤ Z) :
    ∃ mem parsed, meta_compose v (List.replicate Z 0) d = .ok mem ∧
      meta_parse_string heap (c_string mem) = .ok parsed ∧
      meta_compose parsed (List.replicate Z 0) d = .ok mem := by
  obtain ⟨h1, h2, h3⟩ := round_trip_core_tight heap hheap v h hnull Z d hd h64 hZ
  exact ⟨_, v, h1, by rw [h2, h3], h1⟩

/-- Witness of C3: the object of the concrete scenario, a budget of 4096 bytes
and a zeroed buffer of 4096 bytes, as in `main`. -/
theorem recompose_well_formed_witness :
    ∃ mem parsed, meta_compose example_tile (List.replicate 4096 0) 4096 = .ok mem ∧
      meta_parse_string zero_heap (c_string mem) = .ok parsed ∧
      meta_compose parsed (List.replicate 4096 0) 4096 = .ok mem :=
  recompose_well_formed zero_heap rfl example_tile (by decide) (by decide) 4096 4096
    (by decide) (by decide) (by decide)

/-- C4. With a budget of 4 bytes inside 16 zeroed bytes, `meta_compose` writes
the 14 bytes of `( abcdefgh:7 )`: the field name, the colon and the spaces are
stored without a test, and the budget left for the field value,
`dest_len - ( dest - start )`, wraps around. -/
theorem meta_compose_writes_past_budget :
    meta_compose (.obj [(bytes "abcdefgh", .integer 7)]) (List.replicate 16 0) 4
      = .ok (bytes "( abcdefgh:7 )" ++ [0, 0]) := by
  decide


/-- C5. The array that holds the one item `null`, composed into a zeroed
buffer of `N` bytes with `dest_len = N`: whatever `N` is, a store leaves the
buffer. For `N >= 3`, `_meta_compose_array` hands the whole `dest_len` to
`_meta_compose_null` at offset 2, and `strncpy` fills `N` bytes from there. -/
theorem meta_compose_array_null_overflows (N : Nat) :
    meta_compose (.array [.null]) (List.replicate N 0) N = .error .undefined := by
  rcases Nat.lt_or_ge N 3 with h | h
  · interval_cases N <;> decide
  · have h1 := strncat_zeros [] [] [91, 32] N N (by simp) (by simp; omega) (by simp; omega)
    simp only [List.nil_append, List.length_nil, List.length_cons, List.append_nil] at h1
    have hlen : ([91, 32] ++ List.replicate (N - (0 + 1 + 1)) 0).length = N := by
      simp; omega
    have h2 : strncpy ([91, 32] ++ List.replicate (N - (0 + 1 + 1)) 0) (0 + 2)
        [110, 117, 108, 108] N = .error .undefined := by
      simp only [strncpy, hlen]
      simp
    simp only [meta_compose, _meta_compose, _meta_compose_array, h1, result_ok_bind,
      _meta_compose_array_loop, _meta_compose_null, h2, result_error_bind]


/-! ## Field lookup and capacities: claims -/

/-- C11. The name of 128 letters `a` is sanitized and fills its row of 128
bytes without a NUL. On the object built by `meta_set_field` with that name and
then with the name `b`, `meta_set_field` with the long name returns `true`
(its `strncmp` stops after 128 bytes and overwrites the first field), but
`meta_get_field` with the same name returns `false`: its `strcmp` runs on into
the next row, which holds `b`. -/
theorem meta_get_field_misses_full_row :
    _meta_is_field_sanitized name_128 = true ∧ name_128.length = 128 ∧
      meta_set_field meta_new_obj name_128 (.integer 1)
        = .ok (true, .obj [(name_128, .integer 1)]) ∧
      meta_set_field (.obj [(name_128, .integer 1)]) (bytes "b") (.integer 2)
        = .ok (true, .obj [(name_128, .integer 1), (bytes "b", .integer 2)]) ∧
      meta_set_field (.obj [(name_128, .integer 1), (bytes "b", .integer 2)]) name_128
          (.integer 3)
        = .ok (true, .obj [(name_128, .integer 3), (bytes "b", .integer 2)]) ∧
      meta_get_field (.obj [(name_128, .integer 3), (bytes "b", .integer 2)]) name_128
        = .ok none := by
  decide

/-- C12. On the object whose one field has the name of 128 letters `a`,
`meta_get_field` with that name returns `true` and the value `1`. After
`meta_set_field` with the different name `b`, which appends, the same
`meta_get_field` returns `false`: the row of 128 bytes has no NUL, and `strcmp`
now runs on into the row that holds `b`. -/
theorem meta_set_field_hides_full_row :
    _meta_is_field_sanitized name_128 = true ∧ name_128.length = 128 ∧
      _meta_is_field_sanitized (bytes "b") = true ∧ name_128 ≠ bytes "b" ∧
      meta_get_field (.obj [(name_128, .integer 1)]) name_128 = .ok (some (.integer 1)) ∧
      meta_set_field (.obj [(name_128, .integer 1)]) (bytes "b") (.integer 2)
        = .ok (true, .obj [(name_128, .integer 1), (bytes "b", .integer 2)]) ∧
      meta_get_field (.obj [(name_128, .integer 1), (bytes "b", .integer 2)]) name_128
        = .ok none := by
  decide

theorem parse_string_search_unterminated : ∀ (s : List Nat), (∀ x ∈ s, x ≠ 0 ∧ x ≠ 34) →
    _meta_parse_string_search (s ++ [0]) = .ok (s, [])
  | [], _ => by simp [_meta_parse_string_search]
  | x :: s, hs => by
    have hx := hs x (by simp)
    have ih := parse_string_search_unterminated s
      (fun y hy => hs y (List.mem_cons_of_mem _ hy))
    simp [_meta_parse_string_search, hx.1, hx.2, ih]

/-- C13. On a text that opens a string with `"` and holds no second `"`
before its end, `meta_parse_string` returns a String (the bytes after the
quote, as the copy loop reads them) and leaves the cursor one byte past the
terminating NUL: the assertion after the search compares the byte found with
the character `'0'`, not with NUL, and never fails there. -/
theorem meta_parse_string_unterminated (heap : Nat → Nat) (s : List Nat)
    (hs : ∀ x ∈ s, x ≠ 0 ∧ x ≠ 34) :
    meta_parse_string_cursor heap (34 :: s) = .ok (.string (_meta_copy_string heap s), []) ∧
      meta_parse_string heap (34 :: s) = .ok (.string (_meta_copy_string heap s)) := by
  have h := parse_string_search_unterminated s hs
  have hc : meta_parse_string_cursor heap (34 :: s)
      = .ok (.string (_meta_copy_string heap s), []) := by
    simp only [meta_parse_string_cursor, List.cons_append]
    rw [parse_value_string]
    simp [_meta_parse_string, h]
  exact ⟨hc, by simp only [meta_parse_string, hc]⟩

/-- Witness of C13: the text `"abc`. -/
theorem meta_parse_string_unterminated_witness :
    meta_parse_string_cursor zero_heap (bytes "\"abc")
        = .ok (.string (_meta_copy_string zero_heap (bytes "abc")), []) ∧
      meta_parse_string zero_heap (bytes "\"abc")
        = .ok (.string (_meta_copy_string zero_heap (bytes "abc"))) :=
  meta_parse_string_unterminated zero_heap (bytes "abc") (by decide)

/-- C14. When the first byte `c` of the text (the NUL, for the empty text) is
none of `"`, `(`, `[`, `n` or a digit, `meta_parse_string` fails the assertion
`Unknown character` on `c` and returns no value; whitespace and comments at the
start are not skipped. -/
theorem meta_parse_string_unknown_character (heap : Nat → Nat) (text : List Nat) (c : Nat)
    (hc : text.headD 0 = c) (h1 : c ≠ 34) (h2 : c ≠ 40) (h3 : c ≠ 91) (h4 : c ≠ 110)
    (h5 : _meta_is_numeric c = false) :
    meta_parse_string heap text = .error (.unknown_character c) ∧
      meta_parse_string_cursor heap text = .error (.unknown_character c) := by
  have hmem : ∃ rest, text ++ [0] = c :: rest := by
    cases text with
    | nil => exact ⟨[], by simpa using hc⟩
    | cons x t => exact ⟨t ++ [0], by simpa using hc⟩
  obtain ⟨rest, hrest⟩ := hmem
  have hv : meta_parse_string_cursor heap text = .error (.unknown_character c) := by
    simp only [meta_parse_string_cursor, hrest]
    cases text.length + 1 <;> simp [_meta_parse_value, h1, h2, h3, h4, h5]
  exact ⟨by simp only [meta_parse_string, hv], hv⟩

/-- Witness of C14: the text ` 1`, which starts with a space. -/
theorem meta_parse_string_unknown_character_witness :
    meta_parse_string zero_heap (bytes " 1") = .error (.unknown_character 32) ∧
      meta_parse_string_cursor zero_heap (bytes " 1") = .error (.unknown_character 32) :=
  meta_parse_string_unknown_character zero_heap (bytes " 1") 32 (by decide) (by decide)
    (by decide) (by decide) (by decide) (by decide)

/-- C17. On the text `(x:1 x:2)` the parser returns an object with two fields
named `x`, holding `1` and `2`: `_meta_parse_obj` stores every field in the
next row and never compares names. `meta_get_field` then finds the first
one. -/
theorem meta_parse_string_keeps_duplicate_names (heap : Nat → Nat) :
    meta_parse_string heap (bytes "(x:1 x:2)")
        = .ok (.obj [(bytes "x", .integer 1), (bytes "x", .integer 2)]) ∧
      meta_get_field (.obj [(bytes "x", .integer 1), (bytes "x", .integer 2)]) (bytes "x")
        = .ok (some (.integer 1)) :=
  ⟨rfl, by decide⟩

/-- C18. On an array that holds 128 items, `meta_set_nth( a, 128, V )` takes
the append path, which has no capacity test: it stores into `items[128]`,
behind the last slot. It does not return `false`. -/
theorem meta_set_nth_append_at_capacity (items : List meta_value) (V : meta_value)
    (h : items.length = META_MAX_ARRAY_LEN) :
    meta_set_nth (.array items) 128 V = .error .undefined := by
  simp [meta_set_nth, h]

/-- Witness of C18: the array of 128 items `null`. -/
theorem meta_set_nth_append_at_capacity_witness :
    meta_set_nth (.array (List.replicate 128 .null)) 128 (.integer 1) = .error .undefined :=
  meta_set_nth_append_at_capacity (List.replicate 128 .null) (.integer 1) (by decide)

/-- C20. On the text `["abc` the end of the input is reached inside the
array. The string case returns with the cursor one byte past the terminating
NUL (as in C13), and `_meta_skip_whitespace` then reads the byte there, which
lies behind the input. On the text `(x:1` the parser fails an assertion at the
NUL. -/
theorem meta_parse_string_reads_past_end (heap : Nat → Nat) :
    _meta_parse_value heap 0 (bytes "\"abc" ++ [0])
        = .ok (.string (_meta_copy_string heap (bytes "abc")), []) ∧
      _meta_skip_whitespace [] = .error .undefined ∧
      meta_parse_string heap (bytes "[\"abc") = .error .undefined ∧
      meta_parse_string heap (bytes "(x:1") = .error .ident_not_alphabetic :=
  ⟨rfl, rfl, rfl, rfl⟩


/-! ## Tokens: claims -/

theorem atoi_digits_eq_base10_value (digits : List Nat) :
    atoi_digits digits = base10_value digits := by
  induction digits using List.reverseRecOn with
  | nil => simp [atoi_digits, base10_value]
  | append_singleton xs c ih =>
    rw [atoi_digits_append, ih]
    simp only [base10_value, List.map_append, List.map_cons, List.map_nil,
      List.reverse_append, List.reverse_cons, List.reverse_nil, List.nil_append,
      List.singleton_append, Nat.ofDigits_cons]
    omega

/-- C15. On a text that starts with a non-empty run of digits followed by a
byte that is no digit (or by the end of the text), the parser returns the Int
whose value is the base-10 value of the run, leading zeros allowed, and leaves
the cursor on the byte behind the run, whenever the value is at most
`INT_MAX`. -/
theorem meta_parse_string_integer (heap : Nat → Nat) (digits rest : List Nat)
    (hne : digits ≠ []) (hdigits : ∀ x ∈ digits, _meta_is_numeric x = true)
    (hrest : _meta_is_numeric (rest.headD 0) = false)
    (hmax : base10_value digits ≤ INT_MAX) :
    meta_parse_string_cursor heap (digits ++ rest)
        = .ok (.integer (base10_value digits : Nat), rest ++ [0]) ∧
      meta_parse_string heap (digits ++ rest) = .ok (.integer (base10_value digits : Nat)) := by
  obtain ⟨c, r, hr⟩ : ∃ c r, rest ++ [0] = c :: r ∧ rest.headD 0 = c := by
    cases rest with
    | nil => exact ⟨0, [], rfl, rfl⟩
    | cons x t => exact ⟨x, t ++ [0], by simp, rfl⟩
  have hc : _meta_is_numeric c = false := hr.2 ▸ hrest
  have hrun := parse_int_run digits c r hne hdigits hc
    (by rw [atoi_digits_eq_base10_value]; exact hmax)
  have hv : meta_parse_string_cursor heap (digits ++ rest)
      = .ok (.integer (base10_value digits : Nat), rest ++ [0]) := by
    simp only [meta_parse_string_cursor, List.append_assoc, hr.1]
    cases hd : digits with
    | nil => exact absurd hd hne
    | cons x ds =>
      rw [hd] at hrun
      simp only [List.cons_append] at hrun ⊢
      rw [parse_value_numeric heap _ x _ (hdigits x (by simp [hd])), hrun,
        atoi_digits_eq_base10_value]
      rfl
  exact ⟨hv, by simp only [meta_parse_string, hv]⟩

/-- Witness of C15: `007` yields 7, and `12a` yields 12 with the cursor on
`a`. -/
theorem meta_parse_string_integer_witness :
    (meta_parse_string_cursor zero_heap (bytes "007") = .ok (.integer 7, [0]) ∧
      meta_parse_string zero_heap (bytes "007") = .ok (.integer 7)) ∧
    (meta_parse_string_cursor zero_heap (bytes "12a") = .ok (.integer 12, bytes "a" ++ [0]) ∧
      meta_parse_string zero_heap (bytes "12a") = .ok (.integer 12)) :=
  ⟨meta_parse_string_integer zero_heap (bytes "007") [] (by decide) (by decide) (by decide)
      (by decide),
    meta_parse_string_integer zero_heap (bytes "12") (bytes "a") (by decide) (by decide)
      (by decide) (by decide)⟩

/-- C16, counterexample. The texts `nullx` and `null5` start with `n`, are not
`null`, and parse to Null. -/
theorem meta_parse_string_null_prefix_accepted :
    meta_parse_string zero_heap (bytes "nullx") = .ok .null ∧
      meta_parse_string zero_heap (bytes "null5") = .ok .null := by
  decide

/-- C16, amended. A text that starts with `n` parses to Null exactly when its
first four bytes are `null`, whatever follows them, and the cursor is then
left behind the fourth byte. Every other text that starts with `n` fails an
assertion `Expected ... got ...`. -/
theorem meta_parse_string_null (heap : Nat → Nat) (t : List Nat) :
    (∀ rest, t = [117, 108, 108] ++ rest →
      meta_parse_string_cursor heap (110 :: t) = .ok (.null, rest ++ [0])) ∧
    (¬ [117, 108, 108] <+: t →
      ∃ want got, got ≠ want ∧
        meta_parse_string_cursor heap (110 :: t) = .error (.expected want got) ∧
        meta_parse_string heap (110 :: t) = .error (.expected want got)) := by
  have hunfold : meta_parse_string_cursor heap (110 :: t)
      = (_meta_parse_null (110 :: (t ++ [0])) >>= fun s => Except.ok (.null, s)) := by
    simp only [meta_parse_string_cursor, List.cons_append]
    rw [parse_value_null]
  constructor
  · intro rest hrest
    subst hrest
    rw [hunfold]
    simp [_meta_parse_null, expect_char]
  · intro hpre
    have key : ∃ want got, got ≠ want ∧
        meta_parse_string_cursor heap (110 :: t) = .error (.expected want got) := by
      rw [hunfold]
      match t, hpre with
      | [], _ => exact ⟨117, 0, by decide, by simp [_meta_parse_null, expect_char]⟩
      | a :: t1, hpre =>
        by_cases ha : a = 117
        · subst ha
          match t1, hpre with
          | [], _ => exact ⟨108, 0, by decide, by simp [_meta_parse_null, expect_char]⟩
          | b :: t2, hpre =>
            by_cases hb : b = 108
            · subst hb
              match t2, hpre with
              | [], _ => exact ⟨108, 0, by decide, by simp [_meta_parse_null, expect_char]⟩
              | c :: t3, hpre =>
                have hc : c ≠ 108 := by
                  intro hc
                  subst hc
                  exact hpre ⟨t3, rfl⟩
                exact ⟨108, c, hc, by simp [_meta_parse_null, expect_char, hc]⟩
            · exact ⟨108, b, hb, by simp [_meta_parse_null, expect_char, hb]⟩
        · exact ⟨117, a, ha, by simp [_meta_parse_null, expect_char, ha]⟩
    obtain ⟨want, got, hne, hv⟩ := key
    exact ⟨want, got, hne, hv, by simp only [meta_parse_string, hv]⟩

/-- Witness of C16: `nullx` yields Null with the cursor on `x`, and `nope`
fails. -/
theorem meta_parse_string_null_witness :
    meta_parse_string_cursor zero_heap (bytes "nullx") = .ok (.null, bytes "x" ++ [0]) ∧
      ∃ want got, got ≠ want ∧
        meta_parse_string_cursor zero_heap (bytes "nope") = .error (.expected want got) ∧
        meta_parse_string zero_heap (bytes "nope") = .error (.expected want got) :=
  ⟨(meta_parse_string_null zero_heap (bytes "ullx")).1 (bytes "x") (by decide),
    (meta_parse_string_null zero_heap (bytes "ope")).2 (by decide)⟩


/-! ## Arrays of integers: claim -/

theorem skip_whitespace_loop_spaces (c : Nat) (rest : List Nat) (hc : is_token_byte c = true) :
    ∀ (k fuel : Nat), k < fuel →
      _meta_skip_whitespace_loop fuel (List.replicate k 32 ++ c :: rest) = .ok (c :: rest)
  | 0, fuel, h => by
    obtain ⟨f, rfl⟩ : ∃ f, fuel = f + 1 := ⟨fuel - 1, by omega⟩
    simp only [is_token_byte, Bool.and_eq_true, decide_eq_true_eq] at hc
    simp [_meta_skip_whitespace_loop, hc]
  | k + 1, fuel, h => by
    obtain ⟨f, rfl⟩ : ∃ f, fuel = f + 1 := ⟨fuel - 1, by omega⟩
    have ih := skip_whitespace_loop_spaces c rest hc k f (by omega)
    simp [List.replicate_succ, _meta_skip_whitespace_loop, ih]

theorem skip_whitespace_spaces (k c : Nat) (rest : List Nat) (hc : is_token_byte c = true) :
    _meta_skip_whitespace (List.replicate k 32 ++ c :: rest) = .ok (c :: rest) :=
  skip_whitespace_loop_spaces c rest hc k _ (by simp; omega)

theorem array_loop_step_skip (pv : List Nat → Result (meta_value × List Nat)) (lf : Nat)
    (acc : List meta_value) (c0 : Nat) (rest0 : List Nat) (v : meta_value) (s s' : List Nat)
    (hc0 : c0 ≠ 93) (hacc : acc.length < META_MAX_ARRAY_LEN)
    (hpv : pv (c0 :: rest0) = .ok (v, s)) (hskip : _meta_skip_whitespace s = .ok s') :
    _meta_parse_array_loop pv (lf + 1) acc (c0 :: rest0)
      = _meta_parse_array_loop pv lf (acc ++ [v]) s' := by
  have hacc' : ¬ (acc.length ≥ META_MAX_ARRAY_LEN) := by omega
  simp only [_meta_parse_array_loop, hc0, if_false, hpv, result_ok_bind, hacc', hskip]
  rfl

theorem format_int_digits (n : Nat) :
    ∃ x ds, format_int (n : Int) = x :: ds ∧ _meta_is_numeric x = true ∧
      (∀ y ∈ x :: ds, _meta_is_numeric y = true) ∧ atoi_digits (x :: ds) = n := by
  have hf : format_int (n : Int) = decimal_digits (n + 1) n := by
    rw [format_int_nonneg _ (Int.ofNat_nonneg n)]
    simp
  have hne := decimal_digits_ne_nil n n
  have hnum := decimal_digits_numeric (n + 1) n
  have hval := atoi_decimal_digits (n + 1) n (by omega)
  rw [hf]
  cases hd : decimal_digits (n + 1) n with
  | nil => exact absurd hd hne
  | cons x ds =>
    rw [hd] at hnum hval
    exact ⟨x, ds, rfl, hnum x (by simp), hnum, hval⟩

theorem parse_value_format_int (heap : Nat → Nat) (fuel n c : Nat) (rest : List Nat)
    (hn : n ≤ INT_MAX) (hc : _meta_is_numeric c = false) :
    _meta_parse_value heap fuel (format_int (n : Int) ++ c :: rest)
      = .ok (.integer (n : Int), c :: rest) := by
  obtain ⟨x, ds, hf, hx, hnum, hval⟩ := format_int_digits n
  have hrun := parse_int_run (x :: ds) c rest (by simp) hnum hc (by rw [hval]; exact hn)
  rw [hf]
  simp only [List.cons_append] at hrun ⊢
  rw [parse_value_numeric heap fuel x _ hx, hrun, hval]
  rfl

theorem numeric_token {c : Nat} (h : _meta_is_numeric c = true) :
    is_token_byte c = true ∧ c ≠ 93 := by
  simp only [_meta_is_numeric, Bool.and_eq_true, decide_eq_true_eq] at h
  simp only [is_token_byte, Bool.and_eq_true, decide_eq_true_eq]
  omega

theorem ints_text_head (n : Nat) (ns : List Nat) :
    ∃ x r, ints_text (n :: ns) = x :: r ∧ _meta_is_numeric x = true := by
  obtain ⟨x, ds, hf, hx, _, _⟩ := format_int_digits n
  cases ns with
  | nil => exact ⟨x, ds, by simp [ints_text, hf], hx⟩
  | cons m rest => exact ⟨x, ds ++ 32 :: ints_text (m :: rest), by simp [ints_text, hf], hx⟩

theorem ints_text_length : ∀ (ns : List Nat), ns.length ≤ (ints_text ns).length
  | [] => by simp
  | [n] => by
    obtain ⟨x, ds, hf, _⟩ := format_int_digits n
    simp [ints_text, hf]
  | n :: m :: rest => by
    have := ints_text_length (m :: rest)
    simp only [ints_text, List.length_cons, List.length_append] at this ⊢
    omega

theorem parse_array_loop_ints (heap : Nat → Nat) (fuel k : Nat) (tail : List Nat) :
    ∀ (ns : List Nat) (lf : Nat) (acc : List meta_value), ns ≠ [] → ns.length < lf →
      acc.length + ns.length ≤ META_MAX_ARRAY_LEN → (∀ n ∈ ns, n ≤ INT_MAX) →
      _meta_parse_array_loop (_meta_parse_value heap fuel) lf acc
          (ints_text ns ++ (List.replicate k 32 ++ 93 :: tail))
        = .ok (acc ++ ns.map (fun (n : Nat) => meta_value.integer (n : Int)), 93 :: tail)
  | [], _, _, hne, _, _, _ => absurd rfl hne
  | [n], lf, acc, _, hlf, hacc, hmax => by
    simp only [List.length_cons, List.length_nil] at hlf hacc
    obtain ⟨l, rfl⟩ : ∃ l, lf = l + 2 := ⟨lf - 2, by omega⟩
    obtain ⟨x, ds, hf, hx, _, _⟩ := format_int_digits n
    obtain ⟨c, r, hcr, hc⟩ : ∃ c r, List.replicate k 32 ++ 93 :: tail = c :: r ∧
        _meta_is_numeric c = false := by
      cases k with
      | zero => exact ⟨93, tail, rfl, by decide⟩
      | succ k => exact ⟨32, List.replicate k 32 ++ 93 :: tail, by simp [List.replicate_succ],
          by decide⟩
    have hpv := parse_value_format_int heap fuel n c r (hmax n (by simp)) hc
    have hskip := skip_whitespace_spaces k 93 tail (by decide)
    rw [← hcr, hf] at hpv
    simp only [List.cons_append] at hpv
    have hstep := array_loop_step_skip (_meta_parse_value heap fuel) (l + 1) acc x
      (ds ++ (List.replicate k 32 ++ 93 :: tail)) (.integer (n : Int)) _ _
      (numeric_token hx).2 (by omega) hpv hskip
    simp only [ints_text, hf, List.cons_append]
    rw [hstep]
    simp [_meta_parse_array_loop]
  | n :: m :: rest, lf, acc, _, hlf, hacc, hmax => by
    simp only [List.length_cons] at hlf hacc
    obtain ⟨l, rfl⟩ : ∃ l, lf = l + 1 := ⟨lf - 1, by omega⟩
    obtain ⟨x, ds, hf, hx, _, _⟩ := format_int_digits n
    obtain ⟨y, r, hy, hynum⟩ := ints_text_head m rest
    have hpv := parse_value_format_int heap fuel n 32
      (ints_text (m :: rest) ++ (List.replicate k 32 ++ 93 :: tail)) (hmax n (by simp))
      (by decide)
    have hskip := skip_whitespace_space y (r ++ (List.replicate k 32 ++ 93 :: tail))
      (numeric_token hynum).1
    rw [hf] at hpv
    simp only [List.cons_append] at hpv
    rw [hy] at hpv
    simp only [List.cons_append] at hpv
    have hstep := array_loop_step_skip (_meta_parse_value heap fuel) l acc x _
      (.integer (n : Int)) _ _ (numeric_token hx).2 (by omega) hpv hskip
    have ih := parse_array_loop_ints heap fuel k tail (m :: rest) l
      (acc ++ [.integer (n : Int)]) (by simp) (by simp only [List.length_cons]; omega)
      (by simp only [List.length_append, List.length_cons, List.length_nil]; omega)
      (fun a ha => hmax a (List.mem_cons_of_mem _ ha))
    rw [hy] at ih
    simp only [List.cons_append] at ih
    simp only [ints_text, hf, hy, List.cons_append, List.append_assoc]
    rw [hstep, ih]
    simp


theorem meta_parse_string_cursor_int_array (heap : Nat → Nat) (open_spaces close_spaces : Nat)
    (ns : List Nat) (hlen : ns.length ≤ META_MAX_ARRAY_LEN) (hmax : ∀ n ∈ ns, n ≤ INT_MAX) :
    meta_parse_string_cursor heap (array_text open_spaces close_spaces ns)
      = .ok (.array (ns.map (fun (n : Nat) => meta_value.integer (n : Int))), [0]) := by
  simp only [meta_parse_string_cursor, array_text, List.cons_append, List.append_assoc,
    List.singleton_append, List.nil_append]
  rw [parse_value_array]
  simp only [_meta_parse_array, expect_char, if_true, result_ok_bind]
  cases ns with
  | nil =>
    have hskip := skip_whitespace_spaces (open_spaces + close_spaces) 93 [0] (by decide)
    rw [List.replicate_add, List.append_assoc] at hskip
    simp only [ints_text, List.nil_append, hskip, result_ok_bind]
    simp [_meta_parse_array_loop]
  | cons n rest =>
    obtain ⟨x, r, hx, hnum⟩ := ints_text_head n rest
    have hskip := skip_whitespace_spaces open_spaces x
      (r ++ (List.replicate close_spaces 32 ++ [93, 0])) (numeric_token hnum).1
    have hl := ints_text_length (n :: rest)
    rw [hx] at hl
    have hloop := fun fuel => parse_array_loop_ints heap fuel close_spaces [0] (n :: rest)
      ((x :: (r ++ (List.replicate close_spaces 32 ++ [93, 0]))).length + 1) []
      (by simp)
      (by simp only [List.length_cons, List.length_append] at hl ⊢; omega)
      (by simpa using hlen) hmax
    rw [hx] at hloop
    simp only [List.cons_append, List.nil_append] at hloop
    simp only [hx, List.cons_append, hskip, result_ok_bind, hloop, result_pure, if_true]

/-- C19. The text `[`, any number of spaces, the decimal renderings of
`k <= 128` integers from `0` to `INT_MAX` separated by single spaces, any
number of spaces, `]` parses to the Array of these `k` Ints in order:
`meta_array_len` is `k`, `meta_get_nth` at `i < k` yields the `i`-th Int, and
`meta_get_nth` at `k` returns `false`. -/
theorem meta_parse_string_int_array (heap : Nat → Nat) (open_spaces close_spaces : Nat)
    (ns : List Nat) (hlen : ns.length ≤ META_MAX_ARRAY_LEN) (hmax : ∀ n ∈ ns, n ≤ INT_MAX) :
    ∃ a, meta_parse_string heap (array_text open_spaces close_spaces ns) = .ok a ∧
      a = .array (ns.map (fun (n : Nat) => meta_value.integer (n : Int))) ∧
      meta_array_len a = .ok (ns.length : Int) ∧
      meta_get_nth a (ns.length : Int) = .ok none ∧
      ∀ i : Nat, i < ns.length →
        meta_get_nth a (i : Int) = .ok ((ns.get? i).map (fun (n : Nat) => meta_value.integer (n : Int))) ∧
        (ns.get? i).isSome = true := by
  have hv := meta_parse_string_cursor_int_array heap open_spaces close_spaces ns hlen hmax
  refine ⟨_, by simp only [meta_parse_string, hv], rfl, by simp [meta_array_len],
    by simp [meta_get_nth], ?_⟩
  intro i hi
  have h1 : ¬ ((ns.length : Int) ≤ i) := by omega
  have h2 : ¬ ((i : Int) < 0) := by omega
  simp [meta_get_nth, h1, List.getElem?_eq_getElem hi, hi]

/-- Witness of C19: `[1 2 3]` yields the Array of 1, 2, 3, of length 3, and
index 3 is not found. -/
theorem meta_parse_string_int_array_witness :
    ∃ a, meta_parse_string zero_heap (bytes "[1 2 3]") = .ok a ∧
      a = .array [.integer 1, .integer 2, .integer 3] ∧
      meta_array_len a = .ok 3 ∧
      meta_get_nth a 3 = .ok none ∧
      ∀ i : Nat, i < 3 →
        meta_get_nth a (i : Int)
            = .ok (([1, 2, 3] : List Nat).get? i |>.map (fun (n : Nat) => meta_value.integer (n : Int))) ∧
          (([1, 2, 3] : List Nat).get? i).isSome = true :=
  meta_parse_string_int_array zero_heap 0 0 [1, 2, 3] (by decide) (by decide)


/-! ## Strings and identifiers: claims -/

theorem copy_string_reads_heap (heap : Nat → Nat) (s : List Nat) (hheap : heap 0 ≠ 0)
    (hlen : s.length < META_MAX_STRING_LEN) (hs : ∀ x ∈ s, x ≠ 0) :
    s.length < (_meta_copy_string heap s).length := by
  unfold _meta_copy_string
  have h1 : (List.range META_MAX_STRING_LEN).map heap
      = heap 0 :: (List.range' 1 (META_MAX_STRING_LEN - 1)).map heap := by
    rw [List.range_eq_range', show META_MAX_STRING_LEN = (META_MAX_STRING_LEN - 1) + 1 from rfl,
      List.range'_succ]
    simp
  obtain ⟨k, hk⟩ : ∃ k, META_MAX_STRING_LEN - s.length = k + 1 :=
    ⟨META_MAX_STRING_LEN - s.length - 1, by omega⟩
  rw [h1, List.take_append_eq_append_take, List.take_of_length_le (Nat.le_of_lt hlen), hk,
    List.take_succ_cons, List.takeWhile_append_of_pos (by simpa using hs),
    List.takeWhile_cons_of_pos (by simpa using hheap)]
  simp

/-- C21. For a byte sequence `s` without quote and NUL, the text `"s"` parses
to a String and leaves the cursor behind the closing quote, but the payload is
what the copy loop `for ( i = 0; i < 128 && str[i] != 0; ++i )` reads from the
allocation `str`, which holds the bytes of `s` and no NUL behind them: when `s`
has fewer than 128 bytes and the byte behind the allocation is not NUL, the
payload is longer than `s`. It is `s` when that byte is NUL. -/
theorem meta_parse_string_payload (heap : Nat → Nat) (s : List Nat)
    (hs : ∀ x ∈ s, x ≠ 0 ∧ x ≠ 34) (hlen : s.length < META_MAX_STRING_LEN) :
    meta_parse_string_cursor heap (34 :: s ++ [34])
        = .ok (.string (_meta_copy_string heap s), [0]) ∧
      (heap 0 ≠ 0 → _meta_copy_string heap s ≠ s) ∧
      (heap 0 = 0 → _meta_copy_string heap s = s) := by
  refine ⟨?_, fun hheap h => ?_, fun hheap => ?_⟩
  · have hrun := parse_string_run s [0] hs
    simp only [List.cons_append, List.append_assoc, List.singleton_append] at hrun
    simp only [meta_parse_string_cursor, List.cons_append, List.append_assoc,
      List.singleton_append, List.nil_append]
    rw [parse_value_string, hrun]
    rfl
  · have := copy_string_reads_heap heap s hheap hlen (fun x hx => (hs x hx).1)
    rw [h] at this
    omega
  · exact copy_string_run heap s hheap (Nat.le_of_lt hlen) (fun x hx => (hs x hx).1)

/-- Witness of C21: the text `"abc"` on a heap whose bytes are all `A`: the
payload is `abc` followed by 125 letters `A`. -/
theorem meta_parse_string_payload_witness :
    meta_parse_string_cursor (fun _ => 65) (bytes "\"abc\"")
        = .ok (.string (_meta_copy_string (fun _ => 65) (bytes "abc")), [0]) ∧
      ((fun _ : Nat => 65) 0 ≠ 0 → _meta_copy_string (fun _ => 65) (bytes "abc") ≠ bytes "abc") ∧
      ((fun _ : Nat => 65) 0 = 0 → _meta_copy_string (fun _ => 65) (bytes "abc") = bytes "abc") :=
  meta_parse_string_payload (fun _ => 65) (bytes "abc") (by decide) (by decide)

/-- C25. `_meta_load_ident` with `dest_len = 128` stores every byte of the
identifier, whatever its length, and a NUL behind them: the counter `i` of its
guard `i < dest_len - 1` is never incremented. For an identifier of 128 bytes
or more that is more than the 128 bytes of the row, and `_meta_parse_obj`
writes behind the row. -/
theorem meta_load_ident_unbounded (heap : Nat → Nat) (name : List Nat) (c : Nat)
    (rest : List Nat) (hsan : _meta_is_field_sanitized name = true)
    (hc : _meta_is_alphanumeric c = false) :
    _meta_load_ident (name ++ c :: rest) (128 : Int) = .ok (name, c :: rest) ∧
      (META_MAX_OBJ_FIELD_LEN ≤ name.length →
        META_MAX_OBJ_FIELD_LEN < name.length + 1 ∧
        meta_parse_string heap (40 :: name ++ c :: rest) = .error .undefined) := by
  have hrun := load_ident_run name c rest hsan hc
  refine ⟨hrun, fun hlen => ⟨by omega, ?_⟩⟩
  have hrun0 := load_ident_run name c (rest ++ [0]) hsan hc
  obtain ⟨x, nm, hname⟩ : ∃ x nm, name = x :: nm := by
    cases name with
    | nil => simp [_meta_is_field_sanitized] at hsan
    | cons x nm => exact ⟨x, nm, rfl⟩
  have hx : _meta_is_alphabetic x = true := by
    simp only [hname, _meta_is_field_sanitized, Bool.and_eq_true] at hsan
    exact hsan.1
  have hskip := skip_whitespace_token x (nm ++ c :: (rest ++ [0])) (token_of_alphabetic hx).1
  have hopen := skip_whitespace_token 40 (x :: (nm ++ c :: (rest ++ [0]))) (by decide)
  have hcap : ([] : List (List Nat × meta_value)).length ≥ META_MAX_OBJ_FIELDS ∨
      nm.length + 1 + 1 > META_MAX_OBJ_FIELD_LEN :=
    Or.inr (by simp only [hname, List.length_cons] at hlen; omega)
  rw [hname] at hrun0
  simp only [List.cons_append] at hrun0
  have h41 : x ≠ 41 := (token_of_alphabetic hx).2
  simp only [meta_parse_string, meta_parse_string_cursor, hname, List.cons_append,
    List.append_assoc, List.length_cons]
  rw [parse_value_obj]
  simp only [_meta_parse_obj, hopen, expect_char, if_true, result_ok_bind, List.length_cons,
    _meta_parse_obj_loop, h41, if_false, hskip, Nat.cast_ofNat, hrun0, if_pos hcap]
  rfl

/-- Witness of C25: the identifier of 128 letters `a` in the text
`(aa...a:1)`. -/
theorem meta_load_ident_unbounded_witness :
    _meta_load_ident (name_128 ++ 58 :: bytes "1)") (128 : Int)
        = .ok (name_128, 58 :: bytes "1)") ∧
      (META_MAX_OBJ_FIELD_LEN ≤ name_128.length →
        META_MAX_OBJ_FIELD_LEN < name_128.length + 1 ∧
        meta_parse_string zero_heap (40 :: name_128 ++ 58 :: bytes "1)") = .error .undefined) :=
  meta_load_ident_unbounded zero_heap name_128 58 (bytes "1)") (by decide) (by decide)


/-! ## Round trip and totality: claims -/

/-- C23. Two trees of the round-trip class that do not survive the round
trip. The object `( a:[ null ] )`: for every size `N` of the zeroed buffer,
with `dest_len = N`, `meta_compose` stores outside the buffer
(`_meta_compose_array` hands its whole `dest_len` to `_meta_compose_null`, and
`strncpy` fills that many bytes). The string `abc`: it is composed as `"abc"`,
and on a heap whose bytes are `A` the parser returns a string of 128 bytes,
because the allocation of `_meta_parse_string` has no NUL behind the copied
bytes. -/
theorem round_trip_class_fails (N : Nat) (hN : N < 2 ^ 64) :
    round_trip_class (.obj [(bytes "a", .array [.null])]) = true ∧
      meta_compose (.obj [(bytes "a", .array [.null])]) (List.replicate N 0) N
        = .error .undefined ∧
      round_trip_class (.string (bytes "abc")) = true ∧
      meta_compose (.string (bytes "abc")) (List.replicate 64 0) 64
        = .ok (bytes "\"abc\"" ++ List.replicate 59 0) ∧
      meta_parse_string (fun _ => 65) (c_string (bytes "\"abc\"" ++ List.replicate 59 0))
        = .ok (.string (bytes "abc" ++ List.replicate 125 65)) := by
  refine ⟨by decide, ?_, by decide, by decide, by decide⟩
  rcases Nat.lt_or_ge N 7 with h | h
  · interval_cases N <;> decide
  · have h1 := strncat_zeros [] [] [40, 32] N N (by simp) (by simp; omega) (by simp; omega)
    have h2 := mem_write_bytes_zeros [40, 32] [97] (N - 2) (by simp; omega)
    have h3 := mem_write_zeros [40, 32, 97] (N - 2 - 1) 58 (by omega)
    have h4 := size_sub_eq N 4 hN (by omega)
    have h5 := strncat_zeros [40, 32, 97, 58] [] [91, 32] (N - 2 - 1 - 1) (N - 4) (by simp)
      (by simp; omega) (by simp; omega)
    have hlen : ([40, 32, 97, 58] ++ [] ++ [91, 32]
        ++ List.replicate (N - 2 - 1 - 1 - [91, 32].length) 0).length = N := by
      simp; omega
    have h6 : strncpy ([40, 32, 97, 58] ++ [] ++ [91, 32]
        ++ List.replicate (N - 2 - 1 - 1 - [91, 32].length) 0) (4 + 2)
        [110, 117, 108, 108] (N - 4) = .error .undefined := by
      simp only [strncpy, hlen]
      have : 4 + 2 + (N - 4) > N := by omega
      simp [this]
    have hcstr : field_cstr 0 (bytes "a" :: List.map Prod.fst ([] : List (List Nat × meta_value)))
        = .ok [97] := by decide
    have hb : bytes "a" = [97] := by decide
    simp only [List.nil_append, List.length_nil, List.length_cons, List.append_nil,
      List.cons_append, List.singleton_append, Nat.zero_add] at h1 h2 h3 h5 h6
    simp only [meta_compose, _meta_compose, _meta_compose_obj, h1, result_ok_bind,
      _meta_compose_obj_loop, hcstr, List.length_cons, List.length_nil, Nat.zero_add,
      Nat.reduceAdd, h2, h3, Nat.sub_zero, h4, _meta_compose_array, h5, _meta_compose_array_loop,
      _meta_compose_null, h6, result_error_bind]

/-- Witness of C23: a buffer of 4096 bytes, the size that `main` uses. -/
theorem round_trip_class_fails_witness :
    round_trip_class (.obj [(bytes "a", .array [.null])]) = true ∧
      meta_compose (.obj [(bytes "a", .array [.null])]) (List.replicate 4096 0) 4096
        = .error .undefined ∧
      round_trip_class (.string (bytes "abc")) = true ∧
      meta_compose (.string (bytes "abc")) (List.replicate 64 0) 64
        = .ok (bytes "\"abc\"" ++ List.replicate 59 0) ∧
      meta_parse_string (fun _ => 65) (c_string (bytes "\"abc\"" ++ List.replicate 59 0))
        = .ok (.string (bytes "abc" ++ List.replicate 125 65)) :=
  round_trip_class_fails 4096 (by decide)


/-! ## The metadata of the packer: claim -/

theorem main_metadata_image_desc (img : image) (loc : vec2) (image_data : meta_value) :
    main_metadata_step image_data img loc
      = (meta_set_field image_data img.name
          (.obj [(bytes "x", .integer loc.x), (bytes "y", .integer loc.y),
            (bytes "width", .integer img.size.width),
            (bytes "height", .integer img.size.height)]) >>= fun r => Except.ok r.2) := rfl

/-- C28. The metadata loop of `main` passes the name of the image, the path
given on the command line, to `meta_set_field` as the field name. When that
name is not sanitized (a path with `.` or `/` is not), the assertion of
`meta_set_field` fails on the first image and the process exits: no object
reaches `meta_compose`. -/
theorem main_metadata_unsanitized_name (img : image) (images : List image) (loc : vec2)
    (locations : List vec2) (h : _meta_is_field_sanitized img.name = false) :
    main_metadata (img :: images) (loc :: locations) = .error .not_sanitized := by
  simp only [main_metadata, main_metadata_loop, main_metadata_image_desc, meta_set_field, h]
  rfl

/-- Witness of C28: the image `a.png`. -/
theorem main_metadata_unsanitized_name_witness :
    main_metadata [{ size := ⟨4, 4⟩, name := bytes "a.png" }] [⟨0, 0⟩]
      = .error .not_sanitized :=
  main_metadata_unsanitized_name { size := ⟨4, 4⟩, name := bytes "a.png" } [] ⟨0, 0⟩ []
    (by decide)

/-- C24. On the text `(a:"b` the string case returns with the cursor one
byte past the terminating NUL, and `_meta_skip_whitespace` in `_meta_parse_obj`
then reads the byte there: the parser reads beyond the terminating NUL, and
what it returns depends on what lies behind the input. -/
theorem meta_parse_string_not_total (heap : Nat → Nat) :
    _meta_parse_value heap 0 (bytes "\"b" ++ [0])
        = .ok (.string (_meta_copy_string heap (bytes "b")), []) ∧
      _meta_skip_whitespace [] = .error .undefined ∧
      meta_parse_string_cursor heap (bytes "(a:\"b") = .error .undefined :=
  ⟨rfl, rfl, rfl⟩


/-! ## Release: claim -/

theorem released_before_map (i : Nat) {calls : List (List Nat)} {q p : List Nat}
    (h : released_before calls q p) (L R : List (List Nat)) :
    released_before (L ++ (calls.map (fun r => i :: r) ++ R)) (i :: q) (i :: p) := by
  obtain ⟨A, B, C, rfl⟩ := h
  refine ⟨L ++ A.map (fun r => i :: r), B.map (fun r => i :: r),
    C.map (fun r => i :: r) ++ R, ?_⟩
  simp

theorem release_exact_cons (i : Nat) (v : meta_value) (rest : List meta_value)
    (callsV callsR : List (List Nat))
    (hv : release_exact callsV (fun p => p ≠ [] ∧ is_node v p))
    (hr : release_exact callsR (slot_member (i + 1) rest)) :
    release_exact (callsV.map (fun p => i :: p) ++ [i] :: callsR)
      (slot_member i (v :: rest)) := by
  obtain ⟨hv1, hv2, hv3⟩ := hv
  obtain ⟨hr1, hr2, hr3⟩ := hr
  have hmemL : ∀ p, p ∈ callsV.map (fun p => i :: p) ↔ ∃ r, r ∈ callsV ∧ p = i :: r := by
    intro p
    simp only [List.mem_map]
    constructor
    · rintro ⟨r, hr, rfl⟩; exact ⟨r, hr, rfl⟩
    · rintro ⟨r, hr, rfl⟩; exact ⟨r, hr, rfl⟩
  have hheadR : ∀ p, p ∈ callsR → ∃ j r, p = j :: r ∧ i + 1 ≤ j := by
    intro p hp
    obtain ⟨k, r, child, _, hpk, _⟩ := (hr2 p).mp hp
    exact ⟨i + 1 + k, r, hpk, by omega⟩
  have hnotR : ∀ r, (i :: r) ∉ callsR := by
    intro r hmem
    obtain ⟨j, r', hj, hle⟩ := hheadR _ hmem
    simp only [List.cons.injEq] at hj
    omega
  have hneV : ∀ r, r ∈ callsV → r ≠ [] := fun r hr => ((hv2 r).mp hr).1
  refine ⟨?_, ?_, ?_⟩
  · rw [List.nodup_append]
    refine ⟨hv1.map (fun a b h => by simpa using h), ?_, ?_⟩
    · rw [List.nodup_cons]
      exact ⟨hnotR [], hr1⟩
    · intro p hp1 hp2
      obtain ⟨r, hr, rfl⟩ := (hmemL p).mp hp1
      rcases List.mem_cons.mp hp2 with h | h
      · simp only [List.cons.injEq, true_and] at h
        exact hneV r hr h
      · exact hnotR r h
  · intro p
    simp only [List.mem_append, List.mem_cons, hmemL]
    constructor
    · rintro (⟨r, hr, rfl⟩ | rfl | h)
      · exact ⟨0, r, v, rfl, rfl, ((hv2 r).mp hr).2⟩
      · exact ⟨0, [], v, rfl, rfl, trivial⟩
      · obtain ⟨k, r, child, hk, hpk, hn⟩ := (hr2 p).mp h
        exact ⟨k + 1, r, child, by simpa using hk, by rw [hpk]; congr 1; omega, hn⟩
    · rintro ⟨k, r, child, hk, rfl, hn⟩
      cases k with
      | zero =>
        simp only [List.get?_cons_zero, Option.some.injEq] at hk
        subst hk
        by_cases hr : r = []
        · subst hr; exact Or.inr (Or.inl rfl)
        · exact Or.inl ⟨r, (hv2 r).mpr ⟨hr, hn⟩, rfl⟩
      | succ k =>
        simp only [List.get?_cons_succ] at hk
        refine Or.inr (Or.inr ((hr2 _).mpr ⟨k, r, child, hk, ?_, hn⟩))
        congr 1; omega
  · intro p q hp hq hpq hne
    simp only [List.mem_append, List.mem_cons, hmemL] at hp hq
    rcases hp with ⟨p', hp', rfl⟩ | rfl | hp
    · obtain ⟨t, rfl⟩ := hpq
      simp only [List.cons_append] at hq hne ⊢
      rcases hq with ⟨q', hq', hqe⟩ | hq | hq
      · simp only [List.cons.injEq, true_and] at hqe
        have h3 := hv3 p' q' hp' hq' ⟨t, hqe⟩ (by intro h; apply hne; rw [hqe, h])
        have := released_before_map i h3 [] ([i] :: callsR)
        simpa [hqe] using this
      · simp only [List.cons.injEq, true_and, List.append_eq_nil] at hq
        exact absurd hq.1 (hneV p' hp')
      · exact absurd hq (hnotR _)
    · obtain ⟨t, rfl⟩ := hpq
      simp only [List.singleton_append] at hq hne ⊢
      rcases hq with ⟨q', hq', hqe⟩ | hq | hq
      · simp only [List.cons.injEq, true_and] at hqe
        subst hqe
        obtain ⟨A, B, hAB⟩ := List.append_of_mem hq'
        refine ⟨A.map (fun r => i :: r), B.map (fun r => i :: r), callsR, ?_⟩
        simp [hAB]
      · exact absurd hq hne.symm
      · exact absurd hq (hnotR _)
    · obtain ⟨j, r, hj, hle⟩ := hheadR p hp
      subst hj
      obtain ⟨t, rfl⟩ := hpq
      simp only [List.cons_append] at hq hne ⊢
      rcases hq with ⟨q', _, hqe⟩ | hq | hq
      · simp only [List.cons.injEq] at hqe; omega
      · simp only [List.cons.injEq] at hq; omega
      · obtain ⟨A, B, C, hABC⟩ := hr3 (j :: r) (j :: (r ++ t)) hp hq ⟨t, rfl⟩ hne
        exact ⟨callsV.map (fun p => i :: p) ++ [i] :: A, B, C, by simp [hABC]⟩

theorem release_exact_nil (i : Nat) : release_exact [] (slot_member i []) := by
  refine ⟨List.nodup_nil, fun p => ?_, fun p q hp => absurd hp (List.not_mem_nil p)⟩
  simp [slot_member]

theorem slot_member_zero (v : meta_value) (p : List Nat) :
    slot_member 0 (children v) p ↔ p ≠ [] ∧ is_node v p := by
  constructor
  · rintro ⟨k, r, child, hk, rfl, hn⟩
    exact ⟨by simp, child, by simpa using hk, hn⟩
  · rintro ⟨hne, hn⟩
    cases p with
    | nil => exact absurd rfl hne
    | cons j r =>
      obtain ⟨child, hk, hn⟩ := hn
      exact ⟨j, r, child, hk, by simp, hn⟩

theorem release_exact_congr {calls : List (List Nat)} {m1 m2 : List Nat → Prop}
    (h : ∀ p, m1 p ↔ m2 p) (h1 : release_exact calls m1) : release_exact calls m2 :=
  ⟨h1.1, fun p => (h1.2.1 p).trans (h p), h1.2.2⟩

mutual
theorem meta_free_release_exact : ∀ (v : meta_value),
    release_exact (meta_free v) (fun p => p ≠ [] ∧ is_node v p)
  | .integer n => release_exact_congr (slot_member_zero (.integer n)) (release_exact_nil 0)
  | .string s => release_exact_congr (slot_member_zero (.string s)) (release_exact_nil 0)
  | .null => release_exact_congr (slot_member_zero .null) (release_exact_nil 0)
  | .array items =>
    release_exact_congr (slot_member_zero (.array items)) (meta_free_items_release_exact items 0)
  | .obj fields =>
    release_exact_congr (slot_member_zero (.obj fields))
      (meta_free_fields_release_exact fields 0)
theorem meta_free_items_release_exact : ∀ (items : List meta_value) (i : Nat),
    release_exact (meta_free_items i items) (slot_member i items)
  | [], i => release_exact_nil i
  | v :: rest, i =>
    release_exact_cons i v rest _ _ (meta_free_release_exact v)
      (meta_free_items_release_exact rest (i + 1))
theorem meta_free_fields_release_exact : ∀ (fields : List (List Nat × meta_value)) (i : Nat),
    release_exact (meta_free_fields i fields) (slot_member i (fields.map Prod.snd))
  | [], i => release_exact_nil i
  | (_, v) :: rest, i =>
    release_exact_cons i v (rest.map Prod.snd) _ _ (meta_free_release_exact v)
      (meta_free_fields_release_exact rest (i + 1))
end

/-- C26. For every value, `meta_free` (a total function) calls `META_FREE`
exactly on the descendants of the value: a path is released if and only if it
is not empty and leads to a node, no path is released twice, and a node is
released only after every node below it. For an Int, a String or Null it
releases nothing. -/
theorem meta_free_exact (v : meta_value) :
    (meta_free v).Nodup ∧
      (∀ p, p ∈ meta_free v ↔ p ≠ [] ∧ is_node v p) ∧
      (∀ p q, p ∈ meta_free v → q ∈ meta_free v → p <+: q → p ≠ q →
        released_before (meta_free v) q p) ∧
      (∀ n, meta_free (.integer n) = []) ∧ (∀ s, meta_free (.string s) = []) ∧
      meta_free .null = [] :=
  ⟨(meta_free_release_exact v).1, (meta_free_release_exact v).2.1,
    (meta_free_release_exact v).2.2, fun _ => rfl, fun _ => rfl, rfl⟩


/-! ## Shelf packing: claim C27 -/

theorem int_add_ok (a b : Int) (h1 : -2147483648 ≤ a + b) (h2 : a + b ≤ 2147483647) :
    int_add a b = .ok (a + b) := by
  simp only [int_add, INT_MIN, INT_MAX]
  rw [if_pos]
  exact ⟨h1, by simpa using h2⟩

theorem total_width_append (xs ys : List image) :
    total_width (xs ++ ys) = total_width xs + total_width ys := by
  simp [total_width]

theorem total_height_append (xs ys : List image) :
    total_height (xs ++ ys) = total_height xs + total_height ys := by
  simp [total_height]

theorem total_width_nonneg (xs : List image) (h : ∀ img ∈ xs, 0 ≤ img.size.width ∧ 0 ≤ img.size.height) :
    0 ≤ total_width xs := by
  induction xs with
  | nil => simp [total_width]
  | cons x xs ih =>
    have h1 := (h x (List.mem_cons_self _ _)).1
    have h2 := ih (fun img hm => h img (List.mem_cons_of_mem _ hm))
    simp only [total_width, List.map_cons, List.sum_cons] at h2 ⊢
    omega

theorem total_height_nonneg (xs : List image) (h : ∀ img ∈ xs, 0 ≤ img.size.width ∧ 0 ≤ img.size.height) :
    0 ≤ total_height xs := by
  induction xs with
  | nil => simp [total_height]
  | cons x xs ih =>
    have h1 := (h x (List.mem_cons_self _ _)).2
    have h2 := ih (fun img hm => h img (List.mem_cons_of_mem _ hm))
    simp only [total_height, List.map_cons, List.sum_cons] at h2 ⊢
    omega

theorem getD_length_append {α : Type} (xs : List α) (y : α) (ys : List α) (d : α) :
    (xs ++ y :: ys).getD xs.length d = y := by
  induction xs with
  | nil => rfl
  | cons x xs ih => simpa using ih

theorem pack_next (images : List image) (st : pack_state) (img : image) (max_width : Int)
    (ploc : vec2) (pimg cur : image) (n : Nat)
    (hn : st.image_locations.length = n + 1) (hcap : n + 1 < 128)
    (hprev : st.image_locations.getD n ⟨0, 0⟩ = ploc)
    (hpimg : images.getD n image_zero = pimg)
    (hcur : images.getD (n + 1) image_zero = cur)
    (h1 : 0 ≤ ploc.x) (h2 : 0 ≤ ploc.y) (h3 : 0 ≤ pimg.size.width)
    (h4 : 0 ≤ cur.size.width) (h5 : 0 ≤ cur.size.height)
    (h6 : ploc.x + pimg.size.width + cur.size.width ≤ 2147483647)
    (h7 : ploc.y ≤ st.outmost.bottomright.y)
    (h8 : st.outmost.bottomright.y + cur.size.height ≤ 2147483647) :
    pack images st img max_width =
      .ok (if ploc.x + pimg.size.width + cur.size.width > max_width then
          { image_locations := st.image_locations ++ [⟨0, st.outmost.bottomright.y⟩],
            outmost := new_outmost st.outmost ⟨0, st.outmost.bottomright.y⟩
              ⟨0 + cur.size.width, st.outmost.bottomright.y + cur.size.height⟩ }
        else
          { image_locations := st.image_locations ++ [⟨ploc.x + pimg.size.width, ploc.y⟩],
            outmost := new_outmost st.outmost ⟨ploc.x + pimg.size.width, ploc.y⟩
              ⟨ploc.x + pimg.size.width + cur.size.width, ploc.y + cur.size.height⟩ }) := by
  have e1 : int_add ploc.x pimg.size.width = .ok (ploc.x + pimg.size.width) :=
    int_add_ok _ _ (by omega) (by omega)
  have e2 : int_add (ploc.x + pimg.size.width) cur.size.width
      = .ok (ploc.x + pimg.size.width + cur.size.width) := int_add_ok _ _ (by omega) (by omega)
  have e3 : int_add ploc.y cur.size.height = .ok (ploc.y + cur.size.height) :=
    int_add_ok _ _ (by omega) (by omega)
  have e4 : int_add 0 cur.size.width = .ok (0 + cur.size.width) :=
    int_add_ok _ _ (by omega) (by omega)
  have e5 : int_add st.outmost.bottomright.y cur.size.height
      = .ok (st.outmost.bottomright.y + cur.size.height) := int_add_ok _ _ (by omega) (by omega)
  have hge : ¬ (n + 1 ≥ MAX_IMAGES) := by simp only [MAX_IMAGES]; omega
  simp only [pack, hn, hge, if_false, Nat.add_sub_cancel, Nat.succ_ne_zero, hprev, hpimg, hcur,
    bind, Except.bind, e1, e2, e3, e4, e5]
  split_ifs <;> rfl

theorem pack_step (done rest : List image) (img : image) (st : pack_state) (max_width : Int)
    (hinv : pack_inv done st) (hlen : done.length < 128)
    (hw0 : 0 ≤ img.size.width) (hh0 : 0 ≤ img.size.height)
    (hW : total_width done + img.size.width ≤ 2147483647)
    (hH : total_height done + img.size.height ≤ 2147483647) :
    ∃ st', pack (done ++ img :: rest) st img max_width = .ok st' ∧
      pack_inv (done ++ [img]) st' := by
  rcases hinv with ⟨rfl, rfl⟩ | ⟨locs, ploc, done', pimg, hl, hd, hlen', hhead, hfx, hobr, hall, hpw⟩
  · refine ⟨_, rfl, Or.inr ⟨[], ⟨0, 0⟩, [], img, rfl, rfl, rfl, rfl, ?_, ?_, ?_, ?_⟩⟩
    · simp [total_width]
    · simp [total_height]
    · intro p hp
      simp only [pack_initial, List.nil_append, List.zip_cons_cons, List.zip_nil_right,
        List.mem_singleton] at hp
      subst hp
      simp only [le_refl, zero_add, true_and]
      exact ⟨hw0, hh0, Or.inl trivial⟩
    · simp [pack_initial]
  · have hzip : st.image_locations.zip done = locs.zip done' ++ [(ploc, pimg)] := by
      rw [hl, hd, List.zip_append hlen']; rfl
    have hlast := hall (ploc, pimg) (by rw [hzip]; simp)
    simp only at hlast
    obtain ⟨q1, q2, q3, q4, q5, -⟩ := hlast
    have hdl : done.length = done'.length + 1 := by rw [hd]; simp
    have hsl : st.image_locations.length = done'.length + 1 := by rw [hl]; simp [hlen']
    have hsl' : st.image_locations.length = done.length := by omega
    have hprev : st.image_locations.getD done'.length ⟨0, 0⟩ = ploc := by
      rw [hl, ← hlen']; exact getD_length_append locs ploc [] _
    have hpimg : (done ++ img :: rest).getD done'.length image_zero = pimg := by
      rw [hd, List.append_assoc]; exact getD_length_append done' pimg _ _
    have hcur : (done ++ img :: rest).getD (done'.length + 1) image_zero = img := by
      rw [← hdl]; exact getD_length_append done img rest _
    have hpk := pack_next (done ++ img :: rest) st img max_width ploc pimg img done'.length
      hsl (by omega) hprev hpimg hcur q1 q2 q3 hw0 hh0 (by omega) (by omega) (by omega)
    have hzip' : ∀ (new : vec2), (st.image_locations ++ [new]).zip (done ++ [img])
        = st.image_locations.zip done ++ [(new, img)] := by
      intro new
      rw [List.zip_append hsl']; rfl
    have hhead' : ∀ (new : vec2), (st.image_locations ++ [new]).head? = some ⟨0, 0⟩ := by
      intro new
      rw [hl] at hhead ⊢
      cases locs <;> simpa using hhead
    refine ⟨_, hpk, Or.inr ?_⟩
    by_cases hc : ploc.x + pimg.size.width + img.size.width > max_width
    · rw [if_pos hc]
      refine ⟨st.image_locations, ⟨0, st.outmost.bottomright.y⟩, done, img, rfl, rfl, hsl',
        hhead' _, ?_, ?_, ?_, ?_⟩
      · rw [total_width_append]; simp only [total_width, List.map_cons, List.map_nil,
          List.sum_cons, List.sum_nil] at hfx ⊢
        simp only [total_width] at hW
        omega
      · rw [total_height_append]
        simp only [new_outmost, total_height, List.map_cons, List.map_nil,
          List.sum_cons, List.sum_nil] at hobr hH ⊢
        omega
      · intro p hp
        rw [hzip', List.mem_append, List.mem_singleton] at hp
        simp only [new_outmost]
        rcases hp with hp | rfl
        · obtain ⟨a1, a2, a3, a4, a5, -⟩ := hall p hp
          exact ⟨a1, a2, a3, a4, by omega, Or.inr a5⟩
        · simp only
          exact ⟨le_refl _, by omega, hw0, hh0, by omega, Or.inl ⟨trivial, le_refl _⟩⟩
      · rw [hzip', List.pairwise_append]
        refine ⟨hpw, List.pairwise_singleton _ _, ?_⟩
        intro p hp q hq
        rw [List.mem_singleton] at hq
        subst hq
        obtain ⟨a1, a2, a3, a4, a5, -⟩ := hall p hp
        intro a b ⟨⟨_, _, _, c4⟩, ⟨_, _, d3, _⟩⟩
        simp only at d3
        omega
    · rw [if_neg hc]
      refine ⟨st.image_locations, ⟨ploc.x + pimg.size.width, ploc.y⟩, done, img, rfl, rfl, hsl',
        hhead' _, ?_, ?_, ?_, ?_⟩
      · rw [total_width_append]; simp only [total_width, List.map_cons, List.map_nil,
          List.sum_cons, List.sum_nil] at hfx ⊢
        omega
      · rw [total_height_append]
        simp only [new_outmost, total_height, List.map_cons, List.map_nil,
          List.sum_cons, List.sum_nil] at hobr hH ⊢
        omega
      · intro p hp
        rw [hzip', List.mem_append, List.mem_singleton] at hp
        simp only [new_outmost]
        rcases hp with hp | rfl
        · obtain ⟨a1, a2, a3, a4, a5, a6⟩ := hall p hp
          refine ⟨a1, a2, a3, a4, by omega, ?_⟩
          rcases a6 with ⟨a6, a7⟩ | a6
          · exact Or.inl ⟨a6, by omega⟩
          · exact Or.inr a6
        · simp only
          exact ⟨by omega, q2, hw0, hh0, by omega, Or.inl ⟨trivial, le_refl _⟩⟩
      · rw [hzip', List.pairwise_append]
        refine ⟨hpw, List.pairwise_singleton _ _, ?_⟩
        intro p hp q hq
        rw [List.mem_singleton] at hq
        subst hq
        obtain ⟨a1, a2, a3, a4, a5, a6⟩ := hall p hp
        intro a b ⟨⟨_, c2, _, c4⟩, ⟨d1, _, d3, _⟩⟩
        simp only at d1 d3
        rcases a6 with ⟨a6, a7⟩ | a6 <;> omega

theorem pack_loop_inv (max_width : Int) : ∀ (rest done : List image) (st : pack_state),
    pack_inv done st → (done ++ rest).length ≤ 128 →
    (∀ img ∈ rest, 0 ≤ img.size.width ∧ 0 ≤ img.size.height) →
    total_width done + total_width rest ≤ 2147483647 →
    total_height done + total_height rest ≤ 2147483647 →
    ∃ st', pack_loop (done ++ rest) max_width rest st = .ok st' ∧ pack_inv (done ++ rest) st'
  | [], done, st, hinv, _, _, _, _ => ⟨st, rfl, by simpa using hinv⟩
  | img :: rest, done, st, hinv, hlen, hsize, hW, hH => by
    have h0 := hsize img (List.mem_cons_self _ _)
    have hrest : ∀ i ∈ rest, 0 ≤ i.size.width ∧ 0 ≤ i.size.height :=
      fun i hi => hsize i (List.mem_cons_of_mem _ hi)
    have hwr := total_width_nonneg rest hrest
    have hhr := total_height_nonneg rest hrest
    have hW' : total_width done + (img.size.width + total_width rest) ≤ 2147483647 := by
      simpa [total_width] using hW
    have hH' : total_height done + (img.size.height + total_height rest) ≤ 2147483647 := by
      simpa [total_height] using hH
    simp only [List.length_append, List.length_cons] at hlen
    obtain ⟨st1, hp, hinv1⟩ := pack_step done rest img st max_width hinv (by omega) h0.1 h0.2
      (by omega) (by omega)
    have happ : done ++ img :: rest = (done ++ [img]) ++ rest := by simp
    obtain ⟨st2, hl2, hinv2⟩ := pack_loop_inv max_width rest (done ++ [img]) st1 hinv1
      (by simp only [List.length_append, List.length_cons, List.length_nil]; omega) hrest
      (by rw [total_width_append]; simp only [total_width, List.map_cons, List.map_nil,
            List.sum_cons, List.sum_nil] at hW' ⊢; omega)
      (by rw [total_height_append]; simp only [total_height, List.map_cons, List.map_nil,
            List.sum_cons, List.sum_nil] at hH' ⊢; omega)
    refine ⟨st2, ?_, by rw [happ]; exact hinv2⟩
    simp only [pack_loop, hp]
    rw [happ]; exact hl2

theorem pack_inv_length (done : List image) (st : pack_state) (h : pack_inv done st) :
    st.image_locations.length = done.length := by
  rcases h with ⟨rfl, rfl⟩ | ⟨locs, ploc, done', pimg, hl, hd, hlen', -⟩
  · rfl
  · rw [hl, hd]; simp [hlen']

theorem pack_inv_disjoint (done : List image) (st : pack_state) (h : pack_inv done st)
    (i j : Nat) (hij : i < j) (hj : j < done.length) (a b : Int) :
    ¬ (in_rect (st.image_locations.getD i ⟨0, 0⟩) (done.getD i image_zero).size a b ∧
      in_rect (st.image_locations.getD j ⟨0, 0⟩) (done.getD j image_zero).size a b) := by
  have hlen := pack_inv_length done st h
  rcases h with ⟨rfl, rfl⟩ | ⟨locs, ploc, done', pimg, -, -, -, -, -, -, -, hpw⟩
  · simp at hj
  · rw [List.pairwise_iff_getElem] at hpw
    have hzl : (st.image_locations.zip done).length = done.length := by
      simp [List.length_zip, hlen]
    have := hpw i j (by omega) (by omega) hij a b
    simp only [List.getElem_zip] at this
    rw [List.getD_eq_getElem _ _ (by omega : i < st.image_locations.length),
      List.getD_eq_getElem _ _ (by omega : j < st.image_locations.length),
      List.getD_eq_getElem _ _ (by omega : i < done.length),
      List.getD_eq_getElem _ _ hj]
    exact this

/-- C27, as claimed, fails: three images of width `2^30` and height `1` have
non-negative sizes, and the second call of `pack` adds `2^30 + 2^30` in `int`,
which is undefined. -/
theorem pack_all_int_overflow :
    pack_all [⟨⟨1073741824, 1⟩, bytes "a"⟩, ⟨⟨1073741824, 1⟩, bytes "b"⟩,
        ⟨⟨1073741824, 1⟩, bytes "c"⟩] 2147483647 = .error .undefined := by
  decide

/-- C27, amended. For at most 128 images with non-negative widths and heights
whose widths and whose heights each sum to at most `INT_MAX`, and every
`max_width`, the calls of `pack` in list order from the initial globals all
return, no addition leaves the range of `int`, every image has a location,
the rectangles `[x, x+width) x [y, y+height)` of two different images share
no point, every location has `x ≥ 0` and `y ≥ 0`, and the first image is at
`(0, 0)`. -/
theorem pack_all_disjoint (images : List image) (max_width : Int)
    (hlen : images.length ≤ MAX_IMAGES)
    (hsize : ∀ img ∈ images, 0 ≤ img.size.width ∧ 0 ≤ img.size.height)
    (hW : total_width images ≤ (INT_MAX : Int))
    (hH : total_height images ≤ (INT_MAX : Int)) :
    ∃ st, pack_all images max_width = .ok st ∧
      st.image_locations.length = images.length ∧
      (∀ i j, i ≠ j → i < images.length → j < images.length → ∀ a b,
        ¬ (in_rect (st.image_locations.getD i ⟨0, 0⟩) (images.getD i image_zero).size a b ∧
          in_rect (st.image_locations.getD j ⟨0, 0⟩) (images.getD j image_zero).size a b)) ∧
      (∀ loc ∈ st.image_locations, 0 ≤ loc.x ∧ 0 ≤ loc.y) ∧
      (images ≠ [] → st.image_locations.head? = some ⟨0, 0⟩) := by
  obtain ⟨st, hst, hinv⟩ := pack_loop_inv max_width images [] pack_initial (Or.inl ⟨rfl, rfl⟩)
    (by simpa using hlen) hsize (by simpa [total_width] using hW)
    (by simpa [total_height] using hH)
  simp only [List.nil_append] at hst hinv
  have hlen2 := pack_inv_length images st hinv
  refine ⟨st, hst, hlen2, ?_, ?_, ?_⟩
  · intro i j hij hi hj a b
    rcases Nat.lt_or_gt_of_ne hij with h | h
    · exact pack_inv_disjoint images st hinv i j h hj a b
    · intro hboth
      exact pack_inv_disjoint images st hinv j i h hi a b ⟨hboth.2, hboth.1⟩
  · intro loc hloc
    rcases hinv with ⟨rfl, rfl⟩ | ⟨locs, ploc, done', pimg, -, -, -, -, -, -, hall, -⟩
    · simp [pack_initial] at hloc
    · obtain ⟨k, hk, rfl⟩ := List.getElem_of_mem hloc
      have hmem : (st.image_locations[k], images[k]) ∈ st.image_locations.zip images := by
        rw [List.mem_iff_getElem]
        exact ⟨k, by simp [List.length_zip, hlen2]; omega, by simp⟩
      have := hall _ hmem
      exact ⟨this.1, this.2.1⟩
  · intro hne
    rcases hinv with ⟨rfl, rfl⟩ | ⟨locs, ploc, done', pimg, -, -, -, hhead, -⟩
    · exact absurd rfl hne
    · exact hhead

theorem pack_all_disjoint_witness :
    ∃ st, pack_all [⟨⟨3, 2⟩, bytes "a"⟩, ⟨⟨2, 5⟩, bytes "b"⟩, ⟨⟨4, 1⟩, bytes "c"⟩] 5 = .ok st ∧
      st.image_locations.length
        = [(⟨⟨3, 2⟩, bytes "a"⟩ : image), ⟨⟨2, 5⟩, bytes "b"⟩, ⟨⟨4, 1⟩, bytes "c"⟩].length ∧
      (∀ i j, i ≠ j →
        i < [(⟨⟨3, 2⟩, bytes "a"⟩ : image), ⟨⟨2, 5⟩, bytes "b"⟩, ⟨⟨4, 1⟩, bytes "c"⟩].length →
        j < [(⟨⟨3, 2⟩, bytes "a"⟩ : image), ⟨⟨2, 5⟩, bytes "b"⟩, ⟨⟨4, 1⟩, bytes "c"⟩].length →
        ∀ a b,
        ¬ (in_rect (st.image_locations.getD i ⟨0, 0⟩)
            ([(⟨⟨3, 2⟩, bytes "a"⟩ : image), ⟨⟨2, 5⟩, bytes "b"⟩,
              ⟨⟨4, 1⟩, bytes "c"⟩].getD i image_zero).size a b ∧
          in_rect (st.image_locations.getD j ⟨0, 0⟩)
            ([(⟨⟨3, 2⟩, bytes "a"⟩ : image), ⟨⟨2, 5⟩, bytes "b"⟩,
              ⟨⟨4, 1⟩, bytes "c"⟩].getD j image_zero).size a b)) ∧
      (∀ loc ∈ st.image_locations, 0 ≤ loc.x ∧ 0 ≤ loc.y) ∧
      ([(⟨⟨3, 2⟩, bytes "a"⟩ : image), ⟨⟨2, 5⟩, bytes "b"⟩, ⟨⟨4, 1⟩, bytes "c"⟩] ≠ [] →
        st.image_locations.head? = some ⟨0, 0⟩) :=
  pack_all_disjoint [⟨⟨3, 2⟩, bytes "a"⟩, ⟨⟨2, 5⟩, bytes "b"⟩, ⟨⟨4, 1⟩, bytes "c"⟩] 5
    (by decide) (by decide) (by decide) (by decide)


/-! ## Comments: claim C22 -/

theorem skip_comment_loop_spec : ∀ (s : List Nat),
    (match _meta_skip_comment_loop s with
      | .ok s1 => skip_whitespace_spec false s1 = skip_whitespace_spec true s ∧
          s1.length ≤ s.length ∧ (∃ c r, s1 = c :: r ∧ (c = 10 ∨ c = 0))
      | .error e => e = .undefined ∧ skip_whitespace_spec true s = none)
  | [] => by simp [_meta_skip_comment_loop, skip_whitespace_spec]
  | c :: rest => by
    have ih := skip_comment_loop_spec rest
    by_cases h10 : c = 10
    · subst h10
      simp [_meta_skip_comment_loop, skip_whitespace_spec, is_space]
    · by_cases h0 : c = 0
      · subst h0
        simp [_meta_skip_comment_loop, skip_whitespace_spec, is_space]
      · simp only [_meta_skip_comment_loop, h10, h0, or_self, if_false]
        cases hl : _meta_skip_comment_loop rest with
        | ok s1 =>
          rw [hl] at ih
          simp only at ih ⊢
          refine ⟨?_, by simp only [List.length_cons]; omega, ih.2.2⟩
          rw [ih.1]
          simp [skip_whitespace_spec, h10, h0]
        | error e =>
          rw [hl] at ih
          simp only at ih ⊢
          refine ⟨ih.1, ?_⟩
          simp [skip_whitespace_spec, h10, h0, ih.2]

theorem skip_whitespace_loop_spec : ∀ (fuel : Nat) (s : List Nat), s.length < fuel →
    _meta_skip_whitespace_loop fuel s
      = (match skip_whitespace_spec false s with
        | some r => .ok r
        | none => .error .undefined)
  | 0, _, h => absurd h (Nat.not_lt_zero _)
  | fuel + 1, [], _ => by simp [_meta_skip_whitespace_loop, skip_whitespace_spec]
  | fuel + 1, c :: rest, h => by
    simp only [List.length_cons] at h
    by_cases hs : c = 32 ∨ c = 9 ∨ c = 10 ∨ c = 13
    · have hs' : is_space c = true := by
        simp only [is_space, Bool.or_eq_true, decide_eq_true_eq]; omega
      simp only [_meta_skip_whitespace_loop, hs, if_true, skip_whitespace_spec, hs']
      exact skip_whitespace_loop_spec fuel rest (by omega)
    · have hs' : ¬ (is_space c = true) := by
        simp only [is_space, Bool.or_eq_true, decide_eq_true_eq]; omega
      by_cases h35 : c = 35
      · subst h35
        have hc := skip_comment_loop_spec rest
        simp only [_meta_skip_whitespace_loop, hs, if_false, if_true, skip_whitespace_spec, hs',
          _meta_skip_comment, _meta_skip_comment_loop]
        simp only [show ¬ ((35 : Nat) = 10 ∨ (35 : Nat) = 0) by omega, if_false]
        cases hl : _meta_skip_comment_loop rest with
        | ok s1 =>
          rw [hl] at hc
          simp only at hc ⊢
          rw [← hc.1]
          exact skip_whitespace_loop_spec fuel s1 (by omega)
        | error e =>
          rw [hl] at hc
          simp only at hc ⊢
          rw [hc.1, hc.2]
          simp
      · simp [_meta_skip_whitespace_loop, hs, h35, skip_whitespace_spec, hs']

theorem skip_whitespace_eq_spec (s : List Nat) :
    _meta_skip_whitespace s
      = (match skip_whitespace_spec false s with
        | some r => .ok r
        | none => .error .undefined) :=
  skip_whitespace_loop_spec (s.length + 1) s (Nat.lt_succ_self _)

theorem is_token_byte_iff (c : Nat) :
    is_token_byte c = true ↔ (is_space c = false ∧ c ≠ 35) := by
  simp only [is_token_byte, is_space, Bool.and_eq_true, decide_eq_true_eq, Bool.or_eq_false_iff,
    decide_eq_false_iff_not]

theorem spec_of_gap (c : Nat) (rest : List Nat) (hc : is_token_byte c = true) :
    ∀ (m : Bool) (g : List Nat), gap_scan m g = true →
      skip_whitespace_spec m (g ++ c :: rest) = some (c :: rest)
  | false, [], _ => by
    have := (is_token_byte_iff c).mp hc
    simp [skip_whitespace_spec, this.1, this.2]
  | true, [], h => by simp [gap_scan] at h
  | false, x :: g, h => by
    simp only [gap_scan] at h
    simp only [List.cons_append, skip_whitespace_spec]
    by_cases hx : is_space x = true
    · simp only [hx, if_true] at h ⊢
      exact spec_of_gap c rest hc false g h
    · simp only [hx, if_false] at h ⊢
      by_cases h35 : x = 35
      · simp only [h35, if_true] at h ⊢
        exact spec_of_gap c rest hc true g h
      · simp [h35] at h
  | true, x :: g, h => by
    simp only [gap_scan] at h
    simp only [List.cons_append, skip_whitespace_spec]
    by_cases h10 : x = 10
    · simp only [h10, if_true] at h ⊢
      exact spec_of_gap c rest hc false g h
    · simp only [h10, if_false] at h ⊢
      by_cases h0 : x = 0
      · simp [h0] at h
      · simp only [h0, if_false] at h ⊢
        exact spec_of_gap c rest hc true g h

theorem skip_whitespace_gap (g : List Nat) (c : Nat) (rest : List Nat) (hg : is_gap g = true)
    (hc : is_token_byte c = true) : _meta_skip_whitespace (g ++ c :: rest) = .ok (c :: rest) := by
  rw [skip_whitespace_eq_spec, spec_of_gap c rest hc false g hg]

theorem gap_of_spec : ∀ (m : Bool) (s s' : List Nat), skip_whitespace_spec m s = some s' →
    ∃ g c r, s = g ++ c :: r ∧ s' = c :: r ∧ is_token_byte c = true ∧
      (gap_scan m g = true ∨ c = 0)
  | _, [], s', h => by simp [skip_whitespace_spec] at h
  | false, x :: rest, s', h => by
    simp only [skip_whitespace_spec] at h
    by_cases hx : is_space x = true
    · simp only [hx, if_true] at h
      obtain ⟨g, c, r, h1, h2, h3, h4⟩ := gap_of_spec false rest s' h
      exact ⟨x :: g, c, r, by simp [h1], h2, h3, by simpa [gap_scan, hx] using h4⟩
    · by_cases h35 : x = 35
      · simp only [hx, if_false, h35, if_true] at h
        obtain ⟨g, c, r, h1, h2, h3, h4⟩ := gap_of_spec true rest s' h
        exact ⟨x :: g, c, r, by simp [h1], h2, h3, by simpa [gap_scan, hx, h35] using h4⟩
      · simp only [hx, Bool.false_eq_true, if_false, h35, Option.some.injEq] at h
        refine ⟨[], x, rest, rfl, h.symm, ?_, Or.inl rfl⟩
        rw [is_token_byte_iff]
        exact ⟨by simpa using hx, h35⟩
  | true, x :: rest, s', h => by
    simp only [skip_whitespace_spec] at h
    by_cases h10 : x = 10
    · simp only [h10, if_true] at h
      obtain ⟨g, c, r, h1, h2, h3, h4⟩ := gap_of_spec false rest s' h
      exact ⟨x :: g, c, r, by simp [h1], h2, h3, by simpa [gap_scan, h10] using h4⟩
    · simp only [h10, if_false] at h
      by_cases h0 : x = 0
      · simp only [h0, if_true, Option.some.injEq] at h
        exact ⟨[], x, rest, rfl, by rw [← h, h0], by rw [h0]; decide, Or.inr h0⟩
      · simp only [h0, if_false] at h
        obtain ⟨g, c, r, h1, h2, h3, h4⟩ := gap_of_spec true rest s' h
        exact ⟨x :: g, c, r, by simp [h1], h2, h3, by simpa [gap_scan, h10, h0] using h4⟩

theorem skip_whitespace_inv (s s' : List Nat) (h : _meta_skip_whitespace s = .ok s') :
    ∃ g c r, s = g ++ c :: r ∧ s' = c :: r ∧ is_token_byte c = true ∧
      (is_gap g = true ∨ c = 0) := by
  rw [skip_whitespace_eq_spec] at h
  cases hs : skip_whitespace_spec false s with
  | none => rw [hs] at h; simp at h
  | some r =>
    rw [hs] at h
    simp only [Except.ok.injEq] at h
    subst h
    exact gap_of_spec false s r hs


theorem result_bind_ok {α β : Type} (x : Result α) (f : α → Result β) (b : β)
    (h : (x >>= f) = .ok b) : ∃ a, x = .ok a ∧ f a = .ok b := by
  cases x with
  | ok a => exact ⟨a, rfl, h⟩
  | error e => simp at h

theorem expect_char_inv (want : Nat) (s s' : List Nat) (h : expect_char want s = .ok s') :
    s = want :: s' := by
  cases s with
  | nil => simp [expect_char] at h
  | cons c rest =>
    by_cases hc : c = want
    · simp only [expect_char, hc, if_true, Except.ok.injEq] at h
      rw [hc, h]
    · simp [expect_char, hc] at h

theorem parse_int_loop_inv : ∀ (s d s' : List Nat), _meta_parse_int_loop s = .ok (d, s') →
    s = d ++ s' ∧ (∀ x ∈ d, _meta_is_numeric x = true) ∧
      ∃ c r, s' = c :: r ∧ _meta_is_numeric c = false
  | [], d, s', h => by simp [_meta_parse_int_loop] at h
  | c :: rest, d, s', h => by
    by_cases hc : _meta_is_numeric c = true
    · simp only [_meta_parse_int_loop, hc, if_true] at h
      cases hl : _meta_parse_int_loop rest with
      | error e => rw [hl] at h; simp at h
      | ok r =>
        obtain ⟨d1, s1⟩ := r
        rw [hl] at h
        simp only [Except.ok.injEq, Prod.mk.injEq] at h
        obtain ⟨rfl, rfl⟩ := h
        obtain ⟨h1, h2, h3⟩ := parse_int_loop_inv rest d1 s1 hl
        refine ⟨by simp [h1], ?_, h3⟩
        intro x hx
        rcases List.mem_cons.mp hx with rfl | hx
        · exact hc
        · exact h2 x hx
    · simp only [_meta_parse_int_loop, hc, Bool.false_eq_true, if_false, Except.ok.injEq,
        Prod.mk.injEq] at h
      obtain ⟨rfl, rfl⟩ := h
      exact ⟨rfl, by simp, c, rest, rfl, by simpa using hc⟩

theorem parse_int_inv (s : List Nat) (n : Int) (s' : List Nat)
    (h : _meta_parse_int s = .ok (n, s')) :
    ∃ ds, s = ds ++ s' ∧ ds ≠ [] ∧ (∀ x ∈ ds, _meta_is_numeric x = true) ∧
      atoi_digits ds ≤ INT_MAX ∧ n = ((atoi_digits ds : Nat) : Int) ∧
      ∃ c r, s' = c :: r ∧ _meta_is_numeric c = false := by
  cases s with
  | nil => simp [_meta_parse_int] at h
  | cons c rest =>
    by_cases hc : _meta_is_numeric c = true
    · simp only [_meta_parse_int, hc, if_true] at h
      cases hl : _meta_parse_int_loop rest with
      | error e => rw [hl] at h; simp at h
      | ok r =>
        obtain ⟨d1, s1⟩ := r
        rw [hl] at h
        simp only at h
        by_cases hmax : atoi_digits (c :: d1) ≤ INT_MAX
        · simp only [hmax, if_true, Except.ok.injEq, Prod.mk.injEq] at h
          obtain ⟨rfl, rfl⟩ := h
          obtain ⟨h1, h2, h3⟩ := parse_int_loop_inv rest d1 s1 hl
          refine ⟨c :: d1, by simp [h1], by simp, ?_, hmax, rfl, h3⟩
          intro x hx
          rcases List.mem_cons.mp hx with rfl | hx
          · exact hc
          · exact h2 x hx
        · simp [hmax] at h
    · simp [_meta_parse_int, hc] at h

theorem parse_string_search_inv : ∀ (s p s' : List Nat),
    _meta_parse_string_search s = .ok (p, s') →
    ∃ closer, s = p ++ closer :: s' ∧ (∀ x ∈ p, x ≠ 0 ∧ x ≠ 34) ∧ (closer = 34 ∨ closer = 0)
  | [], p, s', h => by simp [_meta_parse_string_search] at h
  | c :: rest, p, s', h => by
    by_cases hc : c ≠ 34 ∧ c ≠ 0
    · simp only [_meta_parse_string_search, hc, ne_eq, not_false_eq_true, and_self, if_true] at h
      cases hl : _meta_parse_string_search rest with
      | error e => rw [hl] at h; simp at h
      | ok r =>
        obtain ⟨p1, s1⟩ := r
        rw [hl] at h
        simp only [Except.ok.injEq, Prod.mk.injEq] at h
        obtain ⟨rfl, rfl⟩ := h
        obtain ⟨closer, h1, h2, h3⟩ := parse_string_search_inv rest p1 s1 hl
        refine ⟨closer, by simp [h1], ?_, h3⟩
        intro x hx
        rcases List.mem_cons.mp hx with rfl | hx
        · exact ⟨hc.2, hc.1⟩
        · exact h2 x hx
    · have hc' : c = 34 ∨ c = 0 := by omega
      have h48 : c ≠ 48 := by omega
      simp only [_meta_parse_string_search, hc, if_false, h48, Except.ok.injEq,
        Prod.mk.injEq] at h
      obtain ⟨rfl, rfl⟩ := h
      exact ⟨c, rfl, by simp, hc'⟩

theorem parse_string_search_closer : ∀ (p : List Nat) (closer : Nat) (rest : List Nat),
    (∀ x ∈ p, x ≠ 0 ∧ x ≠ 34) → (closer = 34 ∨ closer = 0) →
    _meta_parse_string_search (p ++ closer :: rest) = .ok (p, rest)
  | [], closer, rest, _, hc => by
    have h1 : ¬ (closer ≠ 34 ∧ closer ≠ 0) := by omega
    have h2 : closer ≠ 48 := by omega
    simp [_meta_parse_string_search, h1, h2]
  | x :: p, closer, rest, hp, hc => by
    have hx := hp x (by simp)
    have ih := parse_string_search_closer p closer rest
      (fun y hy => hp y (List.mem_cons_of_mem _ hy)) hc
    simp [_meta_parse_string_search, hx.1, hx.2, ih]

theorem parse_string_inv (s p s' : List Nat) (h : _meta_parse_string s = .ok (p, s')) :
    ∃ closer, s = 34 :: p ++ closer :: s' ∧ (∀ x ∈ p, x ≠ 0 ∧ x ≠ 34) ∧
      (closer = 34 ∨ closer = 0) := by
  cases s with
  | nil => simp [_meta_parse_string] at h
  | cons c rest =>
    by_cases hc : c = 34
    · simp only [_meta_parse_string, hc, if_true] at h
      obtain ⟨closer, h1, h2, h3⟩ := parse_string_search_inv rest p s' h
      exact ⟨closer, by simp [hc, h1], h2, h3⟩
    · simp [_meta_parse_string, hc] at h

theorem parse_null_inv (s s' : List Nat) (h : _meta_parse_null s = .ok s') :
    s = 110 :: 117 :: 108 :: 108 :: s' := by
  simp only [_meta_parse_null] at h
  obtain ⟨s1, h1, h⟩ := result_bind_ok _ _ _ h
  obtain ⟨s2, h2, h⟩ := result_bind_ok _ _ _ h
  obtain ⟨s3, h3, h⟩ := result_bind_ok _ _ _ h
  rw [expect_char_inv _ _ _ h1, expect_char_inv _ _ _ h2, expect_char_inv _ _ _ h3,
    expect_char_inv _ _ _ h]

theorem load_ident_loop_inv (dest_len : Int) (hd : (0 : Int) < dest_len - 1) :
    ∀ (s name s' : List Nat), _meta_load_ident_loop dest_len s = .ok (name, s') →
    s = name ++ s' ∧ (∀ x ∈ name, _meta_is_alphanumeric x = true) ∧
      ∃ c r, s' = c :: r ∧ _meta_is_alphanumeric c = false
  | [], name, s', h => by simp [_meta_load_ident_loop] at h
  | c :: rest, name, s', h => by
    by_cases hc : _meta_is_alphanumeric c = true
    · simp only [_meta_load_ident_loop, hc, hd, and_self, if_true] at h
      cases hl : _meta_load_ident_loop dest_len rest with
      | error e => rw [hl] at h; simp at h
      | ok r =>
        obtain ⟨d1, s1⟩ := r
        rw [hl] at h
        simp only [Except.ok.injEq, Prod.mk.injEq] at h
        obtain ⟨rfl, rfl⟩ := h
        obtain ⟨h1, h2, h3⟩ := load_ident_loop_inv dest_len hd rest d1 s1 hl
        refine ⟨by simp [h1], ?_, h3⟩
        intro x hx
        rcases List.mem_cons.mp hx with rfl | hx
        · exact hc
        · exact h2 x hx
    · simp only [_meta_load_ident_loop, hc, Bool.false_eq_true, false_and, if_false,
        Except.ok.injEq, Prod.mk.injEq] at h
      obtain ⟨rfl, rfl⟩ := h
      exact ⟨rfl, by simp, c, rest, rfl, by simpa using hc⟩

theorem load_ident_inv (dest_len : Int) (hd : (0 : Int) < dest_len - 1) (s name s' : List Nat)
    (h : _meta_load_ident s dest_len = .ok (name, s')) :
    s = name ++ s' ∧ _meta_is_field_sanitized name = true ∧
      ∃ c r, s' = c :: r ∧ _meta_is_alphanumeric c = false := by
  cases s with
  | nil => simp [_meta_load_ident] at h
  | cons c rest =>
    by_cases hc : _meta_is_alphabetic c = true
    · simp only [_meta_load_ident, hc, if_true] at h
      obtain ⟨h1, h2, h3⟩ := load_ident_loop_inv dest_len hd (c :: rest) name s' h
      refine ⟨h1, ?_, h3⟩
      cases name with
      | nil =>
        obtain ⟨c', r, h3a, h3b⟩ := h3
        simp only [List.nil_append] at h1
        rw [h3a] at h1
        simp only [List.cons.injEq] at h1
        rw [← h1.1] at h3b
        simp [_meta_is_alphanumeric, hc] at h3b
      | cons x nm =>
        simp only [List.cons_append, List.cons.injEq] at h1
        simp only [_meta_is_field_sanitized, Bool.and_eq_true, List.all_eq_true]
        exact ⟨by rw [← h1.1]; exact hc, h2⟩
    · simp [_meta_load_ident, hc] at h


theorem head?_append_close (a : List Nat) (c : Nat) (t : List Nat) :
    (a ++ c :: t).head? = (a ++ [c]).head? := by
  cases a <;> rfl

theorem gap_head (g : List Nat) (hg : is_gap g = true) (c0 : Nat) (Y : List Nat) :
    ∃ c r, g ++ c0 :: Y = c :: r ∧ ((g = [] ∧ c = c0) ∨ is_space c = true ∨ c = 35) := by
  cases g with
  | nil => exact ⟨c0, Y, rfl, Or.inl ⟨rfl, rfl⟩⟩
  | cons x g =>
    refine ⟨x, g ++ c0 :: Y, rfl, Or.inr ?_⟩
    simp only [is_gap, gap_scan] at hg
    by_cases hx : is_space x = true
    · exact Or.inl hx
    · by_cases h35 : x = 35
      · exact Or.inr h35
      · simp [hx, h35] at hg

theorem space_not_numeric {c : Nat} (h : is_space c = true ∨ c = 35) :
    _meta_is_numeric c = false ∧ _meta_is_alphanumeric c = false ∧ c ≠ 41 ∧ c ≠ 93 := by
  simp only [is_space, Bool.or_eq_true, decide_eq_true_eq] at h
  simp only [_meta_is_alphanumeric, _meta_is_numeric, _meta_is_alphabetic, Bool.or_eq_false_iff,
    Bool.and_eq_false_iff, decide_eq_false_iff_not]
  omega

theorem document_start : ∀ (d : document) (next : Option Nat), document_valid d next = true →
    ∃ c r, document_text d = c :: r ∧ is_value_start c = true
  | .integer ds, next, h => by
    simp only [document_valid, Bool.and_eq_true, List.all_eq_true, Bool.not_eq_true',
      List.isEmpty_eq_false] at h
    cases ds with
    | nil => simp at h
    | cons x ds =>
      have hx : _meta_is_numeric x = true := h.1.1.2 x (by simp)
      exact ⟨x, ds, rfl, by simp [is_value_start, hx]⟩
  | .string p closer, _, _ => ⟨34, p ++ [closer], by simp [document_text], by decide⟩
  | .null, _, _ => ⟨110, [117, 108, 108], rfl, by decide⟩
  | .array g items, _, _ => ⟨91, g ++ items_text items ++ [93], by simp [document_text], by decide⟩
  | .obj g fields, _, _ => ⟨40, g ++ fields_text fields ++ [41], by simp [document_text], by decide⟩

theorem items_text_head (items : List (List Nat × document)) (h : items_valid items = true)
    (tail : List Nat) :
    ∃ c r, items_text items ++ 93 :: tail = c :: r ∧ is_token_byte c = true := by
  cases items with
  | nil => exact ⟨93, tail, by simp [items_text], by decide⟩
  | cons it rest =>
    obtain ⟨g, d⟩ := it
    simp only [items_valid, Bool.and_eq_true] at h
    obtain ⟨c, r, hr, hc⟩ := document_start d _ h.1.1
    exact ⟨c, r ++ g ++ items_text rest ++ 93 :: tail, by simp [items_text, hr],
      (token_of_value_start hc).1⟩

theorem fields_text_head (fields : List (field_layout × document))
    (h : fields_valid fields = true) (tail : List Nat) :
    ∃ c r, fields_text fields ++ 41 :: tail = c :: r ∧ is_token_byte c = true ∧
      (fields ≠ [] → c ≠ 41) := by
  cases fields with
  | nil => exact ⟨41, tail, by simp [fields_text], by decide, fun h => absurd rfl h⟩
  | cons fd rest =>
    obtain ⟨f, d⟩ := fd
    simp only [fields_valid, Bool.and_eq_true] at h
    have hsan := h.1.1.1.1.1.1
    cases hn : f.name with
    | nil => rw [hn] at hsan; simp [_meta_is_field_sanitized] at hsan
    | cons x nm =>
      rw [hn] at hsan
      simp only [_meta_is_field_sanitized, Bool.and_eq_true] at hsan
      refine ⟨x, nm ++ f.before_colon ++ 58 :: f.after_colon ++ document_text d
        ++ f.after_value ++ fields_text rest ++ 41 :: tail, by simp [fields_text, hn],
        (token_of_alphabetic hsan.1).1, fun _ => (token_of_alphabetic hsan.1).2⟩

theorem array_loop_step_gen (pv : List Nat → Result (meta_value × List Nat)) (lf : Nat)
    (acc : List meta_value) (c0 : Nat) (rest0 : List Nat) (v : meta_value) (s1 s2 : List Nat)
    (hc0 : c0 ≠ 93) (hacc : acc.length < META_MAX_ARRAY_LEN)
    (hpv : pv (c0 :: rest0) = .ok (v, s1)) (hskip : _meta_skip_whitespace s1 = .ok s2) :
    _meta_parse_array_loop pv (lf + 1) acc (c0 :: rest0)
      = _meta_parse_array_loop pv lf (acc ++ [v]) s2 := by
  have hacc' : ¬ (acc.length ≥ META_MAX_ARRAY_LEN) := by omega
  simp only [_meta_parse_array_loop, hc0, if_false, hpv, result_ok_bind, hacc', hskip]
  rfl

theorem obj_loop_step_gen (pv : List Nat → Result (meta_value × List Nat)) (lf : Nat)
    (acc : List (List Nat × meta_value)) (c0 : Nat) (rest0 name : List Nat) (v : meta_value)
    (s1 s2 s3 s4 s5 s6 s7 : List Nat) (hc0 : c0 ≠ 41)
    (h1 : _meta_skip_whitespace (c0 :: rest0) = .ok s1)
    (h2 : _meta_load_ident s1 (128 : Int) = .ok (name, s2))
    (hlen : name.length < META_MAX_OBJ_FIELD_LEN) (hacc : acc.length < META_MAX_OBJ_FIELDS)
    (h3 : _meta_skip_whitespace s2 = .ok s3)
    (h4 : expect_char 58 s3 = .ok s4)
    (h5 : _meta_skip_whitespace s4 = .ok s5)
    (h6 : pv s5 = .ok (v, s6))
    (h7 : _meta_skip_whitespace s6 = .ok s7) :
    _meta_parse_obj_loop pv (lf + 1) acc (c0 :: rest0)
      = _meta_parse_obj_loop pv lf (acc ++ [(name, v)]) s7 := by
  have hcap : ¬ (acc.length ≥ META_MAX_OBJ_FIELDS ∨ name.length + 1 > META_MAX_OBJ_FIELD_LEN) := by
    omega
  simp only [_meta_parse_obj_loop, hc0, if_false, h1, result_ok_bind, Nat.cast_ofNat, h2, hcap,
    h3, h4, h5, h6, h7]
  rfl


theorem items_text_length : ∀ (items : List (List Nat × document)), items_valid items = true →
    items.length ≤ (items_text items).length
  | [], _ => by simp
  | (g, d) :: rest, h => by
    simp only [items_valid, Bool.and_eq_true] at h
    have := items_text_length rest h.2
    obtain ⟨c, r, hr, -⟩ := document_start d _ h.1.1
    simp only [items_text, hr, List.length_cons, List.length_append]
    omega

theorem fields_text_length : ∀ (fields : List (field_layout × document)),
    fields.length ≤ (fields_text fields).length
  | [] => by simp
  | (f, d) :: rest => by
    have := fields_text_length rest
    simp only [fields_text, List.length_cons, List.length_append]
    omega

theorem valid_next_close (d : document) (a : List Nat) (c : Nat) (tail : List Nat)
    (h : document_valid d (a ++ [c]).head? = true) :
    document_valid d (a ++ c :: tail).head? = true := by
  rw [head?_append_close]; exact h

mutual
theorem parse_document (heap : Nat → Nat) : ∀ (d : document) (fuel : Nat) (tail : List Nat),
    document_valid d tail.head? = true → (document_text d).length ≤ fuel →
    _meta_parse_value heap fuel (document_text d ++ tail) = .ok (document_value heap d, tail)
  | .integer ds, fuel, tail, h, _ => by
    simp only [document_valid, Bool.and_eq_true, List.all_eq_true, Bool.not_eq_true',
      List.isEmpty_eq_false, decide_eq_true_eq] at h
    obtain ⟨⟨⟨hne, hnum⟩, hmax⟩, hnext⟩ := h
    cases tail with
    | nil => simp [next_not_numeric] at hnext
    | cons c rest =>
      simp only [List.head?_cons, next_not_numeric, Bool.not_eq_true'] at hnext
      cases ds with
      | nil => simp at hne
      | cons x ds =>
        have hx : _meta_is_numeric x = true := hnum x (by simp)
        have hrun := parse_int_run (x :: ds) c rest (by simp) hnum hnext hmax
        simp only [List.cons_append] at hrun
        simp only [document_text, document_value, List.cons_append]
        rw [parse_value_numeric heap fuel x _ hx, hrun]
        rfl
  | .string p closer, fuel, tail, h, _ => by
    simp only [document_valid, Bool.and_eq_true, List.all_eq_true, Bool.or_eq_true,
      decide_eq_true_eq] at h
    have hrun := parse_string_search_closer p closer tail h.1 h.2
    simp only [document_text, document_value, List.cons_append, List.append_assoc,
      List.singleton_append, List.nil_append]
    rw [parse_value_string]
    simp only [_meta_parse_string, if_true, hrun, result_ok_bind]
  | .null, fuel, tail, _, _ => by
    simp only [document_text, document_value, List.cons_append, List.nil_append]
    rw [parse_value_null]
    simp [_meta_parse_null, expect_char]
  | .array g items, fuel, tail, h, hfuel => by
    simp only [document_valid, Bool.and_eq_true, decide_eq_true_eq] at h
    obtain ⟨⟨hg, hlen⟩, hitems⟩ := h
    simp only [document_text, List.length_cons, List.length_append, List.length_nil] at hfuel
    obtain ⟨f, rfl⟩ : ∃ f, fuel = f + 1 := ⟨fuel - 1, by omega⟩
    obtain ⟨c, r, hr, hc⟩ := items_text_head items hitems tail
    have hl := items_text_length items hitems
    have hloop := parse_items heap items f
      ((items_text items ++ 93 :: tail).length + 1) [] tail hitems (by omega)
      (by simp only [List.length_append, List.length_cons]; omega) (by simpa using hlen)
    have hskip := skip_whitespace_gap g c r hg hc
    rw [← hr] at hskip
    simp only [document_text, document_value, List.cons_append, List.append_assoc,
      List.singleton_append]
    rw [parse_value_array]
    simp only [_meta_parse_array, expect_char, if_true, result_ok_bind, hskip, hloop,
      List.nil_append, result_pure]
  | .obj g fields, fuel, tail, h, hfuel => by
    simp only [document_valid, Bool.and_eq_true, decide_eq_true_eq] at h
    obtain ⟨⟨⟨hg, hempty⟩, hlen⟩, hfields⟩ := h
    simp only [document_text, List.length_cons, List.length_append, List.length_nil] at hfuel
    obtain ⟨f, rfl⟩ : ∃ f, fuel = f + 1 := ⟨fuel - 1, by omega⟩
    have hl := fields_text_length fields
    have hloop := parse_fields heap fields f
      ((g ++ (fields_text fields ++ 41 :: tail)).length + 1) [] g tail hfields hg
      (by
        intro he
        simpa [he] using hempty)
      (by omega)
      (by simp only [List.length_append, List.length_cons]; omega) (by simpa using hlen)
    have hopen := skip_whitespace_token 40 (g ++ (fields_text fields ++ 41 :: tail)) (by decide)
    simp only [document_text, document_value, List.cons_append, List.append_assoc,
      List.singleton_append]
    rw [parse_value_obj]
    simp only [_meta_parse_obj, hopen, expect_char, if_true, result_ok_bind, hloop,
      List.nil_append, result_pure]
theorem parse_items (heap : Nat → Nat) : ∀ (items : List (List Nat × document))
    (fuel lf : Nat) (acc : List meta_value) (tail : List Nat),
    items_valid items = true → (items_text items).length ≤ fuel → items.length < lf →
    acc.length + items.length ≤ META_MAX_ARRAY_LEN →
    _meta_parse_array_loop (_meta_parse_value heap fuel) lf acc (items_text items ++ 93 :: tail)
      = .ok (acc ++ items_value heap items, 93 :: tail)
  | [], fuel, lf, acc, tail, _, _, hlf, _ => by
    obtain ⟨l, rfl⟩ : ∃ l, lf = l + 1 := ⟨lf - 1, by simp at hlf; omega⟩
    simp [items_text, items_value, _meta_parse_array_loop]
  | (g, d) :: rest, fuel, lf, acc, tail, h, hfuel, hlf, hacc => by
    simp only [items_valid, Bool.and_eq_true] at h
    obtain ⟨⟨hd, hg⟩, hrest⟩ := h
    simp only [items_text, List.length_cons, List.length_append] at hfuel
    simp only [List.length_cons] at hlf hacc
    obtain ⟨l, rfl⟩ : ∃ l, lf = l + 1 := ⟨lf - 1, by omega⟩
    obtain ⟨c, r, hr, hc⟩ := document_start d _ hd
    obtain ⟨c1, r1, hr1, hc1⟩ := items_text_head rest hrest tail
    have hv : document_valid d (g ++ (items_text rest ++ 93 :: tail)).head? = true := by
      rw [← List.append_assoc]
      exact valid_next_close d (g ++ items_text rest) 93 tail hd
    have hpv := parse_document heap d fuel (g ++ (items_text rest ++ 93 :: tail)) hv (by omega)
    rw [hr] at hpv
    simp only [List.cons_append] at hpv
    have hskip := skip_whitespace_gap g c1 r1 hg hc1
    rw [← hr1] at hskip
    have hstep := array_loop_step_gen (_meta_parse_value heap fuel) l acc c _ _ _ _
      (token_of_value_start hc).2.1 (by omega) hpv hskip
    have hloop := parse_items heap rest fuel l (acc ++ [document_value heap d]) tail hrest
      (by omega) (by omega) (by simp; omega)
    simp only [items_text, items_value, hr, List.cons_append, List.append_assoc]
    rw [hstep, hloop]
    simp
theorem parse_fields (heap : Nat → Nat) : ∀ (fields : List (field_layout × document))
    (fuel lf : Nat) (acc : List (List Nat × meta_value)) (lead tail : List Nat),
    fields_valid fields = true → is_gap lead = true → (fields.isEmpty = true → lead = []) →
    (fields_text fields).length ≤ fuel → fields.length < lf →
    acc.length + fields.length ≤ META_MAX_OBJ_FIELDS →
    _meta_parse_obj_loop (_meta_parse_value heap fuel) lf acc
        (lead ++ (fields_text fields ++ 41 :: tail))
      = .ok (acc ++ fields_value heap fields, 41 :: tail)
  | [], fuel, lf, acc, lead, tail, _, _, hlead, _, hlf, _ => by
    obtain ⟨l, rfl⟩ : ∃ l, lf = l + 1 := ⟨lf - 1, by simp at hlf; omega⟩
    rw [hlead rfl]
    simp [fields_text, fields_value, _meta_parse_obj_loop]
  | (fl, d) :: rest, fuel, lf, acc, lead, tail, h, hlead, _, hfuel, hlf, hacc => by
    simp only [fields_valid, Bool.and_eq_true, decide_eq_true_eq] at h
    obtain ⟨⟨⟨⟨⟨⟨hsan, hnlen⟩, hgB⟩, hgC⟩, hd⟩, hgD⟩, hrest⟩ := h
    simp only [fields_text, List.length_cons, List.length_append] at hfuel
    simp only [List.length_cons] at hlf hacc
    obtain ⟨l, rfl⟩ : ∃ l, lf = l + 1 := ⟨lf - 1, by omega⟩
    obtain ⟨c, r, hr, hc⟩ := document_start d _ hd
    obtain ⟨c1, r1, hr1, hc1, -⟩ := fields_text_head rest hrest tail
    obtain ⟨x, nm, hname⟩ : ∃ x nm, fl.name = x :: nm := by
      cases hn : fl.name with
      | nil => rw [hn] at hsan; simp [_meta_is_field_sanitized] at hsan
      | cons x nm => exact ⟨x, nm, rfl⟩
    have hx : _meta_is_alphabetic x = true := by
      have := hsan
      simp only [hname, _meta_is_field_sanitized, Bool.and_eq_true] at this
      exact this.1
    -- the text behind the name, behind the colon, behind the value
    have e0 : lead ++ (fields_text ((fl, d) :: rest) ++ 41 :: tail)
        = lead ++ x :: (nm ++ (fl.before_colon ++ 58 :: (fl.after_colon ++ (c :: (r ++
          (fl.after_value ++ (fields_text rest ++ 41 :: tail))))))) := by
      simp [fields_text, hname, hr]
    obtain ⟨c0, r0, hr0, hc0⟩ := gap_head lead hlead x
      (nm ++ (fl.before_colon ++ 58 :: (fl.after_colon ++ (c :: (r ++
          (fl.after_value ++ (fields_text rest ++ 41 :: tail)))))))
    have hc0' : c0 ≠ 41 := by
      rcases hc0 with ⟨-, hc0⟩ | hc0
      · rw [hc0]; exact (token_of_alphabetic hx).2
      · exact (space_not_numeric hc0).2.2.1
    have h1 := skip_whitespace_gap lead x
      (nm ++ (fl.before_colon ++ 58 :: (fl.after_colon ++ (c :: (r ++
          (fl.after_value ++ (fields_text rest ++ 41 :: tail))))))) hlead
      (token_of_alphabetic hx).1
    rw [hr0] at h1
    obtain ⟨cB, rB, hrB, hcB⟩ := gap_head fl.before_colon hgB 58
      (fl.after_colon ++ (c :: (r ++ (fl.after_value ++ (fields_text rest ++ 41 :: tail)))))
    have hcB' : _meta_is_alphanumeric cB = false := by
      rcases hcB with ⟨-, hcB⟩ | hcB
      · rw [hcB]; decide
      · exact (space_not_numeric hcB).2.1
    have h2 := load_ident_run fl.name cB rB hsan hcB'
    rw [← hrB, hname] at h2
    simp only [List.cons_append] at h2
    have h3 := skip_whitespace_gap fl.before_colon 58
      (fl.after_colon ++ (c :: (r ++ (fl.after_value ++ (fields_text rest ++ 41 :: tail)))))
      hgB (by decide)
    have h4 : expect_char 58 (58 :: (fl.after_colon ++ (c :: (r ++ (fl.after_value ++
        (fields_text rest ++ 41 :: tail))))))
        = .ok (fl.after_colon ++ (c :: (r ++ (fl.after_value ++
          (fields_text rest ++ 41 :: tail))))) := by
      simp [expect_char]
    have h5 := skip_whitespace_gap fl.after_colon c
      (r ++ (fl.after_value ++ (fields_text rest ++ 41 :: tail))) hgC
      (token_of_value_start hc).1
    have hv : document_valid d (fl.after_value ++ (fields_text rest ++ 41 :: tail)).head?
        = true := by
      rw [← List.append_assoc]
      exact valid_next_close d (fl.after_value ++ fields_text rest) 41 tail hd
    have h6 := parse_document heap d fuel (fl.after_value ++ (fields_text rest ++ 41 :: tail))
      hv (by omega)
    rw [hr] at h6
    simp only [List.cons_append] at h6
    have h7 := skip_whitespace_gap fl.after_value c1 r1 hgD hc1
    rw [← hr1] at h7
    have hstep := obj_loop_step_gen (_meta_parse_value heap fuel) l acc c0 r0 (x :: nm)
      (document_value heap d) _ _ _ _ _ _ _ hc0' h1 h2 (by rw [← hname]; exact hnlen)
      (by omega) h3 h4 h5 h6 h7
    have hloop := parse_fields heap rest fuel l (acc ++ [(x :: nm, document_value heap d)]) []
      tail hrest rfl (fun _ => rfl) (by omega) (by omega) (by simp; omega)
    rw [e0, hr0, hstep]
    simp only [List.nil_append] at hloop
    rw [hloop]
    simp [fields_value, hname]
end


theorem value_start_ne_zero {c : Nat} (h : is_value_start c = true) : c ≠ 0 := by
  simp only [is_value_start, _meta_is_numeric, Bool.or_eq_true, Bool.and_eq_true,
    decide_eq_true_eq] at h
  omega

theorem items_text_head_ne_zero (items : List (List Nat × document))
    (h : items_valid items = true) (tail : List Nat) (c : Nat) (r : List Nat)
    (hr : items_text items ++ 93 :: tail = c :: r) : c ≠ 0 := by
  cases items with
  | nil =>
    simp only [items_text, List.nil_append, List.cons.injEq] at hr
    omega
  | cons it rest =>
    obtain ⟨g, d⟩ := it
    simp only [items_valid, Bool.and_eq_true] at h
    obtain ⟨c', r', hr', hc'⟩ := document_start d _ h.1.1
    simp only [items_text, hr', List.cons_append, List.cons.injEq] at hr
    rw [← hr.1]
    exact value_start_ne_zero hc'

theorem fields_text_head_ne_zero (fields : List (field_layout × document))
    (h : fields_valid fields = true) (tail : List Nat) (c : Nat) (r : List Nat)
    (hr : fields_text fields ++ 41 :: tail = c :: r) : c ≠ 0 := by
  obtain ⟨c', r', hr', hc', -⟩ := fields_text_head fields h tail
  rw [hr] at hr'
  simp only [List.cons.injEq] at hr'
  rw [hr'.1]
  intro h0
  rw [h0] at hc'
  cases fields with
  | nil =>
    simp only [fields_text, List.nil_append, List.cons.injEq] at hr
    omega
  | cons fd rest =>
    obtain ⟨f, d⟩ := fd
    simp only [fields_valid, Bool.and_eq_true] at h
    have hsan := h.1.1.1.1.1.1
    cases hn : f.name with
    | nil => rw [hn] at hsan; simp [_meta_is_field_sanitized] at hsan
    | cons x nm =>
      rw [hn] at hsan
      simp only [_meta_is_field_sanitized, Bool.and_eq_true] at hsan
      simp only [fields_text, hn, List.cons_append, List.cons.injEq] at hr
      have hx := hsan.1
      rw [hr.1, hr'.1, h0] at hx
      simp [_meta_is_alphabetic] at hx

theorem array_loop_inv (heap : Nat → Nat) (pv : List Nat → Result (meta_value × List Nat))
    (hpv : ∀ s v rest, pv s = .ok (v, rest) →
      ∃ d, s = document_text d ++ rest ∧ document_valid d rest.head? = true ∧
        document_value heap d = v) :
    ∀ (lf : Nat) (acc : List meta_value) (s : List Nat) (arr : List meta_value) (s' : List Nat),
      _meta_parse_array_loop pv lf acc s = .ok (arr, s') →
      ∃ items tail, s = items_text items ++ 93 :: tail ∧ s' = 93 :: tail ∧
        arr = acc ++ items_value heap items ∧ items_valid items = true ∧
        (acc.length ≤ META_MAX_ARRAY_LEN → acc.length + items.length ≤ META_MAX_ARRAY_LEN)
  | 0, acc, s, arr, s', h => by simp [_meta_parse_array_loop] at h
  | lf + 1, acc, [], arr, s', h => by simp [_meta_parse_array_loop] at h
  | lf + 1, acc, c :: rest, arr, s', h => by
    by_cases hc : c = 93
    · simp only [_meta_parse_array_loop, hc, if_true, Except.ok.injEq, Prod.mk.injEq] at h
      obtain ⟨rfl, rfl⟩ := h
      exact ⟨[], rest, by simp [items_text, hc], rfl, by simp [items_value], rfl, fun h => h⟩
    · simp only [_meta_parse_array_loop, hc, if_false] at h
      obtain ⟨⟨val, s1⟩, h1, h⟩ := result_bind_ok _ _ _ h
      simp only at h
      by_cases hcap : acc.length ≥ META_MAX_ARRAY_LEN
      · simp [hcap, throw, throwThe, MonadExceptOf.throw] at h
      · simp only [hcap, if_false] at h
        obtain ⟨u, -, h⟩ := result_bind_ok _ _ _ h
        obtain ⟨s2, h2, h⟩ := result_bind_ok _ _ _ h
        obtain ⟨d, hd1, hd2, hd3⟩ := hpv _ _ _ h1
        obtain ⟨g, c2, r2, hg1, hg2, hg3, hg4⟩ := skip_whitespace_inv _ _ h2
        obtain ⟨items, tail, hi1, hi2, hi3, hi4, hi5⟩ :=
          array_loop_inv heap pv hpv lf (acc ++ [val]) s2 arr s' h
        have hc2 : c2 ≠ 0 := by
          rw [hg2] at hi1
          exact items_text_head_ne_zero items hi4 tail c2 r2 hi1.symm
        have hgap : is_gap g = true := by
          rcases hg4 with hg4 | hg4
          · exact hg4
          · exact absurd hg4 hc2
        have hs1 : s1 = g ++ (items_text items ++ 93 :: tail) := by
          rw [hg1, ← hg2, hi1]
        refine ⟨(g, d) :: items, tail, ?_, hi2, ?_, ?_, ?_⟩
        · rw [hd1, hs1]
          simp [items_text]
        · rw [hi3, ← hd3]
          simp [items_value]
        · simp only [items_valid, Bool.and_eq_true]
          refine ⟨⟨?_, hgap⟩, hi4⟩
          rw [hs1, ← List.append_assoc, head?_append_close] at hd2
          exact hd2
        · intro _
          have := hi5 (by simp only [List.length_append, List.length_cons, List.length_nil]; omega)
          simp only [List.length_append, List.length_cons, List.length_nil] at this ⊢
          omega


theorem alphabetic_ne_zero {c : Nat} (h : _meta_is_alphabetic c = true) : c ≠ 0 := by
  simp only [_meta_is_alphabetic, Bool.or_eq_true, Bool.and_eq_true, decide_eq_true_eq] at h
  omega

theorem gap_nil_of_token (g : List Nat) (hg : is_gap g = true) (c0 : Nat) (Y : List Nat)
    (c : Nat) (r : List Nat) (h : g ++ c0 :: Y = c :: r) (hc : is_token_byte c = true) :
    g = [] := by
  obtain ⟨c', r', hr', hc'⟩ := gap_head g hg c0 Y
  rw [h] at hr'
  simp only [List.cons.injEq] at hr'
  rcases hc' with ⟨hnil, -⟩ | hc'
  · exact hnil
  · rw [← hr'.1] at hc'
    have := (is_token_byte_iff c).mp hc
    rcases hc' with hc' | hc'
    · rw [this.1] at hc'; simp at hc'
    · exact absurd hc' this.2

theorem obj_loop_inv (heap : Nat → Nat) (pv : List Nat → Result (meta_value × List Nat))
    (hpv : ∀ s v rest, pv s = .ok (v, rest) →
      ∃ d, s = document_text d ++ rest ∧ document_valid d rest.head? = true ∧
        document_value heap d = v) :
    ∀ (lf : Nat) (acc : List (List Nat × meta_value)) (s : List Nat)
      (obj : List (List Nat × meta_value)) (s' : List Nat),
      _meta_parse_obj_loop pv lf acc s = .ok (obj, s') →
      ∃ lead fields tail, s = lead ++ (fields_text fields ++ 41 :: tail) ∧ s' = 41 :: tail ∧
        obj = acc ++ fields_value heap fields ∧ fields_valid fields = true ∧
        is_gap lead = true ∧ (fields.isEmpty = true → lead = []) ∧
        (∀ c r, s = c :: r → is_token_byte c = true → lead = []) ∧
        (acc.length ≤ META_MAX_OBJ_FIELDS → acc.length + fields.length ≤ META_MAX_OBJ_FIELDS)
  | 0, acc, s, obj, s', h => by simp [_meta_parse_obj_loop] at h
  | lf + 1, acc, [], obj, s', h => by simp [_meta_parse_obj_loop] at h
  | lf + 1, acc, c :: rest, obj, s', h => by
    by_cases hc : c = 41
    · simp only [_meta_parse_obj_loop, hc, if_true, Except.ok.injEq, Prod.mk.injEq] at h
      obtain ⟨rfl, rfl⟩ := h
      exact ⟨[], [], rest, by simp [fields_text, hc], rfl, by simp [fields_value], rfl, rfl,
        fun _ => rfl, fun _ _ _ _ => rfl, fun h => h⟩
    · simp only [_meta_parse_obj_loop, hc, if_false, Nat.cast_ofNat] at h
      obtain ⟨s1, h1, h⟩ := result_bind_ok _ _ _ h
      obtain ⟨⟨name, s2⟩, h2, h⟩ := result_bind_ok _ _ _ h
      simp only at h
      by_cases hcap : acc.length ≥ META_MAX_OBJ_FIELDS ∨ name.length + 1 > META_MAX_OBJ_FIELD_LEN
      · simp [hcap, throw, throwThe, MonadExceptOf.throw] at h
      · simp only [hcap, if_false] at h
        obtain ⟨u, -, h⟩ := result_bind_ok _ _ _ h
        obtain ⟨s3, h3, h⟩ := result_bind_ok _ _ _ h
        obtain ⟨s4, h4, h⟩ := result_bind_ok _ _ _ h
        obtain ⟨s5, h5, h⟩ := result_bind_ok _ _ _ h
        obtain ⟨⟨v, s6⟩, h6, h⟩ := result_bind_ok _ _ _ h
        simp only at h
        obtain ⟨s7, h7, h⟩ := result_bind_ok _ _ _ h
        obtain ⟨gA, c1, r1, hA1, hA2, hA3, hA4⟩ := skip_whitespace_inv _ _ h1
        obtain ⟨hn1, hn2, cn, rn, hn3, hn4⟩ := load_ident_inv 128 (by decide) _ _ _ h2
        obtain ⟨gB, c3, r3, hB1, hB2, hB3, hB4⟩ := skip_whitespace_inv _ _ h3
        have hcolon := expect_char_inv _ _ _ h4
        obtain ⟨gC, c5, r5, hC1, hC2, hC3, hC4⟩ := skip_whitespace_inv _ _ h5
        obtain ⟨d, hd1, hd2, hd3⟩ := hpv _ _ _ h6
        obtain ⟨gD, c7, r7, hD1, hD2, hD3, hD4⟩ := skip_whitespace_inv _ _ h7
        obtain ⟨lead', fields, tail, hi1, hi2, hi3, hi4, hi5, hi6, hi7, hi8⟩ :=
          obj_loop_inv heap pv hpv lf (acc ++ [(name, v)]) s7 obj s' h
        have hlead' : lead' = [] := hi7 c7 r7 hD2 hD3
        subst hlead'
        simp only [List.nil_append] at hi1
        -- the name starts at a byte that is not NUL
        obtain ⟨x, nm, hname⟩ : ∃ x nm, name = x :: nm := by
          cases name with
          | nil => simp [_meta_is_field_sanitized] at hn2
          | cons x nm => exact ⟨x, nm, rfl⟩
        have hx : _meta_is_alphabetic x = true := by
          simp only [hname, _meta_is_field_sanitized, Bool.and_eq_true] at hn2
          exact hn2.1
        have hgA : is_gap gA = true := by
          rcases hA4 with hA4 | hA4
          · exact hA4
          · rw [hA2, hname] at hn1
            simp only [List.cons_append, List.cons.injEq] at hn1
            rw [hn1.1] at hA4
            exact absurd hA4 (alphabetic_ne_zero hx)
        have hgB : is_gap gB = true := by
          rcases hB4 with hB4 | hB4
          · exact hB4
          · rw [hB2] at hcolon
            simp only [List.cons.injEq] at hcolon
            omega
        obtain ⟨cd, rd, hrd, hcd⟩ := document_start d _ hd2
        have hgC : is_gap gC = true := by
          rcases hC4 with hC4 | hC4
          · exact hC4
          · rw [hC2, hrd] at hd1
            simp only [List.cons_append, List.cons.injEq] at hd1
            rw [hd1.1] at hC4
            exact absurd hC4 (value_start_ne_zero hcd)
        have hgD : is_gap gD = true := by
          rcases hD4 with hD4 | hD4
          · exact hD4
          · rw [hD2] at hi1
            exact absurd hD4 (fields_text_head_ne_zero fields hi4 tail c7 r7 hi1.symm)
        have hs6 : s6 = gD ++ (fields_text fields ++ 41 :: tail) := by rw [hD1, ← hD2, hi1]
        have hs4 : s4 = gC ++ (document_text d ++ s6) := by rw [hC1, ← hC2, hd1]
        have hs2 : s2 = gB ++ 58 :: s4 := by rw [hB1, ← hB2, hcolon]
        have hs1 : s1 = name ++ s2 := hn1
        have hs : c :: rest = gA ++ s1 := by rw [hA1, ← hA2]
        refine ⟨gA, (⟨name, gB, gC, gD⟩, d) :: fields, tail, ?_, hi2, ?_, ?_, hgA,
          fun he => by simp at he, ?_, ?_⟩
        · rw [hs, hs1, hs2, hs4, hs6]
          simp [fields_text]
        · rw [hi3, ← hd3]
          simp [fields_value]
        · simp only [fields_valid, Bool.and_eq_true, decide_eq_true_eq]
          refine ⟨⟨⟨⟨⟨⟨hn2, by omega⟩, hgB⟩, hgC⟩, ?_⟩, hgD⟩, hi4⟩
          rw [hs6, ← List.append_assoc, head?_append_close] at hd2
          exact hd2
        · intro c' r' hcr htok
          rw [hs, hA2] at hcr
          exact gap_nil_of_token gA hgA c1 r1 c' r' hcr htok
        · intro _
          have := hi8 (by simp only [List.length_append, List.length_cons, List.length_nil]; omega)
          simp only [List.length_append, List.length_cons, List.length_nil] at this ⊢
          omega

theorem scalar_of_parse (heap : Nat → Nat) (fuel c : Nat) (rest0 : List Nat) (v : meta_value)
    (rest : List Nat) (h40 : c ≠ 40) (h91 : c ≠ 91)
    (h : _meta_parse_value heap fuel (c :: rest0) = .ok (v, rest)) :
    ∃ d, c :: rest0 = document_text d ++ rest ∧ document_valid d rest.head? = true ∧
      document_value heap d = v := by
  by_cases h34 : c = 34
  · subst h34
    rw [parse_value_string] at h
    obtain ⟨⟨p, s1⟩, h1, h⟩ := result_bind_ok _ _ _ h
    simp only [Except.ok.injEq, Prod.mk.injEq] at h
    obtain ⟨rfl, rfl⟩ := h
    obtain ⟨closer, hs, hp, hcl⟩ := parse_string_inv _ _ _ h1
    refine ⟨.string p closer, by simp [document_text, hs], ?_, rfl⟩
    simp only [document_valid, Bool.and_eq_true, List.all_eq_true, Bool.or_eq_true,
      decide_eq_true_eq]
    exact ⟨hp, hcl⟩
  · by_cases h110 : c = 110
    · subst h110
      rw [parse_value_null] at h
      obtain ⟨s1, h1, h⟩ := result_bind_ok _ _ _ h
      simp only [Except.ok.injEq, Prod.mk.injEq] at h
      obtain ⟨rfl, rfl⟩ := h
      exact ⟨.null, by simp [document_text, parse_null_inv _ _ h1], rfl, rfl⟩
    · by_cases hnum : _meta_is_numeric c = true
      · rw [parse_value_numeric heap fuel c rest0 hnum] at h
        obtain ⟨⟨n, s1⟩, h1, h⟩ := result_bind_ok _ _ _ h
        simp only [Except.ok.injEq, Prod.mk.injEq] at h
        obtain ⟨rfl, rfl⟩ := h
        obtain ⟨ds, hs, hne, hds, hmax, hn, c1, r1, hc1, hc1'⟩ := parse_int_inv _ _ _ h1
        refine ⟨.integer ds, by simp [document_text, hs], ?_, by simp [document_value, hn]⟩
        simp only [document_valid, Bool.and_eq_true, List.all_eq_true, Bool.not_eq_true',
          List.isEmpty_eq_false, decide_eq_true_eq]
        refine ⟨⟨⟨hne, hds⟩, hmax⟩, ?_⟩
        rw [hc1]
        simp [next_not_numeric, hc1']
      · cases fuel <;> simp [_meta_parse_value, h34, h40, h91, h110, hnum] at h

theorem document_of_parse (heap : Nat → Nat) : ∀ (fuel : Nat) (s : List Nat) (v : meta_value)
    (rest : List Nat), _meta_parse_value heap fuel s = .ok (v, rest) →
    ∃ d, s = document_text d ++ rest ∧ document_valid d rest.head? = true ∧
      document_value heap d = v
  | _, [], v, rest, h => by cases ‹Nat› <;> simp [_meta_parse_value] at h
  | 0, c :: rest0, v, rest, h => by
    by_cases h40 : c = 40
    · simp [_meta_parse_value, h40] at h
    · by_cases h91 : c = 91
      · simp [_meta_parse_value, h91] at h
      · exact scalar_of_parse heap 0 c rest0 v rest h40 h91 h
  | f + 1, c :: rest0, v, rest, h => by
    by_cases h40 : c = 40
    · subst h40
      rw [parse_value_obj] at h
      obtain ⟨⟨obj, s'⟩, h1, h⟩ := result_bind_ok _ _ _ h
      simp only [Except.ok.injEq, Prod.mk.injEq] at h
      obtain ⟨rfl, rfl⟩ := h
      simp only [_meta_parse_obj, skip_whitespace_token 40 rest0 (by decide), result_ok_bind,
        expect_char, if_true] at h1
      obtain ⟨⟨obj', s2⟩, h2, h1⟩ := result_bind_ok _ _ _ h1
      simp only at h1
      obtain ⟨s3, h3, h1⟩ := result_bind_ok _ _ _ h1
      simp only [result_pure, Except.ok.injEq, Prod.mk.injEq] at h1
      obtain ⟨rfl, rfl⟩ := h1
      obtain ⟨lead, fields, tail, hi1, hi2, hi3, hi4, hi5, hi6, -, hi8⟩ :=
        obj_loop_inv heap (_meta_parse_value heap f) (document_of_parse heap f) _ _ _ _ _ h2
      have hclose := expect_char_inv _ _ _ h3
      rw [hi2] at hclose
      simp only [List.cons.injEq, true_and] at hclose
      subst hclose
      refine ⟨.obj lead fields, by simp [document_text, hi1], ?_, by simp [document_value, hi3]⟩
      simp only [document_valid, Bool.and_eq_true, decide_eq_true_eq, Bool.or_eq_true,
        Bool.not_eq_true', List.isEmpty_iff]
      refine ⟨⟨⟨hi5, ?_⟩, by simpa using hi8 (by simp)⟩, hi4⟩
      cases fields with
      | nil => exact Or.inr (hi6 rfl)
      | cons fd fs => exact Or.inl (by simp)
    · by_cases h91 : c = 91
      · subst h91
        rw [parse_value_array] at h
        obtain ⟨⟨arr, s'⟩, h1, h⟩ := result_bind_ok _ _ _ h
        simp only [Except.ok.injEq, Prod.mk.injEq] at h
        obtain ⟨rfl, rfl⟩ := h
        simp only [_meta_parse_array, expect_char, if_true, result_ok_bind] at h1
        obtain ⟨s1, h0, h1⟩ := result_bind_ok _ _ _ h1
        obtain ⟨⟨arr', s2⟩, h2, h1⟩ := result_bind_ok _ _ _ h1
        simp only at h1
        obtain ⟨s3, h3, h1⟩ := result_bind_ok _ _ _ h1
        simp only [result_pure, Except.ok.injEq, Prod.mk.injEq] at h1
        obtain ⟨rfl, rfl⟩ := h1
        obtain ⟨g, c1, r1, hg1, hg2, hg3, hg4⟩ := skip_whitespace_inv _ _ h0
        obtain ⟨items, tail, hi1, hi2, hi3, hi4, hi5⟩ :=
          array_loop_inv heap (_meta_parse_value heap f) (document_of_parse heap f) _ _ _ _ _ h2
        have hclose := expect_char_inv _ _ _ h3
        rw [hi2] at hclose
        simp only [List.cons.injEq, true_and] at hclose
        subst hclose
        have hgap : is_gap g = true := by
          rcases hg4 with hg4 | hg4
          · exact hg4
          · rw [hg2] at hi1
            exact absurd hg4 (items_text_head_ne_zero items hi4 _ c1 r1 hi1.symm)
        refine ⟨.array g items, ?_, ?_, by simp [document_value, hi3]⟩
        · rw [hg1, ← hg2, hi1]
          simp [document_text]
        · simp only [document_valid, Bool.and_eq_true, decide_eq_true_eq]
          exact ⟨⟨hgap, by simpa using hi5 (by simp)⟩, hi4⟩
      · exact scalar_of_parse heap (f + 1) c rest0 v rest h40 h91 h


theorem next_after_gap (g g' Y Y' : List Nat) (hv : gap_variant g g' = true)
    (hY : Y'.head? = Y.head?) (h : next_not_numeric (g ++ Y).head? = true) :
    next_not_numeric (g' ++ Y').head? = true := by
  simp only [gap_variant, Bool.and_eq_true, beq_iff_eq] at hv
  cases g' with
  | nil =>
    have hg : g = [] := by
      have := hv.2
      simpa using this
    subst hg
    simpa [hY] using h
  | cons x g'' =>
    have hx : is_space x = true ∨ x = 35 := by
      have := hv.1
      simp only [is_gap, gap_scan] at this
      by_cases hx : is_space x = true
      · exact Or.inl hx
      · by_cases h35 : x = 35
        · exact Or.inr h35
        · simp [hx, h35] at this
    simp [next_not_numeric, (space_not_numeric hx).1]

theorem head?_text_append (d : document) (next : Option Nat) (h : document_valid d next = true)
    (Y : List Nat) : (document_text d ++ Y).head? = (document_text d).head? := by
  obtain ⟨c, r, hr, -⟩ := document_start d next h
  simp [hr]

mutual
theorem variant_document (heap : Nat → Nat) : ∀ (d d' : document) (next next' : Option Nat),
    comment_variant d d' = true → document_valid d next = true →
    (next_not_numeric next = true → next_not_numeric next' = true) →
    document_valid d' next' = true ∧ document_value heap d' = document_value heap d ∧
      (document_text d').head? = (document_text d).head?
  | .integer ds, d', next, next', hv, h, hn => by
    cases d' with
    | integer ds' =>
      simp only [comment_variant, decide_eq_true_eq] at hv
      subst hv
      simp only [document_valid, Bool.and_eq_true] at h ⊢
      exact ⟨⟨h.1, hn h.2⟩, trivial, trivial⟩
    | _ => simp [comment_variant] at hv
  | .string p c, d', next, next', hv, h, _ => by
    cases d' with
    | string p' c' =>
      simp only [comment_variant, Bool.and_eq_true, decide_eq_true_eq] at hv
      obtain ⟨rfl, rfl⟩ := hv
      exact ⟨h, rfl, rfl⟩
    | _ => simp [comment_variant] at hv
  | .null, d', next, next', hv, _, _ => by
    cases d' with
    | null => exact ⟨rfl, by simp [document_value], rfl⟩
    | _ => simp [comment_variant] at hv
  | .array g items, d', next, next', hv, h, _ => by
    cases d' with
    | array g' items' =>
      simp only [comment_variant, Bool.and_eq_true] at hv
      simp only [document_valid, Bool.and_eq_true, decide_eq_true_eq] at h ⊢
      obtain ⟨h1, h2, h3, -⟩ := variant_items heap items items' hv.2 h.2
      have hg : is_gap g' = true := by
        have := hv.1
        simp only [gap_variant, Bool.and_eq_true] at this
        exact this.1
      exact ⟨⟨⟨hg, by rw [h3]; exact h.1.2⟩, h1⟩, by simp [document_value, h2],
        by simp [document_text]⟩
    | _ => simp [comment_variant] at hv
  | .obj g fields, d', next, next', hv, h, _ => by
    cases d' with
    | obj g' fields' =>
      simp only [comment_variant, Bool.and_eq_true] at hv
      simp only [document_valid, Bool.and_eq_true, decide_eq_true_eq] at h ⊢
      obtain ⟨h1, h2, h3, -⟩ := variant_fields heap fields fields' hv.2 h.2
      have hg := hv.1
      simp only [gap_variant, Bool.and_eq_true, beq_iff_eq] at hg
      refine ⟨⟨⟨⟨hg.1, ?_⟩, by rw [h3]; exact h.1.2⟩, h1⟩, by simp [document_value, h2],
        by simp [document_text]⟩
      have he := h.1.1.2
      have hfe : fields'.isEmpty = fields.isEmpty := by
        cases fields <;> cases fields' <;> simp_all
      rw [hfe, ← hg.2]
      exact he
    | _ => simp [comment_variant] at hv
theorem variant_items (heap : Nat → Nat) : ∀ (items items' : List (List Nat × document)),
    items_variant items items' = true → items_valid items = true →
    items_valid items' = true ∧ items_value heap items' = items_value heap items ∧
      items'.length = items.length ∧
      (items_text items' ++ [93]).head? = (items_text items ++ [93]).head?
  | [], items', hv, _ => by
    cases items' with
    | nil => exact ⟨rfl, rfl, rfl, rfl⟩
    | cons a b => simp [items_variant] at hv
  | (g, d) :: rest, items', hv, h => by
    cases items' with
    | nil => simp [items_variant] at hv
    | cons it' rest' =>
      obtain ⟨g', d'⟩ := it'
      simp only [items_variant, Bool.and_eq_true] at hv
      simp only [items_valid, Bool.and_eq_true] at h ⊢
      obtain ⟨⟨hvd, hvg⟩, hvr⟩ := hv
      obtain ⟨⟨hd, hg⟩, hr⟩ := h
      obtain ⟨i1, i2, i3, i4⟩ := variant_items heap rest rest' hvr hr
      have hnext : next_not_numeric (g ++ items_text rest ++ [93]).head? = true →
          next_not_numeric (g' ++ items_text rest' ++ [93]).head? = true := by
        intro hn
        rw [List.append_assoc] at hn ⊢
        exact next_after_gap g g' _ _ hvg i4 hn
      obtain ⟨d1, d2, d3⟩ := variant_document heap d d' _ _ hvd hd hnext
      have hg' : is_gap g' = true := by
        have := hvg
        simp only [gap_variant, Bool.and_eq_true] at this
        exact this.1
      refine ⟨⟨⟨d1, hg'⟩, i1⟩, by simp [items_value, d2, i2], by simp [i3], ?_⟩
      simp only [items_text, List.append_assoc]
      rw [head?_text_append d' _ d1, head?_text_append d _ hd, d3]
theorem variant_fields (heap : Nat → Nat) : ∀ (fields fields' : List (field_layout × document)),
    fields_variant fields fields' = true → fields_valid fields = true →
    fields_valid fields' = true ∧ fields_value heap fields' = fields_value heap fields ∧
      fields'.length = fields.length ∧
      (fields_text fields' ++ [41]).head? = (fields_text fields ++ [41]).head?
  | [], fields', hv, _ => by
    cases fields' with
    | nil => exact ⟨rfl, rfl, rfl, rfl⟩
    | cons a b => simp [fields_variant] at hv
  | (f, d) :: rest, fields', hv, h => by
    cases fields' with
    | nil => simp [fields_variant] at hv
    | cons fd' rest' =>
      obtain ⟨f', d'⟩ := fd'
      simp only [fields_variant, Bool.and_eq_true, decide_eq_true_eq] at hv
      simp only [fields_valid, Bool.and_eq_true, decide_eq_true_eq] at h ⊢
      obtain ⟨⟨⟨⟨⟨hname, hvB⟩, hvC⟩, hvd⟩, hvD⟩, hvr⟩ := hv
      obtain ⟨⟨⟨⟨⟨⟨hsan, hlen⟩, hB⟩, hC⟩, hd⟩, hD⟩, hr⟩ := h
      obtain ⟨i1, i2, i3, i4⟩ := variant_fields heap rest rest' hvr hr
      have hnext : next_not_numeric (f.after_value ++ fields_text rest ++ [41]).head? = true →
          next_not_numeric (f'.after_value ++ fields_text rest' ++ [41]).head? = true := by
        intro hn
        rw [List.append_assoc] at hn ⊢
        exact next_after_gap _ _ _ _ hvD i4 hn
      obtain ⟨d1, d2, d3⟩ := variant_document heap d d' _ _ hvd hd hnext
      have hgap : ∀ g g', gap_variant g g' = true → is_gap g' = true := by
        intro g g' hgv
        simp only [gap_variant, Bool.and_eq_true] at hgv
        exact hgv.1
      refine ⟨⟨⟨⟨⟨⟨⟨by rw [← hname]; exact hsan, by rw [← hname]; exact hlen⟩,
        hgap _ _ hvB⟩, hgap _ _ hvC⟩, d1⟩, hgap _ _ hvD⟩, i1⟩,
        by simp [fields_value, d2, i2, hname], by simp [i3], ?_⟩
      have hne : f.name ≠ [] := by
        intro he
        rw [he] at hsan
        simp [_meta_is_field_sanitized] at hsan
      simp only [fields_text, List.append_assoc, ← hname]
      rw [List.head?_append_of_ne_nil _ hne, List.head?_append_of_ne_nil _ hne]
end

theorem spec_some_of_nul : ∀ (m : Bool) (t rest : List Nat),
    ∃ r, skip_whitespace_spec m (t ++ 0 :: rest) = some r
  | false, [], rest => ⟨0 :: rest, by simp [skip_whitespace_spec, is_space]⟩
  | true, [], rest => ⟨0 :: rest, by simp [skip_whitespace_spec]⟩
  | false, c :: t, rest => by
    simp only [List.cons_append, skip_whitespace_spec]
    by_cases hs : is_space c = true
    · simp only [hs, if_true]; exact spec_some_of_nul false t rest
    · by_cases h35 : c = 35
      · simp only [hs, if_false, h35, if_true]; exact spec_some_of_nul true t rest
      · exact ⟨c :: (t ++ 0 :: rest), by simp [hs, h35]⟩
  | true, c :: t, rest => by
    simp only [List.cons_append, skip_whitespace_spec]
    by_cases h10 : c = 10
    · simp only [h10, if_true]; exact spec_some_of_nul false t rest
    · by_cases h0 : c = 0
      · exact ⟨c :: (t ++ 0 :: rest), by simp [h0]⟩
      · simp only [h10, if_false, h0]; exact spec_some_of_nul true t rest

theorem variant_parses (heap heap' : Nat → Nat) (string string' rest : List Nat)
    (v : meta_value) (d d' : document)
    (h : meta_parse_string_cursor heap string = .ok (v, rest))
    (hd : string ++ [0] = document_text d ++ rest) (hvalid : document_valid d rest.head? = true)
    (hvar : comment_variant d d' = true) (hd' : string' ++ [0] = document_text d' ++ rest) :
    v = document_value heap d ∧
      meta_parse_string_cursor heap' string' = .ok (document_value heap' d, rest) := by
  have hlen : (document_text d).length ≤ string.length + 1 := by
    have := congrArg List.length hd
    simp only [List.length_append, List.length_cons, List.length_nil] at this
    omega
  have hlen' : (document_text d').length ≤ string'.length + 1 := by
    have := congrArg List.length hd'
    simp only [List.length_append, List.length_cons, List.length_nil] at this
    omega
  obtain ⟨v1, v2, -⟩ := variant_document heap' d d' rest.head? rest.head? hvar hvalid (fun h => h)
  have h1 := parse_document heap d (string.length + 1) rest hvalid hlen
  have h2 := parse_document heap' d' (string'.length + 1) rest v1 hlen'
  simp only [meta_parse_string_cursor] at h ⊢
  rw [hd, h1] at h
  simp only [Except.ok.injEq, Prod.mk.injEq, and_true] at h
  rw [hd', h2, v2]
  exact ⟨h.symm, rfl⟩

theorem skip_whitespace_stops (t : List Nat) :
    ∃ r, skip_whitespace_spec false (t ++ [0]) = some r ∧
      _meta_skip_whitespace (t ++ [0]) = .ok r := by
  obtain ⟨r, hr⟩ := spec_some_of_nul false t []
  exact ⟨r, hr, by rw [skip_whitespace_eq_spec, hr]⟩

/-- C22. The text `["a" 1]` is accepted, and `["a" #c` LF `1]` is the same
document with the whitespace run between the two items replaced by a run with
a comment. The second text is accepted too, with the same final cursor, but
its value is not structurally equal to that of the first when the bytes behind
the string allocation differ between the two parses: with a NUL there the
first parse returns the string `a`, with letters `A` there the second returns
`a` followed by 127 letters `A`. The copy that `_meta_parse_string` makes of
the payload has no NUL behind it. -/
theorem comment_changes_string_payload :
    meta_parse_string_cursor zero_heap (bytes "[\"a\" 1]")
        = .ok (.array [.string (bytes "a"), .integer 1], [0]) ∧
      bytes "[\"a\" 1]" = document_text
        (.array [] [(bytes " ", .string (bytes "a") 34), ([], .integer (bytes "1"))]) ∧
      bytes "[\"a\" #c\n1]" = document_text
        (.array [] [(bytes " #c\n", .string (bytes "a") 34), ([], .integer (bytes "1"))]) ∧
      document_valid
        (.array [] [(bytes " ", .string (bytes "a") 34), ([], .integer (bytes "1"))])
        (some 0) = true ∧
      comment_variant
        (.array [] [(bytes " ", .string (bytes "a") 34), ([], .integer (bytes "1"))])
        (.array [] [(bytes " #c\n", .string (bytes "a") 34), ([], .integer (bytes "1"))])
        = true ∧
      meta_parse_string_cursor (fun _ => 65) (bytes "[\"a\" #c\n1]")
        = .ok (.array [.string (bytes "a" ++ List.replicate 127 65), .integer 1], [0]) ∧
      meta_value.array [.string (bytes "a" ++ List.replicate 127 65), .integer 1]
        ≠ .array [.string (bytes "a"), .integer 1] := by
  decide

end Pack
